import Mathlib

/-!
# Mock storage engine of terichdb: readonly and writable stores and indexes, their files

A shallow embedding of `src/nark/db/mock_db_engine.cpp`.

Conventions of the embedding.

* A byte string (`fstring`, `valvec<byte>`, `valvec<char>`) is a `List Nat`, one element per byte.
* `size_t` is 64 bits wide and `uint32_t` 32 bits wide; a conversion or an arithmetic operation
  that can wrap is written with an explicit `%`.
* A call that reads or writes outside a container (which is also what the bounds assertions of
  the source guard) has no result: the embedded function returns `none` (or
  `BuildError.out_of_bounds`).  A thrown `length_error` is `BuildError.length_error`.
* Debug-only sanity assertions that do not guard a memory access are not part of the functions;
  the functions describe what the statements compute.
* A file is the list of its bytes: `save` returns the bytes it writes, `load` takes the bytes of
  the file and has no result when the file ends before a read is complete.
* A sequence of calls on a writable store is a list of `StoreOp`; an `llong` counter is an
  `Int`.
* The container `std::set<std::pair<Key, llong>>` of a writable index is the list of its
  elements in the order of iteration; an iterator into it is a position, the number of elements
  standing for `end()`.  A search in the set passes the elements from the first one on.  The
  key type `Key` comes with its comparisons `<` and `==` (`KeyOrder`): for a byte string
  (`std::string`, in the lexicographic order of its bytes) and for an integer type `<` is a
  linear order; for `float` the comparisons are those of IEEE 754, under which a NaN is neither
  less than, nor greater than, nor equal to any value.
* A key that is passed to a writable index as bytes becomes a `Key` by `makeKey`; for a
  primitive key type this has no result unless the bytes have the size of the type, which is
  what the source asserts before it loads the value.
* `Schema::StrZeroSaver` exists in two generations, `nark/db/db_conf.hpp` and
  `terark/db/db_conf.hpp`; both are embedded, under the prefixes `nark.` and `terark.`.  An
  output stream is the list of the bytes written so far.
-/

namespace TerichDB

/-- Byte strings. -/
abbrev Bytes := List Nat

/-- The largest `uint32_t`. -/
def UINT32_MAX : Nat := 2 ^ 32 - 1

/-- The value `size_t(-1)`, used by the readonly iterator as the "unpositioned" mark. -/
def SIZE_MAX : Nat := 2 ^ 64 - 1

/-- Conversion `uint32_t(x)`. -/
def u32 (x : Nat) : Nat := x % 2 ^ 32

/-- Subtraction `a - b` of two `size_t` values. -/
def size_sub (a b : Nat) : Nat := (a % 2 ^ 64 + 2 ^ 64 - b % 2 ^ 64) % 2 ^ 64

/-- The view `fstring(base + off, len)` of a pool: `len` bytes starting at `off`.  Bytes that
would lie behind the end of the pool are not part of the view. -/
def fstr (base : Bytes) (off len : Nat) : Bytes := (base.drop off).take len

/-- Ways in which a bulk build does not produce an object. -/
inductive BuildError where
  | length_error
  | out_of_bounds
  deriving DecidableEq, Repr

/-- The enumeration `SortOrder`. -/
inductive SortOrder where
  | Ascending
  | Descending
  | UnOrdered
  deriving DecidableEq, Repr

/-- The enumeration `ColumnType`; all number types are little-endian. -/
inductive ColumnType where
  | Uint08
  | Sint08
  | Uint16
  | Sint16
  | Uint32
  | Sint32
  | Uint64
  | Sint64
  | Uint128
  | Sint128
  | Float32
  | Float64
  | Float128
  | Uuid
  | Fixed
  | StrZero
  | StrUtf8
  | Binary
  deriving DecidableEq, Repr

/-- The structure `ColumnMeta`, without its flag bits. -/
structure ColumnMeta where
  fixedLen : Nat
  type : ColumnType
  order : SortOrder
  deriving DecidableEq, Repr

/-- The part of `Schema` that the mock engine uses: `getFixedRowLen()` and `compareData`, whose
body is outside the sources and is therefore a field, and the columns `m_columnsMeta` in column
order, which only `createIndex` reads. -/
structure Schema where
  m_fixedLen : Nat
  compareData : Bytes → Bytes → Int
  m_columnsMeta : List ColumnMeta := []

/-- Accessor `Schema::getFixedRowLen`. -/
def Schema.getFixedRowLen (s : Schema) : Nat := s.m_fixedLen

/-- Modelled from the spec: an entry `(offset, len, seq)` of the sortable string vector; the
declaration of `SortableStrVec::SEntry` is outside the sources, which only state that it is
`4*3` bytes wide. -/
structure SEntry where
  offset : Nat
  length : Nat
  seq_id : Nat
  deriving DecidableEq, Repr

/-- Modelled from the spec: the sortable string vector, "an owned
`(strpool: bytes, index: [(offset, len, seq)])` pair"; its class is outside the sources. -/
structure SortableStrVec where
  m_strpool : Bytes
  m_index : List SEntry
  deriving DecidableEq, Repr

/-- Total pool size `SortableStrVec::str_size()`. -/
def SortableStrVec.str_size (v : SortableStrVec) : Nat := v.m_strpool.length

/-- Modelled from the spec: "append a record" of the sortable string vector, which is outside
the sources: the bytes go to the end of the pool and a new entry records where they start. -/
def SortableStrVec.push_back (v : SortableStrVec) (rec : Bytes) : SortableStrVec :=
  { m_strpool := v.m_strpool ++ rec
    m_index := v.m_index ++ [{ offset := v.m_strpool.length, length := rec.length,
                               seq_id := v.m_index.length }] }

/-- A sortable string vector holding the given records in append order. -/
def SortableStrVec.ofRecords (recs : List Bytes) : SortableStrVec :=
  recs.foldl SortableStrVec.push_back { m_strpool := [], m_index := [] }

/-- Modelled from the spec: the packed `(offsets[rows+1], strpool)` form (`fstrvec`, declared
outside the sources). -/
structure fstrvec where
  strpool : Bytes
  offsets : List Nat
  deriving DecidableEq, Repr

/-- Modelled from the spec: a freshly constructed packed vector holds no row; its offset array
is the single end offset `0`. -/
def fstrvec.empty : fstrvec := { strpool := [], offsets := [0] }

/-- Number of rows `fstrvec::size()`: one less than the number of offsets. -/
def fstrvec.size (v : fstrvec) : Nat := v.offsets.length - 1

/-- Modelled from the spec: element access `v[idx]` of the packed form, the slice
`[offsets[idx], offsets[idx+1])` of the pool; there is no result when `idx` is not a row. -/
def fstrvec.get? (v : fstrvec) (idx : Nat) : Option Bytes :=
  match v.offsets[idx]?, v.offsets[idx + 1]? with
  | some off0, some off1 => some (fstr v.strpool off0 (size_sub off1 off0))
  | _, _ => none

/-- The index buffer of a sortable string vector seen as `uint32_t` words: entry `i` occupies
the words `3i`, `3i+1`, `3i+2`, offset first. -/
def indexWords : List SEntry → List Nat
  | [] => []
  | e :: es => e.offset :: e.length :: e.seq_id :: indexWords es

/-- The loop `for (i = 0; i < rows; ++i) offsets[i] = uint32_t(m_index[i].offset)` of `build`,
run on the shared buffer: `n` iterations are left, `i` is the loop counter. -/
def copyOffsets : Nat → Nat → List Nat → Option (List Nat)
  | 0, _, w => some w
  | n + 1, i, w =>
    match w[3 * i]? with
    | none => none
    | some off => copyOffsets n (i + 1) (w.set i (u32 off))

/-- The conversion to packed offsets in `build`: the loop above, then
`offsets[rows] = str_size()`.  The result is the whole buffer; its first `rows + 1` words are the
offsets. -/
def reuseIndexAsOffsets (data : SortableStrVec) : Except BuildError (List Nat) :=
  let rows := data.m_index.length
  match copyOffsets rows 0 (indexWords data.m_index) with
  | none => .error .out_of_bounds
  | some w =>
    if rows < w.length then .ok (w.set rows (u32 data.str_size))
    else .error .out_of_bounds

/-- The readonly store: `m_fixedLen` and the packed rows `m_rows`. -/
structure MockReadonlyStore where
  m_fixedLen : Nat
  m_rows : fstrvec
  deriving DecidableEq, Repr

/-- Method `MockReadonlyStore::build(schema, data)`. -/
def MockReadonlyStore.build (self : MockReadonlyStore) (schema : Schema)
    (data : SortableStrVec) : Except BuildError MockReadonlyStore :=
  let fixlen := schema.getFixedRowLen
  if fixlen = 0 then
    if data.str_size ≥ UINT32_MAX then .error .length_error
    else
      match reuseIndexAsOffsets data with
      | .error e => .error e
      | .ok w =>
        let rows := data.m_index.length
        .ok { m_fixedLen := fixlen
              m_rows := { strpool := data.m_strpool, offsets := w.take (rows + 1) } }
  else
    .ok { m_fixedLen := fixlen
          m_rows := { strpool := data.m_strpool, offsets := self.m_rows.offsets } }

/-- Method `MockReadonlyStore::getValueAppend(id, val)` for `id >= 0`: the new content of
`*val`. -/
def MockReadonlyStore.getValueAppend (self : MockReadonlyStore) (id : Nat) (val : Bytes) :
    Option Bytes :=
  if self.m_fixedLen ≠ 0 then
    if id < self.m_rows.strpool.length / self.m_fixedLen then
      some (val ++ fstr self.m_rows.strpool (self.m_fixedLen * id) self.m_fixedLen)
    else none
  else
    match self.m_rows.get? id with
    | some row => some (val ++ row)
    | none => none

/-- Method `MockReadonlyStore::numDataRows`. -/
def MockReadonlyStore.numDataRows (self : MockReadonlyStore) : Nat := self.m_rows.size

/-- Comparator `FixedLenKeyCompare`: pool, row length and schema. -/
structure FixedLenKeyCompare where
  fixedLen : Nat
  strpool : Bytes
  schema : Schema

/-- Overload `operator()(size_t x, fstring y)` of `FixedLenKeyCompare`. -/
def FixedLenKeyCompare.id_key (c : FixedLenKeyCompare) (x : Nat) (y : Bytes) : Bool :=
  let xs := fstr c.strpool (c.fixedLen * x) c.fixedLen
  decide (c.schema.compareData xs y < 0)

/-- Overload `operator()(fstring x, size_t y)` of `FixedLenKeyCompare`. -/
def FixedLenKeyCompare.key_id (c : FixedLenKeyCompare) (x : Bytes) (y : Nat) : Bool :=
  c.id_key y x

/-- Comparator `VarLenKeyCompare`: pool, offsets and schema. -/
structure VarLenKeyCompare where
  strpool : Bytes
  offsets : List Nat
  schema : Schema

/-- Overload `operator()(size_t x, fstring y)` of `VarLenKeyCompare`; an offset read outside the
array counts as `0`. -/
def VarLenKeyCompare.id_key (c : VarLenKeyCompare) (x : Nat) (y : Bytes) : Bool :=
  let xoff0 := c.offsets.getD x 0
  let xoff1 := c.offsets.getD (x + 1) 0
  let xs := fstr c.strpool xoff0 (size_sub xoff1 xoff0)
  decide (c.schema.compareData xs y < 0)

/-- Overload `operator()(fstring x, size_t y)` of `VarLenKeyCompare`. -/
def VarLenKeyCompare.key_id (c : VarLenKeyCompare) (x : Bytes) (y : Nat) : Bool :=
  c.id_key y x

/-- Insertion of `x` into a list that is ordered by `lt`: in front of the first element that
`x` precedes. -/
def sort_insert (lt : Nat → Nat → Bool) (x : Nat) : List Nat → List Nat
  | [] => [x]
  | y :: ys => if lt x y then x :: y :: ys else y :: sort_insert lt x ys

/-- The call `std::sort(begin, end, lt)`, whose algorithm the language leaves open, as an
insertion sort with the same comparator. -/
def std_sort (lt : Nat → Nat → Bool) : List Nat → List Nat
  | [] => []
  | x :: xs => sort_insert lt x (std_sort lt xs)

/-- The comparator lambda of the fixed-length branch of `MockReadonlyIndex::build`. -/
def fixedLenLess (schema : Schema) (base : Bytes) (fixlen : Nat) (x y : Nat) : Bool :=
  let xs := fstr base (fixlen * x) fixlen
  let ys := fstr base (fixlen * y) fixlen
  let r := schema.compareData xs ys
  if r ≠ 0 then decide (r < 0) else decide (x < y)

/-- The comparator lambda of the variable-length branch of `MockReadonlyIndex::build`; `offsets`
is the shared buffer, an offset read outside it counts as `0`. -/
def varLenLess (schema : Schema) (base : Bytes) (offsets : List Nat) (x y : Nat) : Bool :=
  let xoff0 := offsets.getD x 0
  let xoff1 := offsets.getD (x + 1) 0
  let yoff0 := offsets.getD y 0
  let yoff1 := offsets.getD (y + 1) 0
  let xs := fstr base xoff0 (size_sub xoff1 xoff0)
  let ys := fstr base yoff0 (size_sub yoff1 yoff0)
  let r := schema.compareData xs ys
  if r ≠ 0 then decide (r < 0) else decide (x < y)

/-- The readonly index: packed keys, the `uint32_t` array `m_ids`, `m_fixedLen` and the
schema. -/
structure MockReadonlyIndex where
  m_keys : fstrvec
  m_ids : List Nat
  m_fixedLen : Nat
  m_schema : Schema

/-- The statements `m_ids.resize_no_init(n); for (i = 0; i < n; ++i) m_ids[i] = i;`: the
elements are `uint32_t`. -/
def initIds (n : Nat) : List Nat := (List.range n).map u32

/-- Method `MockReadonlyIndex::build(keys)`. -/
def MockReadonlyIndex.build (self : MockReadonlyIndex) (keys : SortableStrVec) :
    Except BuildError MockReadonlyIndex :=
  let schema := self.m_schema
  let base := keys.m_strpool
  let fixlen := schema.getFixedRowLen
  if fixlen ≠ 0 then
    let ids := initIds (keys.str_size / fixlen)
    .ok { self with
          m_ids := std_sort (fixedLenLess schema base fixlen) ids
          m_keys := { strpool := keys.m_strpool, offsets := self.m_keys.offsets }
          m_fixedLen := fixlen }
  else
    if keys.str_size ≥ UINT32_MAX then .error .length_error
    else
      let rows := keys.m_index.length
      let ids := initIds rows
      match reuseIndexAsOffsets keys with
      | .error e => .error e
      | .ok offsets =>
        .ok { self with
              m_ids := std_sort (varLenLess schema base offsets) ids
              m_keys := { strpool := keys.m_strpool, offsets := offsets.take (rows + 1) }
              m_fixedLen := fixlen }

/-- The number of rows that `MockReadonlyIndex::build` sees in its input. -/
def MockReadonlyIndex.buildRows (schema : Schema) (keys : SortableStrVec) : Nat :=
  if schema.getFixedRowLen ≠ 0 then keys.str_size / schema.getFixedRowLen
  else keys.m_index.length

/-- The key bytes of row `id` as the comparators of the index read them from the pool. -/
def MockReadonlyIndex.rowKey (self : MockReadonlyIndex) (id : Nat) : Bytes :=
  if self.m_fixedLen ≠ 0 then fstr self.m_keys.strpool (self.m_fixedLen * id) self.m_fixedLen
  else
    let off0 := self.m_keys.offsets.getD id 0
    let off1 := self.m_keys.offsets.getD (id + 1) 0
    fstr self.m_keys.strpool off0 (size_sub off1 off0)

/-- Modelled from the spec: "All probes use binary search over `ids`"; the loop of
`nark::lower_bound_0(a, n, key, comp)`, which is outside the sources, with `fuel` iterations
left: the first position in `[lo, hi)` whose element does not precede the key. -/
def lower_bound_loop (a : List Nat) (comp : Nat → Bool) : Nat → Nat → Nat → Nat
  | 0, lo, _ => lo
  | fuel + 1, lo, hi =>
    if lo < hi then
      let mid := (lo + hi) / 2
      if comp (a.getD mid 0) then lower_bound_loop a comp fuel (mid + 1) hi
      else lower_bound_loop a comp fuel lo mid
    else lo

/-- Modelled from the spec: `nark::lower_bound_0(a, n, key, comp)`, binary search over the first
`n` elements of `a`; `n` iterations always suffice. -/
def lower_bound_0 (a : List Nat) (n : Nat) (comp : Nat → Bool) : Nat :=
  lower_bound_loop a comp n 0 n

/-- The readonly index iterator: its position `m_pos`; the index it refers to is passed to
each call. -/
structure MockReadonlyIndexIterator where
  m_pos : Nat
  deriving DecidableEq, Repr

/-- A freshly created iterator: `m_pos = size_t(-1)`. -/
def MockReadonlyIndexIterator.fresh : MockReadonlyIndexIterator := { m_pos := SIZE_MAX }

/-- Method `getIndexKey(id, key, owner, pos)`: the values written to `*id` and, when the `key`
pointer is not null (`wantKey`), to `*key`. -/
def MockReadonlyIndexIterator.getIndexKey (owner : MockReadonlyIndex) (wantKey : Bool)
    (pos : Nat) : Option (Nat × Option Bytes) :=
  match owner.m_ids[pos]? with
  | none => none
  | some id =>
    if wantKey then
      match owner.m_keys.get? id with
      | some k => some (id, some k)
      | none => none
    else some (id, none)

/-- Method `increment(id, key)`: the new iterator and, when the call returns `true`, what it
wrote to `*id` and `*key`; the inner `none` is the return value `false`. -/
def MockReadonlyIndexIterator.increment (owner : MockReadonlyIndex) (wantKey : Bool)
    (it : MockReadonlyIndexIterator) :
    Option (MockReadonlyIndexIterator × Option (Nat × Option Bytes)) :=
  if it.m_pos = SIZE_MAX then
    match MockReadonlyIndexIterator.getIndexKey owner wantKey 0 with
    | none => none
    | some e => some ({ m_pos := 1 }, some e)
  else if it.m_pos < owner.m_ids.length then
    match MockReadonlyIndexIterator.getIndexKey owner wantKey it.m_pos with
    | none => none
    | some e => some ({ m_pos := (it.m_pos + 1) % 2 ^ 64 }, some e)
  else some (it, none)

/-- Method `decrement(id, key)`, with the same reading of the result as `increment`. -/
def MockReadonlyIndexIterator.decrement (owner : MockReadonlyIndex) (wantKey : Bool)
    (it : MockReadonlyIndexIterator) :
    Option (MockReadonlyIndexIterator × Option (Nat × Option Bytes)) :=
  if it.m_pos = SIZE_MAX then
    let pos := size_sub owner.m_ids.length 1
    match MockReadonlyIndexIterator.getIndexKey owner wantKey pos with
    | none => none
    | some e => some ({ m_pos := pos }, some e)
  else if it.m_pos > 0 then
    match MockReadonlyIndexIterator.getIndexKey owner wantKey (it.m_pos - 1) with
    | none => none
    | some e => some ({ m_pos := it.m_pos - 1 }, some e)
  else some (it, none)

/-- Method `seekLowerBound_imp(key, pLower)`: the value written to `*pLower` and the returned
flag. -/
def MockReadonlyIndexIterator.seekLowerBound_imp (owner : MockReadonlyIndex) (key : Bytes) :
    Option (Nat × Bool) :=
  let index := owner.m_ids
  let rows := owner.m_ids.length
  let fixlen := owner.m_fixedLen
  if fixlen ≠ 0 then
    let cmp : FixedLenKeyCompare :=
      { fixedLen := fixlen, strpool := owner.m_keys.strpool, schema := owner.m_schema }
    let lo := lower_bound_0 index rows (fun x => cmp.id_key x key)
    if lo < rows then
      match owner.m_keys.get? lo with
      | some k => some (lo, decide (key = k))
      | none => none
    else some (lo, false)
  else
    let cmp : VarLenKeyCompare :=
      { offsets := owner.m_keys.offsets, strpool := owner.m_keys.strpool,
        schema := owner.m_schema }
    let lo := lower_bound_0 index rows (fun x => cmp.id_key x key)
    if lo < rows then
      match owner.m_keys.get? lo with
      | some k => some (lo, decide (key = k))
      | none => none
    else some (lo, false)

/-- Method `seekExact(key)`: the new iterator and the returned flag. -/
def MockReadonlyIndexIterator.seekExact (owner : MockReadonlyIndex) (key : Bytes)
    (it : MockReadonlyIndexIterator) : Option (MockReadonlyIndexIterator × Bool) :=
  match MockReadonlyIndexIterator.seekLowerBound_imp owner key with
  | none => none
  | some (lo, true) => some ({ m_pos := lo }, true)
  | some (_, false) => some (it, false)

/-- Method `seekLowerBound(key)`: the new iterator and the returned flag. -/
def MockReadonlyIndexIterator.seekLowerBound (owner : MockReadonlyIndex) (key : Bytes)
    (_it : MockReadonlyIndexIterator) : Option (MockReadonlyIndexIterator × Bool) :=
  match MockReadonlyIndexIterator.seekLowerBound_imp owner key with
  | none => none
  | some (lo, b) => some ({ m_pos := lo }, b)

/-- The constructor `MockReadonlyIndex(schema)`: no ids, no keys; `m_fixedLen` is first set by
`build` or `load` and is `0` here. -/
def MockReadonlyIndex.new (schema : Schema) : MockReadonlyIndex :=
  { m_keys := fstrvec.empty, m_ids := [], m_fixedLen := 0, m_schema := schema }

/-- The schema's comparison applied to the keys of two rows of an index. -/
def MockReadonlyIndex.cmpRows (self : MockReadonlyIndex) (x y : Nat) : Int :=
  self.m_schema.compareData (self.rowKey x) (self.rowKey y)

/-- On the keys of the first `rows` rows of an index `compareData` is a total preorder in
three-way form: the sign of `compareData x y` is opposite to the sign of `compareData y x`, and
`compareData x y <= 0` is transitive. -/
def MockReadonlyIndex.KeysPreordered (self : MockReadonlyIndex) (rows : Nat) : Prop :=
  (∀ x, x < rows → ∀ y, y < rows → (self.cmpRows x y < 0 ↔ 0 < self.cmpRows y x)) ∧
  (∀ x, x < rows → ∀ y, y < rows → ∀ z, z < rows →
    self.cmpRows x y ≤ 0 → self.cmpRows y z ≤ 0 → self.cmpRows x z ≤ 0)

instance (self : MockReadonlyIndex) (rows : Nat) : Decidable (self.KeysPreordered rows) := by
  unfold MockReadonlyIndex.KeysPreordered
  infer_instance

/-- The array `m_ids` is sorted: for any two positions `i < j` the key of `ids[i]` compares
less than or equal to the key of `ids[j]`, and when they compare equal `ids[i] < ids[j]`. -/
def MockReadonlyIndex.IdsSorted (self : MockReadonlyIndex) : Prop :=
  self.m_ids.Pairwise (fun a b =>
    self.cmpRows a b ≤ 0 ∧ (self.cmpRows a b = 0 → a < b))

/-- The lower bound of a probe key: the number of entries of `m_ids` whose key compares less
than the key. -/
def MockReadonlyIndex.countLess (self : MockReadonlyIndex) (key : Bytes) : Nat :=
  (self.m_ids.filter (fun id =>
    decide (self.m_schema.compareData (self.rowKey id) key < 0))).length

/-- A sample `compareData`: bytewise lexicographic comparison, a shorter string before its
extensions. -/
def bytewiseCompare : Bytes → Bytes → Int
  | [], [] => 0
  | [], _ :: _ => -1
  | _ :: _, [] => 1
  | a :: as, b :: bs => if a < b then -1 else if b < a then 1 else bytewiseCompare as bs

/-- A sample variable-length schema. -/
def sampleVarSchema : Schema := { m_fixedLen := 0, compareData := bytewiseCompare }

/-- A sample schema whose rows are one byte long. -/
def sampleFixedSchema : Schema := { m_fixedLen := 1, compareData := bytewiseCompare }

/-- Sample keys `"b"`, `"a"`, `"c"`, `"a"` appended in this order. -/
def sampleVarKeys : SortableStrVec := SortableStrVec.ofRecords [[98], [97], [99], [97]]

/-- The index that `build` makes of `sampleVarKeys`. -/
def sampleVarIndex : MockReadonlyIndex :=
  { m_keys := { strpool := [98, 97, 99, 97], offsets := [0, 1, 2, 3, 4] }
    m_ids := [1, 3, 0, 2]
    m_fixedLen := 0
    m_schema := sampleVarSchema }

/-- A pool of `2^32 + 1` one-byte keys. -/
def hugeFixedKeys : SortableStrVec :=
  { m_strpool := List.replicate (2 ^ 32 + 1) 0, m_index := [] }

/-- A schema with one-byte rows under which all keys compare equal. -/
def constFixedSchema : Schema := { m_fixedLen := 1, compareData := fun _ _ => 0 }

/-- A variable-length schema under which all keys compare equal. -/
def constVarSchema : Schema := { m_fixedLen := 0, compareData := fun _ _ => 0 }

/-- The vector of `2^32 + 1` empty keys in append order. -/
def hugeVarKeys : SortableStrVec := SortableStrVec.ofRecords (List.replicate (2 ^ 32 + 1) [])

/-- The entry that `getIndexKey` writes for the local id `id`: the id and, when a key buffer is
passed, the key `m_keys[id]`. -/
def MockReadonlyIndex.entry (owner : MockReadonlyIndex) (wantKey : Bool) (id : Nat) :
    Nat × Option Bytes :=
  (id, if wantKey then owner.m_keys.get? id else none)

/-- Every id of `m_ids` is a row of the packed keys `m_keys`, so that `m_keys[id]` can be
read. -/
def MockReadonlyIndex.KeysReadable (owner : MockReadonlyIndex) : Prop :=
  ∀ id ∈ owner.m_ids, id + 1 < owner.m_keys.offsets.length

instance (owner : MockReadonlyIndex) : Decidable owner.KeysReadable := by
  unfold MockReadonlyIndex.KeysReadable
  infer_instance

/-- The results of `n` successive calls of `increment`, oldest first, and the iterator after
them. -/
def MockReadonlyIndexIterator.incrementN (owner : MockReadonlyIndex) (wantKey : Bool) :
    Nat → MockReadonlyIndexIterator →
    Option (MockReadonlyIndexIterator × List (Option (Nat × Option Bytes)))
  | 0, it => some (it, [])
  | n + 1, it =>
    match MockReadonlyIndexIterator.increment owner wantKey it with
    | none => none
    | some (it1, r) =>
      match MockReadonlyIndexIterator.incrementN owner wantKey n it1 with
      | none => none
      | some (it2, rs) => some (it2, r :: rs)

/-- The results of `n` successive calls of `decrement`, oldest first, and the iterator after
them. -/
def MockReadonlyIndexIterator.decrementN (owner : MockReadonlyIndex) (wantKey : Bool) :
    Nat → MockReadonlyIndexIterator →
    Option (MockReadonlyIndexIterator × List (Option (Nat × Option Bytes)))
  | 0, it => some (it, [])
  | n + 1, it =>
    match MockReadonlyIndexIterator.decrement owner wantKey it with
    | none => none
    | some (it1, r) =>
      match MockReadonlyIndexIterator.decrementN owner wantKey n it1 with
      | none => none
      | some (it2, rs) => some (it2, r :: rs)

/-- The key operations of `MockWritableIndex<Key>::MyIndexIter` that depend on the key type:
`copyKey`, `makeKey` and `keyHeapLen`.  `makeKey` has no result when the assertion on the size
of the key bytes fails. -/
class IndexKey (Key : Type) where
  copyKey : Key → Bytes
  makeKey : Bytes → Option Key
  keyHeapLen : Key → Nat

/-- The overloads for `Key = std::string`: the key is the byte string itself and its heap
length is `size() + 1`. -/
instance : IndexKey Bytes where
  copyKey := fun src => src
  makeKey := fun key => some key
  keyHeapLen := fun x => x.length + 1

/-- The writable index `MockWritableIndex<Key>`: the ordered set `m_kv` of `(key, id)` pairs,
given by its elements in the order of iteration, and the counter `m_keysLen`. -/
structure MockWritableIndex (Key : Type) where
  m_kv : List (Key × Int)
  m_keysLen : Nat
  deriving DecidableEq

/-- The iterator `MockWritableIndex<Key>::MyIndexIter`: `m_iter` is the position in `m_kv` it
points to (`m_kv.size()` stands for `end()`), `m_isNull` the "unpositioned" flag. -/
structure MyIndexIter where
  m_iter : Nat
  m_isNull : Bool
  deriving DecidableEq, Repr

/-- Method `MyIndexIter::increment(id, key)`: the new iterator and, when the call returns
`true`, what it wrote to `*id` and `*key`. -/
def MyIndexIter.increment {Key : Type} [IndexKey Key] (owner : MockWritableIndex Key)
    (it : MyIndexIter) : Option (MyIndexIter × Option (Int × Bytes)) :=
  if it.m_isNull then
    match owner.m_kv[0]? with
    | some kv => some ({ m_iter := 1, m_isNull := false }, some (kv.2, IndexKey.copyKey kv.1))
    | none => some ({ m_iter := 0, m_isNull := false }, none)
  else if owner.m_kv.length ≠ it.m_iter then
    match owner.m_kv[it.m_iter]? with
    | some kv => some ({ it with m_iter := it.m_iter + 1 }, some (kv.2, IndexKey.copyKey kv.1))
    | none => none
  else some (it, none)

/-- Method `MyIndexIter::decrement(id, key)`, with the same reading of the result. -/
def MyIndexIter.decrement {Key : Type} [IndexKey Key] (owner : MockWritableIndex Key)
    (it : MyIndexIter) : Option (MyIndexIter × Option (Int × Bytes)) :=
  if it.m_isNull then
    if owner.m_kv.length ≠ 0 then
      match owner.m_kv[owner.m_kv.length - 1]? with
      | some kv =>
        some ({ m_iter := owner.m_kv.length - 1, m_isNull := false },
          some (kv.2, IndexKey.copyKey kv.1))
      | none => none
    else some ({ m_iter := owner.m_kv.length, m_isNull := false }, none)
  else if 0 ≠ it.m_iter then
    match owner.m_kv[it.m_iter - 1]? with
    | some kv => some ({ it with m_iter := it.m_iter - 1 }, some (kv.2, IndexKey.copyKey kv.1))
    | none => none
  else some (it, none)

/-- Sample one-byte keys `"b"`, `"a"`, `"c"`, `"a"` for a fixed-length schema. -/
def sampleFixedKeys : SortableStrVec := { m_strpool := [98, 97, 99, 97], m_index := [] }

/-- The index that `build` makes of `sampleFixedKeys`. -/
def sampleFixedIndex : MockReadonlyIndex :=
  { m_keys := { strpool := [98, 97, 99, 97], offsets := [0] }
    m_ids := [1, 3, 0, 2]
    m_fixedLen := 1
    m_schema := sampleFixedSchema }

/-- The empty fixed-length key set. -/
def emptyFixedKeys : SortableStrVec := { m_strpool := [], m_index := [] }

/-- The index that `build` makes of the empty fixed-length key set: no rows. -/
def emptyFixedIndex : MockReadonlyIndex :=
  { m_keys := { strpool := [], offsets := [0] }
    m_ids := []
    m_fixedLen := 1
    m_schema := sampleFixedSchema }

/-- A sample writable index over byte-string keys with the entries `("a", 0)` and `("b", 1)`. -/
def sampleWritableIndex : MockWritableIndex Bytes :=
  { m_kv := [([97], 0), ([98], 1)], m_keysLen := 4 }

/-- Modelled from the spec: a readonly store before `build` or `load`, whose constructor is
outside the sources: it holds no row. -/
def MockReadonlyStore.new : MockReadonlyStore := { m_fixedLen := 0, m_rows := fstrvec.empty }

/-- Sample records `[1, 2]`, `[3]`, `[4, 5, 6]`. -/
def sampleRecords : List Bytes := [[1, 2], [3], [4, 5, 6]]

/-! ### File format, writable store and writable segment -/

/-- Modelled from the spec: "all integers little-endian"; the `n` bytes that the native output
stream, which is outside the sources, writes for an unsigned integer that is `n` bytes wide. -/
def le_bytes : Nat → Nat → Bytes
  | 0, _ => []
  | n + 1, x => x % 256 :: le_bytes n (x / 256)

/-- Modelled from the spec: the unsigned integer that the native input stream, which is outside
the sources, reads from little-endian bytes. -/
def le_value : Bytes → Nat
  | [] => 0
  | b :: bs => b % 256 + 256 * le_value bs

/-- The raw memory of a `uint32_t` array, four bytes per element: what
`ensureWrite(a.data(), a.used_mem_size())` writes. -/
def u32_array_bytes : List Nat → Bytes
  | [] => []
  | x :: xs => le_bytes 4 x ++ u32_array_bytes xs

/-- The `uint32_t` array of `n` elements whose raw memory holds the given `4n` bytes. -/
def u32_array_of_bytes : Nat → Bytes → List Nat
  | 0, _ => []
  | n + 1, b => le_value (b.take 4) :: u32_array_of_bytes n (b.drop 4)

/-- Modelled from the spec: `ensureRead(buf, n)` of the input stream, which is outside the
sources: the next `n` bytes and the rest of the input; no result when the input is shorter. -/
def ensureRead (n : Nat) (inp : Bytes) : Option (Bytes × Bytes) :=
  if n ≤ inp.length then some (inp.take n, inp.drop n) else none

/-- The extraction `dio >> x` of a `uint64_t`: eight bytes of the input. -/
def read_u64 (inp : Bytes) : Option (Nat × Bytes) :=
  match ensureRead 8 inp with
  | none => none
  | some (b, rest) => some (le_value b, rest)

/-- Method `MockReadonlyStore::save(path)`: the bytes of the file it writes. -/
def MockReadonlyStore.save (self : MockReadonlyStore) : Bytes :=
  let rows :=
    if self.m_fixedLen ≠ 0 then self.m_rows.strpool.length / self.m_fixedLen
    else self.m_rows.size
  let fp : Bytes := []
  let fp := fp ++ le_bytes 8 self.m_fixedLen
  let fp := fp ++ le_bytes 8 rows
  let fp := fp ++ le_bytes 8 self.m_rows.strpool.length
  let fp := if self.m_fixedLen = 0 then fp ++ u32_array_bytes self.m_rows.offsets else fp
  fp ++ self.m_rows.strpool

/-- Method `MockReadonlyStore::load(path)` on a file with the given bytes: the object
afterwards; no result when the file ends before a read is complete. -/
def MockReadonlyStore.load (self : MockReadonlyStore) (file : Bytes) :
    Option MockReadonlyStore :=
  match read_u64 file with
  | none => none
  | some (fixlen, inp1) =>
    match read_u64 inp1 with
    | none => none
    | some (rows, inp2) =>
      match read_u64 inp2 with
      | none => none
      | some (strSize, inp3) =>
        if fixlen = 0 then
          let n := (rows + 1) % 2 ^ 64
          match ensureRead (4 * n) inp3 with
          | none => none
          | some (offs, inp4) =>
            match ensureRead strSize inp4 with
            | none => none
            | some (pool, _) =>
              some { m_fixedLen := fixlen
                     m_rows := { strpool := pool, offsets := u32_array_of_bytes n offs } }
        else
          match ensureRead strSize inp3 with
          | none => none
          | some (pool, _) =>
            some { m_fixedLen := fixlen
                   m_rows := { strpool := pool, offsets := self.m_rows.offsets } }

/-- Method `MockReadonlyIndex::save(path)`: the bytes of the file it writes. -/
def MockReadonlyIndex.save (self : MockReadonlyIndex) : Bytes :=
  let rows := self.m_ids.length
  let fp : Bytes := []
  let fp := fp ++ le_bytes 8 self.m_fixedLen
  let fp := fp ++ le_bytes 8 rows
  let fp := fp ++ le_bytes 8 self.m_keys.strpool.length
  let fp := fp ++ u32_array_bytes self.m_ids
  let fp := if self.m_fixedLen ≠ 0 then fp else fp ++ u32_array_bytes self.m_keys.offsets
  fp ++ self.m_keys.strpool

/-- Method `MockReadonlyIndex::load(path)` on a file with the given bytes: the object
afterwards; no result when the file ends before a read is complete. -/
def MockReadonlyIndex.load (self : MockReadonlyIndex) (file : Bytes) :
    Option MockReadonlyIndex :=
  match read_u64 file with
  | none => none
  | some (fixlen, inp1) =>
    match read_u64 inp1 with
    | none => none
    | some (rows, inp2) =>
      match read_u64 inp2 with
      | none => none
      | some (keylen, inp3) =>
        match ensureRead (4 * rows) inp3 with
        | none => none
        | some (ids, inp4) =>
          if fixlen = 0 then
            let n := (rows + 1) % 2 ^ 64
            match ensureRead (4 * n) inp4 with
            | none => none
            | some (offs, inp5) =>
              match ensureRead keylen inp5 with
              | none => none
              | some (pool, _) =>
                some { self with
                       m_ids := u32_array_of_bytes rows ids
                       m_keys := { strpool := pool, offsets := u32_array_of_bytes n offs }
                       m_fixedLen := fixlen }
          else
            match ensureRead keylen inp4 with
            | none => none
            | some (pool, _) =>
              some { self with
                     m_ids := u32_array_of_bytes rows ids
                     m_keys := { strpool := pool, offsets := self.m_keys.offsets }
                     m_fixedLen := fixlen }

/-- The debug assertions on the offsets of a variable-length store, as `build`, `save` and
`load` state them: `strpool.size() == offsets.back()` and `offsets[i] < offsets[i+1]` for every
`i < rows`. -/
def MockReadonlyStore.offsetsAsserted (self : MockReadonlyStore) : Bool :=
  decide (self.m_rows.offsets.getLast? = some self.m_rows.strpool.length) &&
  (List.range self.m_rows.size).all
    (fun i => decide (self.m_rows.offsets.getD i 0 < self.m_rows.offsets.getD (i + 1) 0))

/-- A vector with one record of `2^32 - 1` bytes. -/
def maxPoolKeys : SortableStrVec :=
  { m_strpool := List.replicate (2 ^ 32 - 1) 0
    m_index := [{ offset := 0, length := 2 ^ 32 - 1, seq_id := 0 }] }

/-- Sample records with a zero-length record in the middle. -/
def recordsWithEmpty : List Bytes := [[1], [], [2]]

/-- The writable store: the rows `m_rows` by local id and the counter `m_dataSize`, an `llong`
that only `dataStorageSize` reads. -/
structure MockWritableStore where
  m_rows : List Bytes
  m_dataSize : Int
  deriving DecidableEq, Repr

/-- Method `MockWritableStore::numDataRows`. -/
def MockWritableStore.numDataRows (self : MockWritableStore) : Nat := self.m_rows.length

/-- Method `MockWritableStore::dataStorageSize`; `rowHeader` is the size of one element of the
container `m_rows`, so that `m_rows.used_mem_size()` is `rowHeader * m_rows.size()`. -/
def MockWritableStore.dataStorageSize (rowHeader : Nat) (self : MockWritableStore) : Int :=
  (rowHeader * self.m_rows.length : Nat) + self.m_dataSize

/-- Method `MockWritableStore::getValueAppend(id, val)` for `id >= 0`: the new content of
`*val`. -/
def MockWritableStore.getValueAppend (self : MockWritableStore) (id : Nat) (val : Bytes) :
    Option Bytes :=
  if h : id < self.m_rows.length then some (val ++ self.m_rows[id]) else none

/-- Method `MockWritableStore::append(row)`: the store afterwards and the returned id. -/
def MockWritableStore.append (self : MockWritableStore) (row : Bytes) :
    MockWritableStore × Nat :=
  let id := self.m_rows.length
  ({ self with m_rows := self.m_rows ++ [row] }, id)

/-- Method `MockWritableStore::replace(id, row)` for `id >= 0`. -/
def MockWritableStore.replace (self : MockWritableStore) (id : Nat) (row : Bytes) :
    Option MockWritableStore :=
  if id < self.m_rows.length then some { self with m_rows := self.m_rows.set id row }
  else none

/-- Method `MockWritableStore::remove(id)` for `id >= 0`. -/
def MockWritableStore.remove (self : MockWritableStore) (id : Nat) :
    Option MockWritableStore :=
  if id < self.m_rows.length then some { self with m_rows := self.m_rows.set id [] }
  else none

/-- The store part of the writable segment: the rows `m_rows` by local id and the counter
`m_dataSize`, an `llong`. -/
structure MockWritableSegment where
  m_rows : List Bytes
  m_dataSize : Int
  deriving DecidableEq, Repr

/-- Modelled from the spec: `numDataRows()` of the writable segment, whose method is outside
the sources: the number of slots `m_rows.size()`, the quantity from which `append` takes the
next id and against which `getValueAppend`, `replace` and `remove` check an id; it is what
`MockWritableStore::numDataRows` returns. -/
def MockWritableSegment.numDataRows (self : MockWritableSegment) : Nat := self.m_rows.length

/-- Method `MockWritableSegment::dataStorageSize`, with `rowHeader` as for the store. -/
def MockWritableSegment.dataStorageSize (rowHeader : Nat) (self : MockWritableSegment) : Int :=
  (rowHeader * self.m_rows.length : Nat) + self.m_dataSize

/-- Method `MockWritableSegment::getValueAppend(id, val)` for `id >= 0`. -/
def MockWritableSegment.getValueAppend (self : MockWritableSegment) (id : Nat) (val : Bytes) :
    Option Bytes :=
  if h : id < self.m_rows.length then some (val ++ self.m_rows[id]) else none

/-- Method `MockWritableSegment::append(row)`: the segment afterwards and the returned id. -/
def MockWritableSegment.append (self : MockWritableSegment) (row : Bytes) :
    MockWritableSegment × Nat :=
  let id := self.m_rows.length
  ({ m_rows := self.m_rows ++ [row], m_dataSize := self.m_dataSize + row.length }, id)

/-- Method `MockWritableSegment::replace(id, row)` for `id >= 0`. -/
def MockWritableSegment.replace (self : MockWritableSegment) (id : Nat) (row : Bytes) :
    Option MockWritableSegment :=
  if h : id < self.m_rows.length then
    let oldsize := self.m_rows[id].length
    some { m_rows := self.m_rows.set id row
           m_dataSize := self.m_dataSize - oldsize + row.length }
  else none

/-- Method `MockWritableSegment::remove(id)` for `id >= 0`. -/
def MockWritableSegment.remove (self : MockWritableSegment) (id : Nat) :
    Option MockWritableSegment :=
  if h : id < self.m_rows.length then
    some { m_rows := self.m_rows.set id []
           m_dataSize := self.m_dataSize - self.m_rows[id].length }
  else none

/-- The iterator `MockWritableStoreIter<WrStore>`: the next id `m_id`; the rows of the store it
refers to are passed to each call. -/
structure MockWritableStoreIter where
  m_id : Nat
  deriving DecidableEq, Repr

/-- The constructor of the iterator: `m_id = 0`. -/
def MockWritableStoreIter.fresh : MockWritableStoreIter := { m_id := 0 }

/-- Method `MockWritableStoreIter::increment(id, val)` over the rows `m_rows` of the store: the
new iterator and, when the call returns `true`, what it wrote to `*id` and `*val`. -/
def MockWritableStoreIter.increment (m_rows : List Bytes) (it : MockWritableStoreIter) :
    MockWritableStoreIter × Option (Nat × Bytes) :=
  if h : it.m_id < m_rows.length then
    ({ m_id := (it.m_id + 1) % 2 ^ 64 }, some (it.m_id, m_rows[it.m_id]))
  else (it, none)

/-- The results of `n` successive calls of `increment`, oldest first, and the iterator after
them. -/
def MockWritableStoreIter.incrementN (m_rows : List Bytes) :
    Nat → MockWritableStoreIter → MockWritableStoreIter × List (Option (Nat × Bytes))
  | 0, it => (it, [])
  | n + 1, it =>
    let r := MockWritableStoreIter.increment m_rows it
    let rs := MockWritableStoreIter.incrementN m_rows n r.1
    (rs.1, r.2 :: rs.2)

/-- A mutating call of a writable store. -/
inductive StoreOp where
  | append (row : Bytes)
  | replace (id : Nat) (row : Bytes)
  | remove (id : Nat)
  deriving DecidableEq, Repr

/-- One mutating call on a `MockWritableStore`: the store afterwards and the id that the call
returned, if it was an `append`. -/
def MockWritableStore.step (self : MockWritableStore) : StoreOp →
    Option (MockWritableStore × Option Nat)
  | .append row => some ((self.append row).1, some (self.append row).2)
  | .replace id row => (self.replace id row).map (fun s => (s, none))
  | .remove id => (self.remove id).map (fun s => (s, none))

/-- A sequence of mutating calls on a `MockWritableStore`, first call first: the store
afterwards and the ids that the `append` calls returned, in call order. -/
def MockWritableStore.run (self : MockWritableStore) : List StoreOp →
    Option (MockWritableStore × List Nat)
  | [] => some (self, [])
  | op :: ops =>
    match self.step op with
    | none => none
    | some (s, r) =>
      match s.run ops with
      | none => none
      | some (t, ids) => some (t, r.toList ++ ids)

/-- One mutating call on a `MockWritableSegment`, read as for the store. -/
def MockWritableSegment.step (self : MockWritableSegment) : StoreOp →
    Option (MockWritableSegment × Option Nat)
  | .append row => some ((self.append row).1, some (self.append row).2)
  | .replace id row => (self.replace id row).map (fun s => (s, none))
  | .remove id => (self.remove id).map (fun s => (s, none))

/-- A sequence of mutating calls on a `MockWritableSegment`, read as for the store. -/
def MockWritableSegment.run (self : MockWritableSegment) : List StoreOp →
    Option (MockWritableSegment × List Nat)
  | [] => some (self, [])
  | op :: ops =>
    match self.step op with
    | none => none
    | some (s, r) =>
      match s.run ops with
      | none => none
      | some (t, ids) => some (t, r.toList ++ ids)

/-- The live payload of a sequence of rows: the sum of their lengths. -/
def livePayload (rows : List Bytes) : Nat := (rows.map List.length).sum

/-- A writable store that holds the rows `"ab"`, `""` (a cleared slot) and `"c"`. -/
def sampleWritableStore : MockWritableStore := { m_rows := [[97, 98], [], [99]], m_dataSize := 0 }

/-- A writable segment that holds the rows `"ab"`, `""` (a cleared slot) and `"c"`. -/
def sampleWritableSegment : MockWritableSegment :=
  { m_rows := [[97, 98], [], [99]], m_dataSize := 3 }

/-- The empty writable store, with `m_dataSize = 0`. -/
def MockWritableStore.empty : MockWritableStore := { m_rows := [], m_dataSize := 0 }

/-- The empty writable segment, with `m_dataSize = 0`. -/
def MockWritableSegment.empty : MockWritableSegment := { m_rows := [], m_dataSize := 0 }

/-- The store that `build` makes of `sampleVarKeys`. -/
def sampleVarStore : MockReadonlyStore :=
  { m_fixedLen := 0, m_rows := { strpool := [98, 97, 99, 97], offsets := [0, 1, 2, 3, 4] } }

/-- The store that `build` makes of `sampleFixedKeys` under one-byte rows. -/
def sampleFixedStore : MockReadonlyStore :=
  { m_fixedLen := 1, m_rows := { strpool := [98, 97, 99, 97], offsets := [0] } }

/-- The store that `build` makes of `recordsWithEmpty`. -/
def storeWithEmpty : MockReadonlyStore :=
  { m_fixedLen := 0, m_rows := { strpool := [1, 2], offsets := [0, 1, 1, 2] } }

/-- The row count that `MockReadonlyStore::save` writes to the file: the number of rows of the
packed vector, and in the fixed-length case the pool size divided by the row length. -/
def MockReadonlyStore.rowCount (self : MockReadonlyStore) : Nat :=
  if self.m_fixedLen = 0 then self.numDataRows
  else self.m_rows.strpool.length / self.m_fixedLen

/-! ### Writable index, its iterator and `createIndex` -/

/-- The comparisons of the key type that `MockWritableIndex<Key>` uses: `operator<`, by which
the set `m_kv` is ordered, and `operator==`, by which a probe recognises its key. -/
class KeyOrder (Key : Type) where
  less : Key → Key → Bool
  equal : Key → Key → Bool

/-- The comparisons of a key type on which `<` is a linear order, as it is on `std::string` and
on the integer types: `==` is equality. -/
instance {Key : Type} [LinearOrder Key] : KeyOrder Key where
  less := fun a b => decide (a < b)
  equal := fun a b => decide (a = b)

/-- The comparison `operator<` of `std::pair<Key, llong>`, the order of the set `m_kv`:
`a.first < b.first || (!(b.first < a.first) && a.second < b.second)`. -/
def pair_less {Key : Type} [KeyOrder Key] (a b : Key × Int) : Bool :=
  KeyOrder.less a.1 b.1 || (!KeyOrder.less b.1 a.1 && decide (a.2 < b.2))

/-- The call `std::set::insert(x)` on the elements in the order of iteration: the elements
afterwards and the flag `second` of the result, `true` when `x` was inserted and `false` when an
equivalent element (one that is neither less than `x` nor has `x` less than it) was already
there. -/
def set_insert {Key : Type} [KeyOrder Key] (x : Key × Int) :
    List (Key × Int) → List (Key × Int) × Bool
  | [] => ([x], true)
  | y :: ys =>
    if pair_less x y then (x :: y :: ys, true)
    else if pair_less y x then (y :: (set_insert x ys).1, (set_insert x ys).2)
    else (y :: ys, false)

/-- The call `std::set::erase(x)` with a value: the elements that are not equivalent to `x`. -/
def set_erase {Key : Type} [KeyOrder Key] (x : Key × Int) (l : List (Key × Int)) :
    List (Key × Int) :=
  l.filter (fun y => pair_less x y || pair_less y x)

/-- The call `std::set::find(x)`: the position of the element equivalent to `x`; `none` stands
for `end()`. -/
def set_find {Key : Type} [KeyOrder Key] (x : Key × Int) (l : List (Key × Int)) :
    Option Nat :=
  let pos := l.findIdx (fun y => !pair_less x y && !pair_less y x)
  if pos < l.length then some pos else none

/-- The call `std::set::lower_bound(x)`: the position of the first element that is not less
than `x`; the number of elements stands for `end()`. -/
def set_lower_bound {Key : Type} [KeyOrder Key] (x : Key × Int) (l : List (Key × Int)) :
    Nat :=
  (l.takeWhile (fun y => pair_less y x)).length

/-- The class invariant of the set `m_kv`: its elements are in strictly ascending order. -/
def SetOrdered {Key : Type} [KeyOrder Key] (l : List (Key × Int)) : Prop :=
  l.Pairwise (fun a b => pair_less a b = true)

instance {Key : Type} [KeyOrder Key] (l : List (Key × Int)) : Decidable (SetOrdered l) := by
  unfold SetOrdered
  infer_instance

/-- Method `MockWritableIndex<Key>::numIndexRows`. -/
def MockWritableIndex.numIndexRows {Key : Type} (self : MockWritableIndex Key) : Nat :=
  self.m_kv.length

/-- Method `MockWritableIndex<Key>::indexStorageSize`; `sizeofKv` is `sizeof(kv_t)` and
`sizeofPtr` is `sizeof(void*)`. -/
def MockWritableIndex.indexStorageSize {Key : Type} (sizeofKv sizeofPtr : Nat)
    (self : MockWritableIndex Key) : Nat :=
  let size := self.m_kv.length * (sizeofKv + 4 * sizeofPtr)
  self.m_keysLen + size

/-- Method `MockWritableIndex<Key>::insert(key, id)`: the index afterwards and the returned
value. -/
def MockWritableIndex.insert {Key : Type} [KeyOrder Key] [IndexKey Key]
    (self : MockWritableIndex Key) (key : Bytes) (id : Int) :
    Option (MockWritableIndex Key × Nat) :=
  match (IndexKey.makeKey key : Option Key) with
  | none => none
  | some k =>
    let x : Key × Int := (k, id)
    let ib := set_insert x self.m_kv
    if ib.2 then
      some ({ m_kv := ib.1, m_keysLen := self.m_keysLen + IndexKey.keyHeapLen x.1 }, 1)
    else some ({ self with m_kv := ib.1 }, 0)

/-- Method `MockWritableIndex<Key>::replace(key, oldId, newId)`: the index afterwards and the
returned value. -/
def MockWritableIndex.replace {Key : Type} [KeyOrder Key] [IndexKey Key]
    (self : MockWritableIndex Key) (key : Bytes) (oldId newId : Int) :
    Option (MockWritableIndex Key × Nat) :=
  match (IndexKey.makeKey key : Option Key) with
  | none => none
  | some kx =>
    let kv := if oldId ≠ newId then set_erase (kx, oldId) self.m_kv else self.m_kv
    let ib := set_insert (kx, newId) kv
    some ({ self with m_kv := ib.1 }, if ib.2 then 1 else 0)

/-- Method `MockWritableIndex<Key>::remove(key, id)`: the index afterwards and the returned
value. -/
def MockWritableIndex.remove {Key : Type} [KeyOrder Key] [IndexKey Key]
    (self : MockWritableIndex Key) (key : Bytes) (id : Int) :
    Option (MockWritableIndex Key × Nat) :=
  match (IndexKey.makeKey key : Option Key) with
  | none => none
  | some k =>
    match set_find (k, id) self.m_kv with
    | some pos =>
      match self.m_kv[pos]? with
      | some e =>
        some ({ m_kv := self.m_kv.eraseIdx pos, m_keysLen := IndexKey.keyHeapLen e.1 }, 1)
      | none => some (self, 0)
    | none => some (self, 0)

/-- Method `MyIndexIter::seekExact(key)`: the new iterator and the returned flag. -/
def MyIndexIter.seekExact {Key : Type} [KeyOrder Key] [IndexKey Key]
    (owner : MockWritableIndex Key) (key : Bytes) (it : MyIndexIter) :
    Option (MyIndexIter × Bool) :=
  match (IndexKey.makeKey key : Option Key) with
  | none => none
  | some k =>
    let kv : Key × Int := (k, 0)
    let iter := set_lower_bound kv owner.m_kv
    match owner.m_kv[iter]? with
    | some e =>
      if KeyOrder.equal e.1 kv.1 then some ({ m_iter := iter, m_isNull := false }, true)
      else some (it, false)
    | none => some (it, false)

/-- Method `MyIndexIter::seekLowerBound(key)`: the new iterator and the returned flag. -/
def MyIndexIter.seekLowerBound {Key : Type} [KeyOrder Key] [IndexKey Key]
    (owner : MockWritableIndex Key) (key : Bytes) (_it : MyIndexIter) :
    Option (MyIndexIter × Bool) :=
  match (IndexKey.makeKey key : Option Key) with
  | none => none
  | some k =>
    let kv : Key × Int := (k, 0)
    let iter := set_lower_bound kv owner.m_kv
    match owner.m_kv[iter]? with
    | some e => some ({ m_iter := iter, m_isNull := false }, KeyOrder.equal e.1 kv.1)
    | none => some ({ m_iter := iter, m_isNull := false }, false)

/-- A freshly created iterator of a writable index: `m_isNull = true`; `m_iter` is not yet
set. -/
def MyIndexIter.fresh : MyIndexIter := { m_iter := 0, m_isNull := true }

/-- The results of `n` successive calls of `MyIndexIter::increment`, oldest first, and the
iterator after them. -/
def MyIndexIter.incrementN {Key : Type} [IndexKey Key] (owner : MockWritableIndex Key) :
    Nat → MyIndexIter → Option (MyIndexIter × List (Option (Int × Bytes)))
  | 0, it => some (it, [])
  | n + 1, it =>
    match MyIndexIter.increment owner it with
    | none => none
    | some (it1, r) =>
      match MyIndexIter.incrementN owner n it1 with
      | none => none
      | some (it2, rs) => some (it2, r :: rs)

/-- The empty writable index, with `m_keysLen = 0`. -/
def MockWritableIndex.empty {Key : Type} : MockWritableIndex Key :=
  { m_kv := [], m_keysLen := 0 }

/-- A sequence of `insert` calls, first call first: the index afterwards. -/
def MockWritableIndex.insertAll {Key : Type} [KeyOrder Key] [IndexKey Key] :
    MockWritableIndex Key → List (Bytes × Int) → Option (MockWritableIndex Key)
  | self, [] => some self
  | self, e :: es =>
    match self.insert e.1 e.2 with
    | none => none
    | some r => MockWritableIndex.insertAll r.1 es

/-- A mutating call of a writable index. -/
inductive IndexOp where
  | insert (key : Bytes) (id : Int)
  | replace (key : Bytes) (oldId newId : Int)
  | remove (key : Bytes) (id : Int)
  deriving DecidableEq, Repr

/-- One mutating call on a writable index: the index afterwards. -/
def MockWritableIndex.step {Key : Type} [KeyOrder Key] [IndexKey Key]
    (self : MockWritableIndex Key) : IndexOp → Option (MockWritableIndex Key)
  | .insert key id => (self.insert key id).map Prod.fst
  | .replace key oldId newId => (self.replace key oldId newId).map Prod.fst
  | .remove key id => (self.remove key id).map Prod.fst

/-- A sequence of mutating calls on a writable index, first call first. -/
def MockWritableIndex.run {Key : Type} [KeyOrder Key] [IndexKey Key] :
    MockWritableIndex Key → List IndexOp → Option (MockWritableIndex Key)
  | self, [] => some self
  | self, op :: ops =>
    match self.step op with
    | none => none
    | some s => MockWritableIndex.run s ops

/-- The sum of `keyHeapLen` over the entries of an index. -/
def keyHeapSum {Key : Type} [IndexKey Key] (l : List (Key × Int)) : Nat :=
  (l.map (fun e => IndexKey.keyHeapLen e.1)).sum

/-- The key type `int32_t` of a single-column `Sint32` index: its values are the integers of
`[-2^31, 2^31)`, in numeric order. -/
abbrev Sint32 : Type := Int

/-- The value of type `int32_t` with the given four little-endian bytes (two's complement). -/
def sint32_load (b : Bytes) : Int :=
  let u := le_value (b.take 4)
  if u < 2 ^ 31 then (u : Int) else (u : Int) - 2 ^ 32

/-- The four bytes of a value of type `int32_t` in memory. -/
def sint32_bytes (v : Int) : Bytes := le_bytes 4 (v % 2 ^ 32).toNat

/-- The overloads for a primitive key, here `Key = int32_t`: `makeKey` loads the value from the
key bytes, of which there must be `sizeof(Primitive)`, `copyKey` copies the bytes of the value,
and the heap length is `0`. -/
instance : IndexKey Sint32 where
  copyKey := fun src => sint32_bytes src
  makeKey := fun key => if key.length = 4 then some (sint32_load key) else none
  keyHeapLen := fun _ => 0

/-- A sample `compareData` of a schema with one `Sint32` column: the numeric comparison of the
two values. -/
def sint32Compare (x y : Bytes) : Int :=
  if sint32_load x < sint32_load y then -1 else if sint32_load y < sint32_load x then 1 else 0

/-- A variable-length schema that compares keys as `Sint32` values. -/
def sint32Schema : Schema := { m_fixedLen := 0, compareData := sint32Compare }

/-- The key type that `MockWritableSegment::createIndex` instantiates `MockWritableIndex`
with. -/
inductive KeyType where
  | uint8_t
  | int8_t
  | uint16_t
  | int16_t
  | uint32_t
  | int32_t
  | uint64_t
  | int64_t
  | float
  | double
  | std_string
  deriving DecidableEq, Repr

/-- Accessor `Schema::columnNum`. -/
def Schema.columnNum (s : Schema) : Nat := s.m_columnsMeta.length

/-- Modelled from the spec: accessor `Schema::getColumnMeta(columnId)`, whose body is outside
the sources: the meta of the column with that id; no result when there is no such column. -/
def Schema.getColumnMeta (s : Schema) (columnId : Nat) : Option ColumnMeta :=
  s.m_columnsMeta[columnId]?

/-- Method `MockWritableSegment::createIndex(path, schema)`: the key type of the index it
creates. -/
def MockWritableSegment.createIndex (schema : Schema) : Option KeyType :=
  if schema.columnNum = 1 then
    match schema.getColumnMeta 0 with
    | none => none
    | some cm =>
      match cm.type with
      | .Uint08 => some .uint8_t
      | .Sint08 => some .int8_t
      | .Uint16 => some .uint16_t
      | .Sint16 => some .int16_t
      | .Uint32 => some .uint32_t
      | .Sint32 => some .int32_t
      | .Uint64 => some .uint64_t
      | .Sint64 => some .int64_t
      | .Float32 => some .float
      | .Float64 => some .double
      | _ => some .std_string
  else some .std_string

/-- The kinds of numbers. -/
inductive NumKind where
  | unsigned
  | signed
  | floating
  deriving DecidableEq, Repr

/-- The width in bits and the kind of a number column type; `none` for the other types. -/
def ColumnType.number : ColumnType → Option (Nat × NumKind)
  | .Uint08 => some (8, .unsigned)
  | .Sint08 => some (8, .signed)
  | .Uint16 => some (16, .unsigned)
  | .Sint16 => some (16, .signed)
  | .Uint32 => some (32, .unsigned)
  | .Sint32 => some (32, .signed)
  | .Uint64 => some (64, .unsigned)
  | .Sint64 => some (64, .signed)
  | .Uint128 => some (128, .unsigned)
  | .Sint128 => some (128, .signed)
  | .Float32 => some (32, .floating)
  | .Float64 => some (64, .floating)
  | .Float128 => some (128, .floating)
  | _ => none

/-- The width in bits and the kind of a primitive key type; `none` for the byte string. -/
def KeyType.number : KeyType → Option (Nat × NumKind)
  | .uint8_t => some (8, .unsigned)
  | .int8_t => some (8, .signed)
  | .uint16_t => some (16, .unsigned)
  | .int16_t => some (16, .signed)
  | .uint32_t => some (32, .unsigned)
  | .int32_t => some (32, .signed)
  | .uint64_t => some (64, .unsigned)
  | .int64_t => some (64, .signed)
  | .float => some (32, .floating)
  | .double => some (64, .floating)
  | .std_string => none

/-- The column types for which `createIndex` has a case. -/
def primitiveColumnTypes : List ColumnType :=
  [.Uint08, .Sint08, .Uint16, .Sint16, .Uint32, .Sint32, .Uint64, .Sint64, .Float32, .Float64]

/-- The spec's reading of the conversion to packed offsets: the offsets of the entries copied
into a fresh array of `rows + 1` `uint32_t` elements, followed by the pool size. -/
def freshOffsets (data : SortableStrVec) : List Nat :=
  data.m_index.map (fun e => u32 e.offset) ++ [u32 data.str_size]

/-! ### `StrZero` serialisation and further samples -/

/-- The ways in which `DataIO_saveObject` of a `StrZeroSaver` ends: it returns, or it throws
`invalid_argument`. -/
inductive SaveOutcome where
  | returned
  | invalid_argument
  deriving DecidableEq, Repr

/-- The library function `strnlen(s, maxlen)` on a buffer of at least `maxlen` bytes: the
number of bytes in front of the first zero byte among the first `maxlen` bytes, and `maxlen`
when there is none. -/
def strnlen (s : Bytes) (maxlen : Nat) : Nat :=
  ((s.take maxlen).takeWhile (fun c => c != 0)).length

/-- Friend function `DataIO_saveObject(dio, x)` of `Schema::StrZeroSaver` in
`terark/db/db_conf.hpp`: the output stream afterwards and how the call ended. -/
def terark.StrZeroSaver.DataIO_saveObject (dio : Bytes) (x : Bytes) : Bytes × SaveOutcome :=
  if x.length = 0 then (dio ++ [0], .returned)
  else
    let dio1 := dio ++ x
    let len := strnlen x x.length
    if ¬ (len = x.length ∨ len + 1 = x.length) then (dio1, .invalid_argument)
    else if x.length = len then (dio1 ++ [0], .returned)
    else (dio1, .returned)

/-- Friend function `DataIO_saveObject(dio, x)` of `Schema::StrZeroSaver` in
`nark/db/db_conf.hpp`, the earlier version of the same class: the output stream afterwards and
how the call ended. -/
def nark.StrZeroSaver.DataIO_saveObject (dio : Bytes) (x : Bytes) : Bytes × SaveOutcome :=
  if x.length = 0 then (dio ++ [0], .returned)
  else
    let dio1 := dio ++ x
    if x.getLast? ≠ some 0 then (dio1 ++ [0], .returned)
    else (dio1, .returned)

/-- Friend function `DataIO_loadObject(dio, x)` of `Schema::StrZeroLoader` (the same in both
headers): the target string afterwards and the rest of the input; no result when the input ends
before a zero byte was read. -/
def StrZeroLoader.DataIO_loadObject (str : Bytes) : Bytes → Option (Bytes × Bytes)
  | [] => none
  | c :: rest =>
    if c ≠ 0 then StrZeroLoader.DataIO_loadObject (str ++ [c]) rest
    else some (str ++ [c], rest)

/-- A value has an embedded zero: a zero byte at a position other than its last. -/
def EmbeddedZero (x : Bytes) : Prop := 0 ∈ x.dropLast

instance (x : Bytes) : Decidable (EmbeddedZero x) := by
  unfold EmbeddedZero
  infer_instance

/-- The bytes that saving a value without embedded zero is to produce: the value, followed by
a zero terminator unless the value ends in a zero byte. -/
def strZeroBytes (x : Bytes) : Bytes :=
  x ++ (if x.getLast? = some 0 then [] else [0])

/-- Method `MockReadonlyIndex::getValueAppend(id, key)` for `id >= 0`: the new content of
`*key`; no result when `id` is not below `m_ids.size()` or the key bytes do not lie inside the
pool, which the assertions of the source exclude. -/
def MockReadonlyIndex.getValueAppend (self : MockReadonlyIndex) (id : Nat) (key : Bytes) :
    Option Bytes :=
  if id < self.m_ids.length then
    if self.m_fixedLen ≠ 0 then
      if self.m_fixedLen * id + self.m_fixedLen ≤ self.m_keys.strpool.length then
        some (key ++ fstr self.m_keys.strpool (self.m_fixedLen * id) self.m_fixedLen)
      else none
    else
      match self.m_keys.get? id with
      | some key1 => some (key ++ key1)
      | none => none
  else none

/-- The index that `build` makes of the keys `"a"`, `"b"` appended in this order. -/
def sortedVarIndex : MockReadonlyIndex :=
  { m_keys := { strpool := [97, 98], offsets := [0, 1, 2] }
    m_ids := [0, 1]
    m_fixedLen := 0
    m_schema := sampleVarSchema }

/-- A comparator over the one-byte key `"a"` of row `0`. -/
def sampleFixedCompare : FixedLenKeyCompare :=
  { fixedLen := 1, strpool := [97], schema := sampleFixedSchema }

/-- A comparator over the variable-length key `"a"` of row `0`. -/
def sampleVarCompare : VarLenKeyCompare :=
  { strpool := [97], offsets := [0, 1], schema := sampleVarSchema }

/-- The key type `float` of a single-column `Float32` index: a value is given by its 32 bits
(IEEE 754: bit 31 is the sign, bits 30..23 the exponent, bits 22..0 the fraction). -/
structure Float32 where
  bits : Nat
  deriving DecidableEq, Repr

/-- A `float` is a NaN when all bits of its exponent are set and its fraction is not zero. -/
def Float32.isNaN (x : Float32) : Bool :=
  decide (x.bits / 2 ^ 23 % 2 ^ 8 = 255) && decide (x.bits % 2 ^ 23 ≠ 0)

/-- The place of a `float` that is not a NaN in the numeric order: its bits read as sign and
magnitude, so that both zeros stand at `0`. -/
def Float32.rank (x : Float32) : Int :=
  if x.bits / 2 ^ 31 % 2 = 0 then ((x.bits % 2 ^ 31 : Nat) : Int)
  else -((x.bits % 2 ^ 31 : Nat) : Int)

/-- The comparison `x < y` of two `float` values: `false` when one of them is a NaN. -/
def Float32.less (x y : Float32) : Bool :=
  !x.isNaN && !y.isNaN && decide (x.rank < y.rank)

/-- The comparison `x == y` of two `float` values: `false` when one of them is a NaN. -/
def Float32.equal (x y : Float32) : Bool :=
  !x.isNaN && !y.isNaN && decide (x.rank = y.rank)

instance : KeyOrder Float32 where
  less := Float32.less
  equal := Float32.equal

/-- The overloads for the primitive key `Key = float`: `makeKey` loads the four key bytes,
`copyKey` copies the four bytes of the value, and the heap length is `0`. -/
instance : IndexKey Float32 where
  copyKey := fun src => le_bytes 4 src.bits
  makeKey := fun key => if key.length = 4 then some { bits := le_value key } else none
  keyHeapLen := fun _ => 0

/-- The `float` value `5.0`, bits `40a00000`. -/
def float_5 : Float32 := { bits := 0x40a00000 }

/-- The `float` value `7.0`, bits `40e00000`. -/
def float_7 : Float32 := { bits := 0x40e00000 }

/-- The `float` value `8.0`, bits `41000000`. -/
def float_8 : Float32 := { bits := 0x41000000 }

/-- A `float` NaN, bits `7fc00000`. -/
def float_nan : Float32 := { bits := 0x7fc00000 }

/-- The index over `float` keys that holds the one entry `(NaN, 1)`. -/
def nanWritableIndex : MockWritableIndex Float32 := { m_kv := [(float_nan, 1)], m_keysLen := 0 }

/-- The index over `float` keys that the calls `insert(NaN, 5)`, `insert(7.0, 9)` and
`insert(8.0, 2)` make of the empty index, in its order of iteration. -/
def nanScanIndex : MockWritableIndex Float32 :=
  { m_kv := [(float_8, 2), (float_nan, 5), (float_7, 9)], m_keysLen := 0 }

/-! ## The sort -/

theorem sort_insert_perm (lt : Nat → Nat → Bool) (x : Nat) (l : List Nat) :
    (sort_insert lt x l).Perm (x :: l) := by
  induction l with
  | nil => simp [sort_insert]
  | cons y ys ih =>
    unfold sort_insert
    split
    · exact List.Perm.refl _
    · exact (List.Perm.cons y ih).trans (List.Perm.swap x y ys)

theorem std_sort_perm (lt : Nat → Nat → Bool) (l : List Nat) : (std_sort lt l).Perm l := by
  induction l with
  | nil => simp [std_sort]
  | cons x xs ih =>
    unfold std_sort
    exact (sort_insert_perm lt x _).trans (List.Perm.cons x ih)

theorem mem_std_sort (lt : Nat → Nat → Bool) (l : List Nat) (a : Nat) :
    a ∈ std_sort lt l ↔ a ∈ l :=
  (std_sort_perm lt l).mem_iff

theorem sort_insert_pairwise (lt : Nat → Nat → Bool) (x : Nat) (s : List Nat)
    (htot : ∀ b ∈ s, lt x b = true ∨ lt b x = true)
    (htrans : ∀ b ∈ s, ∀ c ∈ s, lt x b = true → lt b c = true → lt x c = true)
    (hs : s.Pairwise (fun a b => lt a b = true)) :
    (sort_insert lt x s).Pairwise (fun a b => lt a b = true) := by
  induction s with
  | nil => simp [sort_insert]
  | cons y ys ih =>
    unfold sort_insert
    rw [List.pairwise_cons] at hs
    split
    · rename_i hxy
      refine List.Pairwise.cons ?_ (List.Pairwise.cons hs.1 hs.2)
      intro z hz
      rcases List.mem_cons.1 hz with rfl | hz
      · exact hxy
      · exact htrans y (List.mem_cons_self _ _) z (List.mem_cons_of_mem _ hz) hxy (hs.1 z hz)
    · rename_i hxy
      refine List.Pairwise.cons ?_ ?_
      · intro z hz
        rcases List.mem_cons.1 ((sort_insert_perm lt x ys).mem_iff.1 hz) with rfl | hz
        · rcases htot y (List.mem_cons_self _ _) with h | h
          · exact absurd h hxy
          · exact h
        · exact hs.1 z hz
      · exact ih (fun b hb => htot b (List.mem_cons_of_mem _ hb))
          (fun b hb c hc => htrans b (List.mem_cons_of_mem _ hb) c (List.mem_cons_of_mem _ hc))
          hs.2

theorem std_sort_pairwise (lt : Nat → Nat → Bool) (l : List Nat) (hnd : l.Nodup)
    (htot : ∀ a ∈ l, ∀ b ∈ l, a ≠ b → lt a b = true ∨ lt b a = true)
    (htrans : ∀ a ∈ l, ∀ b ∈ l, ∀ c ∈ l,
      lt a b = true → lt b c = true → lt a c = true) :
    (std_sort lt l).Pairwise (fun a b => lt a b = true) := by
  induction l with
  | nil => simp [std_sort]
  | cons x xs ih =>
    unfold std_sort
    rw [List.nodup_cons] at hnd
    have hmem : ∀ b, b ∈ std_sort lt xs → b ∈ xs := fun b hb => (mem_std_sort lt xs b).1 hb
    apply sort_insert_pairwise
    · intro b hb
      have hb' := hmem b hb
      exact htot x (List.mem_cons_self _ _) b (List.mem_cons_of_mem _ hb')
        (fun h => hnd.1 (h ▸ hb'))
    · intro b hb c hc
      exact htrans x (List.mem_cons_self _ _) b (List.mem_cons_of_mem _ (hmem b hb))
        c (List.mem_cons_of_mem _ (hmem c hc))
    · exact ih hnd.2
        (fun a ha b hb => htot a (List.mem_cons_of_mem _ ha) b (List.mem_cons_of_mem _ hb))
        (fun a ha b hb c hc => htrans a (List.mem_cons_of_mem _ ha) b (List.mem_cons_of_mem _ hb)
          c (List.mem_cons_of_mem _ hc))

theorem sort_insert_not_lt (lt : Nat → Nat → Bool) (x : Nat) (s : List Nat)
    (hasym : ∀ b ∈ s, lt x b = true → lt b x = false)
    (htrans : ∀ b ∈ s, ∀ c ∈ s, lt c x = true → lt x b = true → lt c b = true)
    (hs : s.Pairwise (fun a b => lt b a = false)) :
    (sort_insert lt x s).Pairwise (fun a b => lt b a = false) := by
  induction s with
  | nil => simp [sort_insert]
  | cons y ys ih =>
    unfold sort_insert
    rw [List.pairwise_cons] at hs
    split
    · rename_i hxy
      refine List.Pairwise.cons ?_ (List.Pairwise.cons hs.1 hs.2)
      intro z hz
      rcases List.mem_cons.1 hz with rfl | hz
      · exact hasym z (List.mem_cons_self _ _) hxy
      · by_contra hzx
        have hzx' : lt z x = true := by simpa using hzx
        have hzy := htrans y (List.mem_cons_self _ _) z (List.mem_cons_of_mem _ hz) hzx' hxy
        rw [hs.1 z hz] at hzy
        exact Bool.false_ne_true hzy
    · rename_i hxy
      refine List.Pairwise.cons ?_ ?_
      · intro z hz
        rcases List.mem_cons.1 ((sort_insert_perm lt x ys).mem_iff.1 hz) with rfl | hz
        · simpa using hxy
        · exact hs.1 z hz
      · exact ih (fun b hb => hasym b (List.mem_cons_of_mem _ hb))
          (fun b hb c hc => htrans b (List.mem_cons_of_mem _ hb) c (List.mem_cons_of_mem _ hc))
          hs.2

theorem std_sort_not_lt (lt : Nat → Nat → Bool) (l : List Nat)
    (hasym : ∀ a ∈ l, ∀ b ∈ l, lt a b = true → lt b a = false)
    (htrans : ∀ a ∈ l, ∀ b ∈ l, ∀ c ∈ l,
      lt a b = true → lt b c = true → lt a c = true) :
    (std_sort lt l).Pairwise (fun a b => lt b a = false) := by
  induction l with
  | nil => simp [std_sort]
  | cons x xs ih =>
    unfold std_sort
    have hmem : ∀ b, b ∈ std_sort lt xs → b ∈ xs := fun b hb => (mem_std_sort lt xs b).1 hb
    apply sort_insert_not_lt
    · intro b hb
      exact hasym x (List.mem_cons_self _ _) b (List.mem_cons_of_mem _ (hmem b hb))
    · intro b hb c hc
      exact htrans c (List.mem_cons_of_mem _ (hmem c hc)) x (List.mem_cons_self _ _)
        b (List.mem_cons_of_mem _ (hmem b hb))
    · exact ih
        (fun a ha b hb => hasym a (List.mem_cons_of_mem _ ha) b (List.mem_cons_of_mem _ hb))
        (fun a ha b hb c hc => htrans a (List.mem_cons_of_mem _ ha) b (List.mem_cons_of_mem _ hb)
          c (List.mem_cons_of_mem _ hc))

/-! ## Reuse of the index buffer as the offset array -/

theorem indexWords_length (idx : List SEntry) : (indexWords idx).length = 3 * idx.length := by
  induction idx with
  | nil => rfl
  | cons e es ih => simp [indexWords, ih]; omega

theorem indexWords_getElem? (idx : List SEntry) (i : Nat) :
    (indexWords idx)[3 * i]? = idx[i]?.map SEntry.offset := by
  induction idx generalizing i with
  | nil => simp [indexWords]
  | cons e es ih =>
    cases i with
    | zero => simp [indexWords]
    | succ k =>
      have h3 : 3 * (k + 1) = 3 * k + 1 + 1 + 1 := by omega
      rw [h3]
      simp [indexWords, ih]

theorem copyOffsets_spec (n : Nat) : ∀ (i : Nat) (w : List Nat),
    (∀ j, i ≤ j → j < i + n → 3 * j < w.length) →
    ∃ w', copyOffsets n i w = some w' ∧ w'.length = w.length ∧
      (∀ j, j < i → w'[j]? = w[j]?) ∧
      (∀ j, i ≤ j → j < i + n → w'[j]? = some (u32 (w.getD (3 * j) 0))) ∧
      (∀ j, i + n ≤ j → w'[j]? = w[j]?) := by
  induction n with
  | zero =>
    intro i w _
    exact ⟨w, rfl, rfl, fun _ _ => rfl, fun j h1 h2 => by omega, fun _ _ => rfl⟩
  | succ n ih =>
    intro i w hb
    have hi : 3 * i < w.length := hb i (Nat.le_refl _) (by omega)
    obtain ⟨w', h1, h2, h3, h4, h5⟩ := ih (i + 1) (w.set i (u32 w[3 * i]))
      (by intro j hj1 hj2; rw [List.length_set]; exact hb j (by omega) (by omega))
    refine ⟨w', ?_, ?_, ?_, ?_, ?_⟩
    · show (match w[3 * i]? with
        | none => none
        | some off => copyOffsets n (i + 1) (w.set i (u32 off))) = some w'
      rw [List.getElem?_eq_getElem hi]
      exact h1
    · rw [h2, List.length_set]
    · intro j hj
      rw [h3 j (by omega), List.getElem?_set_ne (by omega)]
    · intro j hj1 hj2
      rcases Nat.eq_or_lt_of_le hj1 with rfl | hlt
      · rw [h3 i (by omega), List.getElem?_set_self (by omega)]
        simp [List.getElem?_eq_getElem hi]
      · rw [h4 j (by omega) (by omega)]
        simp only [List.getD_eq_getElem?_getD]
        rw [List.getElem?_set_ne (by omega)]
    · intro j hj
      rw [h5 j (by omega), List.getElem?_set_ne (by omega)]

theorem reuseIndexAsOffsets_ok (data : SortableStrVec) (h : 1 ≤ data.m_index.length) :
    ∃ w, reuseIndexAsOffsets data = .ok w ∧
      w.take (data.m_index.length + 1) =
        data.m_index.map (fun e => u32 e.offset) ++ [u32 data.str_size] := by
  obtain ⟨w', h1, h2, -, h4, -⟩ := copyOffsets_spec data.m_index.length 0
    (indexWords data.m_index) (by intro j _ hj; rw [indexWords_length]; omega)
  have hlen : data.m_index.length < w'.length := by rw [h2, indexWords_length]; omega
  refine ⟨w'.set data.m_index.length (u32 data.str_size), ?_, ?_⟩
  · unfold reuseIndexAsOffsets
    simp only [h1, hlen, if_true]
  · apply List.ext_getElem?
    intro j
    rcases Nat.lt_trichotomy j data.m_index.length with hj | hj | hj
    · rw [List.getElem?_take_of_lt (by omega), List.getElem?_set_ne (by omega),
        h4 j (Nat.zero_le _) (by omega), List.getElem?_append_left (by simpa using hj)]
      simp [indexWords_getElem?, List.getElem?_eq_getElem hj]
    · subst hj
      rw [List.getElem?_take_of_lt (by omega), List.getElem?_set_self hlen,
        List.getElem?_append_right (by simp)]
      simp
    · rw [List.getElem?_eq_none (by simp [List.length_take]; omega),
        List.getElem?_eq_none (by simp; omega)]

theorem reuseIndexAsOffsets_empty (data : SortableStrVec) (h : data.m_index = []) :
    reuseIndexAsOffsets data = .error .out_of_bounds := by
  simp [reuseIndexAsOffsets, h, copyOffsets, indexWords]

/-! ## `MockReadonlyIndex::build` -/

theorem u32_lt (x : Nat) : u32 x < 2 ^ 32 := Nat.mod_lt _ (by norm_num)

theorem u32_of_lt {x : Nat} (h : x < 2 ^ 32) : u32 x = x := Nat.mod_eq_of_lt h

theorem initIds_length (n : Nat) : (initIds n).length = n := by simp [initIds]

theorem initIds_lt (n x : Nat) (h : x ∈ initIds n) : x < 2 ^ 32 := by
  unfold initIds at h
  obtain ⟨y, -, rfl⟩ := List.mem_map.1 h
  exact u32_lt y

theorem initIds_lt_rows (n x : Nat) (h : x ∈ initIds n) : x < n := by
  unfold initIds at h
  obtain ⟨y, hy, rfl⟩ := List.mem_map.1 h
  exact Nat.lt_of_le_of_lt (Nat.mod_le _ _) (List.mem_range.1 hy)

theorem initIds_eq_range {n : Nat} (h : n ≤ 2 ^ 32) : initIds n = List.range n := by
  unfold initIds
  conv_rhs => rw [← List.map_id (List.range n)]
  apply List.map_congr_left
  intro x hx
  have := List.mem_range.1 hx
  exact u32_of_lt (by omega)

theorem MockReadonlyIndex.build_cases (self : MockReadonlyIndex) (keys : SortableStrVec)
    (idx : MockReadonlyIndex) (hb : self.build keys = .ok idx) :
    (self.m_schema.m_fixedLen ≠ 0 ∧
      idx = { self with
        m_ids := std_sort (fixedLenLess self.m_schema keys.m_strpool self.m_schema.m_fixedLen)
          (initIds (keys.str_size / self.m_schema.m_fixedLen))
        m_keys := { strpool := keys.m_strpool, offsets := self.m_keys.offsets }
        m_fixedLen := self.m_schema.m_fixedLen }) ∨
    (self.m_schema.m_fixedLen = 0 ∧ keys.str_size < UINT32_MAX ∧
      ∃ w, reuseIndexAsOffsets keys = .ok w ∧
        idx = { self with
          m_ids := std_sort (varLenLess self.m_schema keys.m_strpool w)
            (initIds keys.m_index.length)
          m_keys := { strpool := keys.m_strpool, offsets := w.take (keys.m_index.length + 1) }
          m_fixedLen := 0 }) := by
  unfold MockReadonlyIndex.build at hb
  simp only [Schema.getFixedRowLen] at hb
  by_cases hf : self.m_schema.m_fixedLen = 0
  · right
    simp only [hf, ne_eq, not_true_eq_false, if_false] at hb
    by_cases hs : keys.str_size ≥ UINT32_MAX
    · simp [hs] at hb
    · simp only [hs, if_false] at hb
      refine ⟨hf, by omega, ?_⟩
      cases hr : reuseIndexAsOffsets keys with
      | error e => simp [hr] at hb
      | ok w =>
        simp only [hr] at hb
        exact ⟨w, rfl, (Except.ok.inj hb).symm⟩
  · left
    simp only [ne_eq, hf, not_false_eq_true, if_true] at hb
    exact ⟨hf, (Except.ok.inj hb).symm⟩

theorem MockReadonlyIndex.build_ids (self : MockReadonlyIndex) (keys : SortableStrVec)
    (idx : MockReadonlyIndex) (hb : self.build keys = .ok idx) :
    ∃ lt, idx.m_ids = std_sort lt (initIds (MockReadonlyIndex.buildRows self.m_schema keys)) := by
  rcases MockReadonlyIndex.build_cases self keys idx hb with ⟨hf, rfl⟩ | ⟨hf, -, w, -, rfl⟩
  · exact ⟨fixedLenLess self.m_schema keys.m_strpool self.m_schema.m_fixedLen,
      by simp [MockReadonlyIndex.buildRows, Schema.getFixedRowLen, hf]⟩
  · exact ⟨varLenLess self.m_schema keys.m_strpool w,
      by simp [MockReadonlyIndex.buildRows, Schema.getFixedRowLen, hf]⟩

theorem MockReadonlyIndex.build_fixed (self : MockReadonlyIndex) (keys : SortableStrVec)
    (hf : self.m_schema.m_fixedLen ≠ 0) : ∃ idx, self.build keys = .ok idx := by
  unfold MockReadonlyIndex.build
  simp only [Schema.getFixedRowLen, ne_eq, hf, not_false_eq_true, if_true]
  exact ⟨_, rfl⟩

theorem hugeFixedKeys_rows :
    MockReadonlyIndex.buildRows constFixedSchema hugeFixedKeys = 2 ^ 32 + 1 := by
  have h1 : constFixedSchema.getFixedRowLen = 1 := rfl
  have h2 : hugeFixedKeys.str_size = 2 ^ 32 + 1 := List.length_replicate _ _
  unfold MockReadonlyIndex.buildRows
  rw [h1, h2]
  norm_num

theorem hugeFixedKeys_build :
    ∃ idx, (MockReadonlyIndex.new constFixedSchema).build hugeFixedKeys = .ok idx :=
  MockReadonlyIndex.build_fixed _ _ (by decide)

/-- C1, as amended: whenever `MockReadonlyIndex::build` returns, `m_ids` has exactly `rows`
elements, and when `rows` is at most `2^32` (so that every local id fits the `uint32_t` elements
of `m_ids`) it is a permutation of `[0, rows)`; fixed-length and variable-length keys alike. -/
theorem readonly_index_build_ids_perm (self : MockReadonlyIndex) (keys : SortableStrVec)
    (idx : MockReadonlyIndex) (hb : self.build keys = .ok idx) :
    idx.m_ids.length = MockReadonlyIndex.buildRows self.m_schema keys ∧
    (MockReadonlyIndex.buildRows self.m_schema keys ≤ 2 ^ 32 →
      idx.m_ids.Perm (List.range (MockReadonlyIndex.buildRows self.m_schema keys))) := by
  obtain ⟨lt, hids⟩ := MockReadonlyIndex.build_ids self keys idx hb
  refine ⟨?_, ?_⟩
  · rw [hids, (std_sort_perm lt _).length_eq, initIds_length]
  · intro hrows
    rw [hids, ← initIds_eq_range hrows]
    exact std_sort_perm lt _

theorem readonly_index_build_ids_perm_witness :
    (MockReadonlyIndex.new sampleVarSchema).build sampleVarKeys = .ok sampleVarIndex ∧
    sampleVarIndex.m_ids.length
      = MockReadonlyIndex.buildRows (MockReadonlyIndex.new sampleVarSchema).m_schema
          sampleVarKeys ∧
    MockReadonlyIndex.buildRows (MockReadonlyIndex.new sampleVarSchema).m_schema sampleVarKeys
        ≤ 2 ^ 32 ∧
    sampleVarIndex.m_ids.Perm (List.range
      (MockReadonlyIndex.buildRows (MockReadonlyIndex.new sampleVarSchema).m_schema
        sampleVarKeys)) :=
  ⟨rfl,
    (readonly_index_build_ids_perm (MockReadonlyIndex.new sampleVarSchema) sampleVarKeys
      sampleVarIndex rfl).1,
    by decide,
    (readonly_index_build_ids_perm (MockReadonlyIndex.new sampleVarSchema) sampleVarKeys
      sampleVarIndex rfl).2 (by decide)⟩

theorem MockReadonlyIndex.not_perm_of_huge (self : MockReadonlyIndex) (keys : SortableStrVec)
    (idx : MockReadonlyIndex) (hb : self.build keys = .ok idx)
    (hrows : 2 ^ 32 < MockReadonlyIndex.buildRows self.m_schema keys) :
    ¬ idx.m_ids.Perm (List.range (MockReadonlyIndex.buildRows self.m_schema keys)) := by
  intro hperm
  obtain ⟨lt, hids⟩ := MockReadonlyIndex.build_ids _ _ idx hb
  have hmem : 2 ^ 32 ∈ idx.m_ids := by
    rw [hperm.mem_iff, List.mem_range]
    exact hrows
  rw [hids, mem_std_sort] at hmem
  exact absurd (initIds_lt _ _ hmem) (lt_irrefl _)

theorem push_back_foldl_index_length (recs : List Bytes) : ∀ v : SortableStrVec,
    (recs.foldl SortableStrVec.push_back v).m_index.length = v.m_index.length + recs.length := by
  induction recs with
  | nil => intro v; rfl
  | cons r rs ih =>
    intro v
    rw [List.foldl_cons, ih]
    simp [SortableStrVec.push_back]
    omega

theorem push_back_foldl_strpool (recs : List Bytes) : ∀ v : SortableStrVec,
    (recs.foldl SortableStrVec.push_back v).m_strpool = v.m_strpool ++ recs.flatten := by
  induction recs with
  | nil => intro v; simp
  | cons r rs ih =>
    intro v
    rw [List.foldl_cons, ih]
    simp [SortableStrVec.push_back]

theorem ofRecords_index_length (recs : List Bytes) :
    (SortableStrVec.ofRecords recs).m_index.length = recs.length := by
  unfold SortableStrVec.ofRecords
  rw [push_back_foldl_index_length]
  simp

theorem ofRecords_strpool (recs : List Bytes) :
    (SortableStrVec.ofRecords recs).m_strpool = recs.flatten := by
  unfold SortableStrVec.ofRecords
  rw [push_back_foldl_strpool]
  simp

theorem hugeVarKeys_index_length : hugeVarKeys.m_index.length = 2 ^ 32 + 1 := by
  unfold hugeVarKeys
  rw [ofRecords_index_length]
  exact List.length_replicate _ _

theorem hugeVarKeys_str_size : hugeVarKeys.str_size = 0 := by
  unfold hugeVarKeys SortableStrVec.str_size
  rw [ofRecords_strpool, List.flatten_replicate_nil]
  rfl

theorem hugeVarKeys_rows :
    MockReadonlyIndex.buildRows constVarSchema hugeVarKeys = 2 ^ 32 + 1 := by
  unfold MockReadonlyIndex.buildRows
  rw [show constVarSchema.getFixedRowLen = 0 from rfl]
  simpa using hugeVarKeys_index_length

theorem MockReadonlyIndex.build_var (self : MockReadonlyIndex) (keys : SortableStrVec)
    (hf : self.m_schema.m_fixedLen = 0) (hs : keys.str_size < UINT32_MAX)
    (hr : 1 ≤ keys.m_index.length) : ∃ idx, self.build keys = .ok idx := by
  obtain ⟨w, hw, -⟩ := reuseIndexAsOffsets_ok keys hr
  unfold MockReadonlyIndex.build
  have hs' : ¬ keys.str_size ≥ UINT32_MAX := by omega
  simp only [Schema.getFixedRowLen, hf, ne_eq, not_true_eq_false, if_false, hs', hw]
  exact ⟨_, rfl⟩

theorem hugeVarKeys_build :
    ∃ idx, (MockReadonlyIndex.new constVarSchema).build hugeVarKeys = .ok idx :=
  MockReadonlyIndex.build_var (MockReadonlyIndex.new constVarSchema)
    hugeVarKeys rfl (by rw [hugeVarKeys_str_size]; decide)
    (by rw [hugeVarKeys_index_length]; omega)

/-- C1 as stated fails, in both branches of `build`: built from `2^32 + 1` empty
variable-length keys (a pool of 0 bytes), and built from `2^32 + 1` one-byte keys of a
fixed-length schema, `m_ids` is not a permutation of `[0, 2^32 + 1)`, because its elements are
`uint32_t` and the id `2^32` is stored as `0`. -/
theorem readonly_index_build_ids_perm_counterexample :
    (∃ idx, (MockReadonlyIndex.new constVarSchema).build hugeVarKeys = .ok idx ∧
      ¬ idx.m_ids.Perm
        (List.range (MockReadonlyIndex.buildRows
          (MockReadonlyIndex.new constVarSchema).m_schema hugeVarKeys))) ∧
    (∃ idx, (MockReadonlyIndex.new constFixedSchema).build hugeFixedKeys = .ok idx ∧
      ¬ idx.m_ids.Perm
        (List.range (MockReadonlyIndex.buildRows
          (MockReadonlyIndex.new constFixedSchema).m_schema hugeFixedKeys))) := by
  constructor
  · obtain ⟨idx, hb⟩ := hugeVarKeys_build
    have hrows : 2 ^ 32 < MockReadonlyIndex.buildRows
        (MockReadonlyIndex.new constVarSchema).m_schema hugeVarKeys := by
      rw [show (MockReadonlyIndex.new constVarSchema).m_schema = constVarSchema from rfl,
        hugeVarKeys_rows]
      omega
    exact ⟨idx, hb, MockReadonlyIndex.not_perm_of_huge
      (MockReadonlyIndex.new constVarSchema) hugeVarKeys idx hb hrows⟩
  · obtain ⟨idx, hb⟩ := hugeFixedKeys_build
    have hrows : 2 ^ 32 < MockReadonlyIndex.buildRows
        (MockReadonlyIndex.new constFixedSchema).m_schema hugeFixedKeys := by
      rw [show (MockReadonlyIndex.new constFixedSchema).m_schema = constFixedSchema from rfl,
        hugeFixedKeys_rows]
      omega
    exact ⟨idx, hb, MockReadonlyIndex.not_perm_of_huge
      (MockReadonlyIndex.new constFixedSchema) hugeFixedKeys idx hb hrows⟩

theorem less_iff (r : Int) (x y : Nat) :
    (if r ≠ 0 then decide (r < 0) else decide (x < y)) = true ↔
      (r < 0 ∨ (r = 0 ∧ x < y)) := by
  by_cases h : r = 0
  · simp [h]
  · simp [h]

theorem MockReadonlyIndex.sorted_of_less (idx : MockReadonlyIndex) (rows : Nat)
    (lt : Nat → Nat → Bool)
    (hlt : ∀ x, x < rows → ∀ y, y < rows →
      lt x y = (if idx.cmpRows x y ≠ 0 then decide (idx.cmpRows x y < 0) else decide (x < y)))
    (hids : idx.m_ids = std_sort lt (List.range rows))
    (hpre : idx.KeysPreordered rows) : idx.IdsSorted := by
  obtain ⟨hanti, htr⟩ := hpre
  have hzero : ∀ x, x < rows → ∀ y, y < rows →
      idx.cmpRows x y = 0 → idx.cmpRows y x = 0 := by
    intro x hx y hy h
    have h1 := hanti x hx y hy
    have h2 := hanti y hy x hx
    omega
  have hsort : (std_sort lt (List.range rows)).Pairwise (fun a b => lt a b = true) := by
    apply std_sort_pairwise lt _ (List.nodup_range rows)
    · intro a ha b hb hab
      have ha := List.mem_range.1 ha
      have hb := List.mem_range.1 hb
      rw [hlt a ha b hb, hlt b hb a ha, less_iff, less_iff]
      have h1 := hanti a ha b hb
      have h2 := hanti b hb a ha
      omega
    · intro a ha b hb c hc hab hbc
      have ha := List.mem_range.1 ha
      have hb := List.mem_range.1 hb
      have hc := List.mem_range.1 hc
      rw [hlt a ha b hb, less_iff] at hab
      rw [hlt b hb c hc, less_iff] at hbc
      rw [hlt a ha c hc, less_iff]
      have hab' : idx.cmpRows a b ≤ 0 := by omega
      have hbc' : idx.cmpRows b c ≤ 0 := by omega
      have hac := htr a ha b hb c hc hab' hbc'
      rcases lt_or_eq_of_le hac with h | h
      · exact Or.inl h
      · right
        refine ⟨h, ?_⟩
        have hca : idx.cmpRows c a ≤ 0 := by have := hzero a ha c hc h; omega
        have hcb := htr c hc a ha b hb hca hab'
        have hba := htr b hb c hc a ha hbc' hca
        have h1 := hanti b hb c hc
        have h2 := hanti c hc b hb
        have h3 := hanti a ha b hb
        have h4 := hanti b hb a ha
        omega
  unfold MockReadonlyIndex.IdsSorted
  rw [hids]
  have hmem : ∀ a, a ∈ std_sort lt (List.range rows) → a < rows := fun a ha =>
    List.mem_range.1 ((mem_std_sort lt _ a).1 ha)
  refine List.Pairwise.imp_of_mem ?_ hsort
  intro a b ha hb hab
  rw [hlt a (hmem a ha) b (hmem b hb), less_iff] at hab
  omega

theorem MockReadonlyIndex.build_ids_length (idx : MockReadonlyIndex) (lt : Nat → Nat → Bool)
    (n : Nat) (hids : idx.m_ids = std_sort lt (initIds n)) : idx.m_ids.length = n := by
  rw [hids, (std_sort_perm lt _).length_eq, initIds_length]

theorem getD_take_of_lt (w : List Nat) (n x : Nat) (h : x < n) :
    (w.take n).getD x 0 = w.getD x 0 := by
  simp only [List.getD_eq_getElem?_getD]
  rw [List.getElem?_take_of_lt h]

theorem MockReadonlyIndex.weakly_sorted_of_less (idx : MockReadonlyIndex) (rows : Nat)
    (lt : Nat → Nat → Bool) (l : List Nat) (hl : ∀ x ∈ l, x < rows)
    (hlt : ∀ x, x < rows → ∀ y, y < rows →
      lt x y = (if idx.cmpRows x y ≠ 0 then decide (idx.cmpRows x y < 0) else decide (x < y)))
    (hids : idx.m_ids = std_sort lt l)
    (hpre : idx.KeysPreordered rows) :
    idx.m_ids.Pairwise (fun a b => idx.cmpRows a b ≤ 0) := by
  obtain ⟨hanti, htr⟩ := hpre
  have hzero : ∀ x, x < rows → ∀ y, y < rows →
      idx.cmpRows x y = 0 → idx.cmpRows y x = 0 := by
    intro x hx y hy h
    have h1 := hanti x hx y hy
    have h2 := hanti y hy x hx
    omega
  have hsort : (std_sort lt l).Pairwise (fun a b => lt b a = false) := by
    apply std_sort_not_lt lt l
    · intro a ha b hb hab
      have ha := hl a ha
      have hb := hl b hb
      rw [hlt a ha b hb, less_iff] at hab
      have hba : ¬ ((if idx.cmpRows b a ≠ 0 then decide (idx.cmpRows b a < 0)
          else decide (b < a)) = true) := by
        rw [less_iff]
        have h1 := hanti a ha b hb
        have h2 := hanti b hb a ha
        omega
      rw [hlt b hb a ha]
      exact Bool.eq_false_iff.2 hba
    · intro a ha b hb c hc hab hbc
      have ha := hl a ha
      have hb := hl b hb
      have hc := hl c hc
      rw [hlt a ha b hb, less_iff] at hab
      rw [hlt b hb c hc, less_iff] at hbc
      rw [hlt a ha c hc, less_iff]
      have hab' : idx.cmpRows a b ≤ 0 := by omega
      have hbc' : idx.cmpRows b c ≤ 0 := by omega
      have hac := htr a ha b hb c hc hab' hbc'
      rcases lt_or_eq_of_le hac with h | h
      · exact Or.inl h
      · right
        refine ⟨h, ?_⟩
        have hca : idx.cmpRows c a ≤ 0 := by have := hzero a ha c hc h; omega
        have hcb := htr c hc a ha b hb hca hab'
        have hba := htr b hb c hc a ha hbc' hca
        have h1 := hanti b hb c hc
        have h2 := hanti c hc b hb
        have h3 := hanti a ha b hb
        have h4 := hanti b hb a ha
        omega
  rw [hids]
  have hmem : ∀ a, a ∈ std_sort lt l → a < rows := fun a ha =>
    hl a ((mem_std_sort lt _ a).1 ha)
  refine List.Pairwise.imp_of_mem ?_ hsort
  intro a b ha hb hab
  have hba : ¬ ((if idx.cmpRows b a ≠ 0 then decide (idx.cmpRows b a < 0)
      else decide (b < a)) = true) := by
    rw [← hlt b (hmem b hb) a (hmem a ha), hab]
    exact Bool.false_ne_true
  rw [less_iff] at hba
  have h1 := hanti a (hmem a ha) b (hmem b hb)
  have h2 := hanti b (hmem b hb) a (hmem a ha)
  omega

/-- The comparator that `build` sorts with, in terms of the keys of the built index. -/
theorem MockReadonlyIndex.build_less (self : MockReadonlyIndex) (keys : SortableStrVec)
    (idx : MockReadonlyIndex) (hb : self.build keys = .ok idx) :
    ∃ lt : Nat → Nat → Bool,
      (∀ x, x < MockReadonlyIndex.buildRows self.m_schema keys →
        ∀ y, y < MockReadonlyIndex.buildRows self.m_schema keys →
        lt x y = (if idx.cmpRows x y ≠ 0 then decide (idx.cmpRows x y < 0)
          else decide (x < y))) ∧
      idx.m_ids = std_sort lt (initIds (MockReadonlyIndex.buildRows self.m_schema keys)) := by
  rcases MockReadonlyIndex.build_cases self keys idx hb with ⟨hf, rfl⟩ | ⟨hf, -, w, -, rfl⟩
  · have hr : MockReadonlyIndex.buildRows self.m_schema keys
        = keys.str_size / self.m_schema.m_fixedLen := by
      simp [MockReadonlyIndex.buildRows, Schema.getFixedRowLen, hf]
    rw [hr]
    refine ⟨fixedLenLess self.m_schema keys.m_strpool self.m_schema.m_fixedLen, ?_, rfl⟩
    intro x _ y _
    simp [fixedLenLess, MockReadonlyIndex.cmpRows, MockReadonlyIndex.rowKey, hf]
  · have hr : MockReadonlyIndex.buildRows self.m_schema keys = keys.m_index.length := by
      simp [MockReadonlyIndex.buildRows, Schema.getFixedRowLen, hf]
    rw [hr]
    refine ⟨varLenLess self.m_schema keys.m_strpool w, ?_, rfl⟩
    intro x hx y hy
    simp only [varLenLess, MockReadonlyIndex.cmpRows, MockReadonlyIndex.rowKey, ne_eq,
      not_true_eq_false, if_false]
    rw [getD_take_of_lt w _ x (by omega), getD_take_of_lt w _ (x + 1) (by omega),
      getD_take_of_lt w _ y (by omega), getD_take_of_lt w _ (y + 1) (by omega)]

/-- C2, as amended: whenever `MockReadonlyIndex::build` returns and `compareData` is a total
preorder on the keys of the rows, `m_ids` is sorted by key: for all positions `i < j` the key of
`ids[i]` compares `<= 0` with the key of `ids[j]`; and when the key set has at most `2^32` rows,
whenever the two keys compare equal `ids[i] < ids[j]` (equal keys keep insertion order). -/
theorem readonly_index_build_ids_sorted (self : MockReadonlyIndex) (keys : SortableStrVec)
    (idx : MockReadonlyIndex) (hb : self.build keys = .ok idx)
    (hpre : idx.KeysPreordered (MockReadonlyIndex.buildRows self.m_schema keys)) :
    idx.m_ids.Pairwise (fun a b => idx.cmpRows a b ≤ 0) ∧
    (MockReadonlyIndex.buildRows self.m_schema keys ≤ 2 ^ 32 → idx.IdsSorted) := by
  obtain ⟨lt, hlt, hids⟩ := MockReadonlyIndex.build_less self keys idx hb
  constructor
  · exact MockReadonlyIndex.weakly_sorted_of_less idx _ lt _
      (fun x hx => initIds_lt_rows _ x hx) hlt hids hpre
  · intro hrows
    rw [initIds_eq_range hrows] at hids
    exact MockReadonlyIndex.sorted_of_less idx _ lt hlt hids hpre

theorem readonly_index_build_ids_sorted_witness :
    (MockReadonlyIndex.new sampleVarSchema).build sampleVarKeys = .ok sampleVarIndex ∧
    sampleVarIndex.KeysPreordered
      (MockReadonlyIndex.buildRows (MockReadonlyIndex.new sampleVarSchema).m_schema
        sampleVarKeys) ∧
    sampleVarIndex.m_ids.Pairwise (fun a b => sampleVarIndex.cmpRows a b ≤ 0) ∧
    MockReadonlyIndex.buildRows (MockReadonlyIndex.new sampleVarSchema).m_schema sampleVarKeys
      ≤ 2 ^ 32 ∧
    sampleVarIndex.IdsSorted :=
  ⟨rfl, by decide,
    (readonly_index_build_ids_sorted (MockReadonlyIndex.new sampleVarSchema) sampleVarKeys
      sampleVarIndex rfl (by decide)).1,
    by decide,
    (readonly_index_build_ids_sorted (MockReadonlyIndex.new sampleVarSchema) sampleVarKeys
      sampleVarIndex rfl (by decide)).2 (by decide)⟩

theorem MockReadonlyIndex.build_schema (self : MockReadonlyIndex) (keys : SortableStrVec)
    (idx : MockReadonlyIndex) (hb : self.build keys = .ok idx) :
    idx.m_schema = self.m_schema := by
  rcases MockReadonlyIndex.build_cases self keys idx hb with
    ⟨-, rfl⟩ | ⟨-, -, w, -, rfl⟩ <;> rfl

theorem length_le_of_pairwise_lt (l : List Nat) (n : Nat) (hp : l.Pairwise (fun a b => a < b))
    (hb : ∀ a ∈ l, a < n) : l.length ≤ n := by
  have hnd : l.Nodup := hp.imp (fun h => Nat.ne_of_lt h)
  have hsub : l ⊆ List.range n := fun a ha => List.mem_range.2 (hb a ha)
  simpa using (List.subperm_of_subset hnd hsub).length_le

theorem MockReadonlyIndex.not_sorted_of_huge (self : MockReadonlyIndex) (keys : SortableStrVec)
    (idx : MockReadonlyIndex) (hb : self.build keys = .ok idx)
    (hconst : ∀ x y, self.m_schema.compareData x y = 0)
    (hrows : 2 ^ 32 < MockReadonlyIndex.buildRows self.m_schema keys) :
    idx.KeysPreordered (MockReadonlyIndex.buildRows self.m_schema keys) ∧ ¬ idx.IdsSorted := by
  have hsch := MockReadonlyIndex.build_schema _ _ idx hb
  have hcmp : ∀ x y, idx.cmpRows x y = 0 := by
    intro x y
    unfold MockReadonlyIndex.cmpRows
    rw [hsch]
    exact hconst _ _
  refine ⟨⟨?_, ?_⟩, ?_⟩
  · intro x _ y _
    rw [hcmp, hcmp]
  · intro x _ y _ z _ _ _
    rw [hcmp]
  · intro hsorted
    have hp : idx.m_ids.Pairwise (fun a b => a < b) :=
      List.Pairwise.imp (fun {a b} h => h.2 (hcmp a b)) hsorted
    obtain ⟨lt, hids⟩ := MockReadonlyIndex.build_ids _ _ idx hb
    have hlt : ∀ a ∈ idx.m_ids, a < 2 ^ 32 := by
      intro a ha
      rw [hids, mem_std_sort] at ha
      exact initIds_lt _ _ ha
    have hlen := length_le_of_pairwise_lt _ _ hp hlt
    rw [MockReadonlyIndex.build_ids_length idx lt _ hids] at hlen
    omega

/-- C2 as stated fails, in both branches of `build`: built from `2^32 + 1` empty
variable-length keys, and built from `2^32 + 1` one-byte keys of a fixed-length schema, under a
`compareData` that is a total preorder (all keys compare equal), `m_ids` is not sorted with ties
broken by id, because its elements are `uint32_t` and two positions hold the id `0`. -/
theorem readonly_index_build_ids_sorted_counterexample :
    (∃ idx, (MockReadonlyIndex.new constVarSchema).build hugeVarKeys = .ok idx ∧
      idx.KeysPreordered
        (MockReadonlyIndex.buildRows (MockReadonlyIndex.new constVarSchema).m_schema
          hugeVarKeys) ∧
      ¬ idx.IdsSorted) ∧
    (∃ idx, (MockReadonlyIndex.new constFixedSchema).build hugeFixedKeys = .ok idx ∧
      idx.KeysPreordered
        (MockReadonlyIndex.buildRows (MockReadonlyIndex.new constFixedSchema).m_schema
          hugeFixedKeys) ∧
      ¬ idx.IdsSorted) := by
  constructor
  · obtain ⟨idx, hb⟩ := hugeVarKeys_build
    have hrows : 2 ^ 32 < MockReadonlyIndex.buildRows
        (MockReadonlyIndex.new constVarSchema).m_schema hugeVarKeys := by
      rw [show (MockReadonlyIndex.new constVarSchema).m_schema = constVarSchema from rfl,
        hugeVarKeys_rows]
      omega
    exact ⟨idx, hb, MockReadonlyIndex.not_sorted_of_huge
      (MockReadonlyIndex.new constVarSchema) hugeVarKeys idx hb (fun _ _ => rfl) hrows⟩
  · obtain ⟨idx, hb⟩ := hugeFixedKeys_build
    have hrows : 2 ^ 32 < MockReadonlyIndex.buildRows
        (MockReadonlyIndex.new constFixedSchema).m_schema hugeFixedKeys := by
      rw [show (MockReadonlyIndex.new constFixedSchema).m_schema = constFixedSchema from rfl,
        hugeFixedKeys_rows]
      omega
    exact ⟨idx, hb, MockReadonlyIndex.not_sorted_of_huge
      (MockReadonlyIndex.new constFixedSchema) hugeFixedKeys idx hb (fun _ _ => rfl) hrows⟩

/-! ## Probes of the readonly index -/

theorem bytewiseCompare_eq_zero (x y : Bytes) : bytewiseCompare x y = 0 ↔ x = y := by
  induction x generalizing y with
  | nil => cases y <;> simp [bytewiseCompare]
  | cons a as ih =>
    cases y with
    | nil => simp [bytewiseCompare]
    | cons b bs =>
      simp only [bytewiseCompare, List.cons.injEq]
      by_cases h1 : a < b
      · simp [h1]; omega
      · by_cases h2 : b < a
        · simp [h1, h2]; omega
        · simp only [h1, h2, if_false, ih]
          have : a = b := by omega
          simp [this]

/-- C3, the code at a failing input: the index built from the variable-length keys `"b"`,
`"a"`, `"c"`, `"a"` under the bytewise comparison (which is `0` exactly for equal bytes) has the
key `"a"` in row 1, yet `seekExact("a")` and `seekLowerBound("a")` both return `false`: the
probe compares with `m_keys[lo]`, the key of row `lo`, not with the key at sorted position
`lo`. -/
theorem readonly_index_seek_misses_present_key :
    (∀ x y, sampleVarSchema.compareData x y = 0 ↔ x = y) ∧
    (MockReadonlyIndex.new sampleVarSchema).build sampleVarKeys = .ok sampleVarIndex ∧
    sampleVarIndex.rowKey 1 = [97] ∧
    MockReadonlyIndexIterator.seekExact sampleVarIndex [97] MockReadonlyIndexIterator.fresh
      = some (MockReadonlyIndexIterator.fresh, false) ∧
    MockReadonlyIndexIterator.seekLowerBound sampleVarIndex [97] MockReadonlyIndexIterator.fresh
      = some ({ m_pos := 0 }, false) :=
  ⟨bytewiseCompare_eq_zero, rfl, by decide, by decide, by decide⟩

/-- C4, the code at a failing input: on the index built from the one-byte keys `"b"`, `"a"`,
`"c"`, `"a"` of a fixed-length schema, `seekLowerBound("a")` finds the lower bound `0` and then
reads `m_keys[0]` although the packed keys of a fixed-length index hold no row: the call has no
result. -/
theorem readonly_index_seekLowerBound_fixed_len_faults :
    (MockReadonlyIndex.new sampleFixedSchema).build sampleFixedKeys = .ok sampleFixedIndex ∧
    sampleFixedIndex.m_keys.size = 0 ∧
    MockReadonlyIndexIterator.seekLowerBound sampleFixedIndex [97]
      MockReadonlyIndexIterator.fresh = none :=
  ⟨rfl, by decide, by decide⟩

/-- C7, the code at a failing input: on the index built from the empty key set (zero rows) a
fresh iterator's `increment` and `decrement` do not report `false`; both call `getIndexKey`,
which reads `m_ids` outside its bounds, so neither call has a result. -/
theorem readonly_iterator_empty_index_faults :
    (MockReadonlyIndex.new sampleFixedSchema).build emptyFixedKeys = .ok emptyFixedIndex ∧
    emptyFixedIndex.m_ids.length = 0 ∧
    (∀ wantKey, MockReadonlyIndexIterator.increment emptyFixedIndex wantKey
      MockReadonlyIndexIterator.fresh = none) ∧
    (∀ wantKey, MockReadonlyIndexIterator.decrement emptyFixedIndex wantKey
      MockReadonlyIndexIterator.fresh = none) :=
  ⟨rfl, rfl, by decide, by decide⟩

/-! ## The readonly index iterator -/

theorem fstrvec.get?_isSome (v : fstrvec) (id : Nat) (h : id + 1 < v.offsets.length) :
    ∃ k, v.get? id = some k := by
  unfold fstrvec.get?
  rw [List.getElem?_eq_getElem (show id < v.offsets.length by omega),
    List.getElem?_eq_getElem h]
  exact ⟨_, rfl⟩

theorem MockReadonlyIndexIterator.getIndexKey_eq (owner : MockReadonlyIndex) (wantKey : Bool)
    (hk : wantKey = true → owner.KeysReadable) (p : Nat) (hp : p < owner.m_ids.length) :
    MockReadonlyIndexIterator.getIndexKey owner wantKey p
      = some (owner.entry wantKey owner.m_ids[p]) := by
  unfold MockReadonlyIndexIterator.getIndexKey MockReadonlyIndex.entry
  rw [List.getElem?_eq_getElem hp]
  cases wantKey with
  | false => rfl
  | true =>
    obtain ⟨k, hk'⟩ := fstrvec.get?_isSome owner.m_keys owner.m_ids[p]
      (hk rfl _ (List.getElem_mem hp))
    simp [hk']

theorem SIZE_MAX_eq : SIZE_MAX = 2 ^ 64 - 1 := rfl

theorem MockReadonlyIndexIterator.increment_at (owner : MockReadonlyIndex) (wantKey : Bool)
    (hk : wantKey = true → owner.KeysReadable) (hmax : owner.m_ids.length < SIZE_MAX)
    (p : Nat) (hp : p < owner.m_ids.length) :
    MockReadonlyIndexIterator.increment owner wantKey { m_pos := p }
      = some ({ m_pos := p + 1 }, some (owner.entry wantKey owner.m_ids[p])) := by
  have h1 : p ≠ SIZE_MAX := by omega
  have h2 : (p + 1) % 2 ^ 64 = p + 1 := Nat.mod_eq_of_lt (by rw [SIZE_MAX_eq] at hmax; omega)
  unfold MockReadonlyIndexIterator.increment
  simp only [h1, if_false, hp, if_true,
    MockReadonlyIndexIterator.getIndexKey_eq owner wantKey hk p hp, h2]

theorem MockReadonlyIndexIterator.increment_past_end (owner : MockReadonlyIndex)
    (wantKey : Bool) (hmax : owner.m_ids.length < SIZE_MAX) :
    MockReadonlyIndexIterator.increment owner wantKey { m_pos := owner.m_ids.length }
      = some ({ m_pos := owner.m_ids.length }, none) := by
  have h1 : owner.m_ids.length ≠ SIZE_MAX := by omega
  unfold MockReadonlyIndexIterator.increment
  simp only [h1, if_false, lt_irrefl]

theorem MockReadonlyIndexIterator.incrementN_past_end (owner : MockReadonlyIndex)
    (wantKey : Bool) (hmax : owner.m_ids.length < SIZE_MAX) (n : Nat) :
    MockReadonlyIndexIterator.incrementN owner wantKey n { m_pos := owner.m_ids.length }
      = some ({ m_pos := owner.m_ids.length }, List.replicate n none) := by
  induction n with
  | zero => rfl
  | succ n ih =>
    unfold MockReadonlyIndexIterator.incrementN
    simp only [MockReadonlyIndexIterator.increment_past_end owner wantKey hmax, ih]
    rfl

theorem MockReadonlyIndexIterator.incrementN_from (owner : MockReadonlyIndex) (wantKey : Bool)
    (hk : wantKey = true → owner.KeysReadable) (hmax : owner.m_ids.length < SIZE_MAX)
    (n d : Nat) : ∀ p, p + d = owner.m_ids.length →
    MockReadonlyIndexIterator.incrementN owner wantKey (d + n) { m_pos := p }
      = some ({ m_pos := owner.m_ids.length },
          (owner.m_ids.drop p).map (fun id => some (owner.entry wantKey id))
            ++ List.replicate n none) := by
  induction d with
  | zero =>
    intro p hp
    have hp' : p = owner.m_ids.length := by omega
    subst hp'
    simp [MockReadonlyIndexIterator.incrementN_past_end owner wantKey hmax]
  | succ d ih =>
    intro p hp
    have hlt : p < owner.m_ids.length := by omega
    have hn : d + 1 + n = (d + n) + 1 := by omega
    rw [hn]
    unfold MockReadonlyIndexIterator.incrementN
    simp only [MockReadonlyIndexIterator.increment_at owner wantKey hk hmax p hlt,
      ih (p + 1) (by omega)]
    rw [List.drop_eq_getElem_cons hlt]
    rfl

/-- What holds of `increment`: on every readonly index with `rows >= 1` (and fewer than
`size_t(-1)` rows, as every array has), the first `rows` calls of `increment` on a fresh
iterator return `true` and yield `m_ids[0]`, `m_ids[1]`, ..., `m_ids[rows-1]` in this order,
and every later call returns `false` and leaves the position at `rows`.  This holds for calls
with a null key pointer on every index, and for calls with a key buffer when the keys of the
ids are rows of `m_keys`, which they are not on a fixed-length index. -/
theorem MockReadonlyIndexIterator.incrementN_fresh (owner : MockReadonlyIndex) (wantKey : Bool)
    (hrows : 1 ≤ owner.m_ids.length) (hmax : owner.m_ids.length < SIZE_MAX)
    (hk : wantKey = true → owner.KeysReadable) (n : Nat) :
    MockReadonlyIndexIterator.incrementN owner wantKey (owner.m_ids.length + n)
        MockReadonlyIndexIterator.fresh
      = some ({ m_pos := owner.m_ids.length },
          owner.m_ids.map (fun id => some (owner.entry wantKey id))
            ++ List.replicate n none) := by
  have hn : owner.m_ids.length + n = (owner.m_ids.length - 1 + n) + 1 := by omega
  rw [hn]
  unfold MockReadonlyIndexIterator.incrementN
  have hfirst : MockReadonlyIndexIterator.increment owner wantKey
      MockReadonlyIndexIterator.fresh
      = some ({ m_pos := 1 }, some (owner.entry wantKey owner.m_ids[0])) := by
    unfold MockReadonlyIndexIterator.increment MockReadonlyIndexIterator.fresh
    simp only [if_true, MockReadonlyIndexIterator.getIndexKey_eq owner wantKey hk 0 hrows]
  simp only [hfirst, MockReadonlyIndexIterator.incrementN_from owner wantKey hk hmax n
    (owner.m_ids.length - 1) 1 (by omega)]
  have hdrop : owner.m_ids = owner.m_ids[0] :: owner.m_ids.drop 1 := by
    conv_lhs => rw [← List.drop_zero (l := owner.m_ids)]
    exact List.drop_eq_getElem_cons hrows
  have hmap := congrArg (List.map (fun id => some (owner.entry wantKey id))) hdrop
  rw [hmap]
  rfl

theorem MockReadonlyIndexIterator.incrementN_fresh_sample :
    (1 ≤ sampleVarIndex.m_ids.length ∧ sampleVarIndex.m_ids.length < SIZE_MAX ∧
      sampleVarIndex.KeysReadable ∧
      MockReadonlyIndexIterator.incrementN sampleVarIndex true
          (sampleVarIndex.m_ids.length + 2) MockReadonlyIndexIterator.fresh
        = some ({ m_pos := sampleVarIndex.m_ids.length },
            sampleVarIndex.m_ids.map (fun id => some (sampleVarIndex.entry true id))
              ++ List.replicate 2 none)) ∧
    (1 ≤ sampleFixedIndex.m_ids.length ∧ sampleFixedIndex.m_ids.length < SIZE_MAX ∧
      MockReadonlyIndexIterator.incrementN sampleFixedIndex false
          (sampleFixedIndex.m_ids.length + 2) MockReadonlyIndexIterator.fresh
        = some ({ m_pos := sampleFixedIndex.m_ids.length },
            sampleFixedIndex.m_ids.map (fun id => some (sampleFixedIndex.entry false id))
              ++ List.replicate 2 none)) :=
  ⟨⟨by decide, by decide, by decide,
    MockReadonlyIndexIterator.incrementN_fresh sampleVarIndex true (by decide) (by decide)
      (fun _ => by decide) 2⟩,
   ⟨by decide, by decide,
    MockReadonlyIndexIterator.incrementN_fresh sampleFixedIndex false (by decide) (by decide)
      (fun h => absurd h (by decide)) 2⟩⟩

theorem size_sub_one {n : Nat} (h1 : 1 ≤ n) (h2 : n < SIZE_MAX) : size_sub n 1 = n - 1 := by
  rw [SIZE_MAX_eq] at h2
  unfold size_sub
  rw [Nat.mod_eq_of_lt (show n < 2 ^ 64 by omega), Nat.mod_eq_of_lt (show 1 < 2 ^ 64 by norm_num)]
  have h3 : n + 2 ^ 64 - 1 = (n - 1) + 2 ^ 64 := by omega
  rw [h3, Nat.add_mod_right]
  exact Nat.mod_eq_of_lt (by omega)

theorem MockReadonlyIndexIterator.decrement_at (owner : MockReadonlyIndex) (wantKey : Bool)
    (hk : wantKey = true → owner.KeysReadable) (hmax : owner.m_ids.length < SIZE_MAX)
    (p : Nat) (hp : p < owner.m_ids.length) :
    MockReadonlyIndexIterator.decrement owner wantKey { m_pos := p + 1 }
      = some ({ m_pos := p }, some (owner.entry wantKey owner.m_ids[p])) := by
  have h1 : p + 1 ≠ SIZE_MAX := by omega
  unfold MockReadonlyIndexIterator.decrement
  simp only [h1, if_false, gt_iff_lt, Nat.zero_lt_succ, if_true, Nat.add_sub_cancel,
    MockReadonlyIndexIterator.getIndexKey_eq owner wantKey hk p hp]

theorem MockReadonlyIndexIterator.decrement_fresh (owner : MockReadonlyIndex) (wantKey : Bool)
    (hk : wantKey = true → owner.KeysReadable) (hrows : 1 ≤ owner.m_ids.length)
    (hmax : owner.m_ids.length < SIZE_MAX) :
    MockReadonlyIndexIterator.decrement owner wantKey MockReadonlyIndexIterator.fresh
      = some ({ m_pos := owner.m_ids.length - 1 },
          some (owner.entry wantKey owner.m_ids[owner.m_ids.length - 1])) := by
  unfold MockReadonlyIndexIterator.decrement MockReadonlyIndexIterator.fresh
  simp only [if_true, size_sub_one hrows hmax,
    MockReadonlyIndexIterator.getIndexKey_eq owner wantKey hk (owner.m_ids.length - 1)
      (by omega)]

theorem MockReadonlyIndexIterator.decrement_begin (owner : MockReadonlyIndex) (wantKey : Bool) :
    MockReadonlyIndexIterator.decrement owner wantKey { m_pos := 0 }
      = some ({ m_pos := 0 }, none) := by
  unfold MockReadonlyIndexIterator.decrement
  have h : (0 : Nat) ≠ SIZE_MAX := by decide
  simp only [h, if_false, gt_iff_lt, lt_irrefl]

theorem MockReadonlyIndexIterator.decrementN_begin (owner : MockReadonlyIndex) (wantKey : Bool)
    (n : Nat) :
    MockReadonlyIndexIterator.decrementN owner wantKey n { m_pos := 0 }
      = some ({ m_pos := 0 }, List.replicate n none) := by
  induction n with
  | zero => rfl
  | succ n ih =>
    unfold MockReadonlyIndexIterator.decrementN
    simp only [MockReadonlyIndexIterator.decrement_begin, ih]
    rfl

theorem MockReadonlyIndexIterator.decrementN_from (owner : MockReadonlyIndex) (wantKey : Bool)
    (hk : wantKey = true → owner.KeysReadable) (hmax : owner.m_ids.length < SIZE_MAX)
    (n p : Nat) : p ≤ owner.m_ids.length →
    MockReadonlyIndexIterator.decrementN owner wantKey (p + n) { m_pos := p }
      = some ({ m_pos := 0 },
          (owner.m_ids.take p).reverse.map (fun id => some (owner.entry wantKey id))
            ++ List.replicate n none) := by
  induction p with
  | zero =>
    intro _
    simp [MockReadonlyIndexIterator.decrementN_begin]
  | succ p ih =>
    intro hp
    have hlt : p < owner.m_ids.length := by omega
    have hn : p + 1 + n = (p + n) + 1 := by omega
    rw [hn]
    unfold MockReadonlyIndexIterator.decrementN
    simp only [MockReadonlyIndexIterator.decrement_at owner wantKey hk hmax p hlt,
      ih (by omega)]
    have ht : (owner.m_ids.take (p + 1)).reverse
        = owner.m_ids[p] :: (owner.m_ids.take p).reverse := by
      rw [List.take_succ, List.getElem?_eq_getElem hlt]
      simp
    rw [ht]
    rfl

/-- What holds of `decrement`: on every readonly index with `rows >= 1` (and fewer than
`size_t(-1)` rows), the first `rows` calls of `decrement` on a fresh iterator return `true` and
yield `m_ids[rows-1]`, `m_ids[rows-2]`, ..., `m_ids[0]` in this order, and every later call
returns `false`.  This holds for calls with a null key pointer on every index, and for calls
with a key buffer when the keys of the ids are rows of `m_keys`, which they are not on a
fixed-length index. -/
theorem MockReadonlyIndexIterator.decrementN_fresh (owner : MockReadonlyIndex) (wantKey : Bool)
    (hrows : 1 ≤ owner.m_ids.length) (hmax : owner.m_ids.length < SIZE_MAX)
    (hk : wantKey = true → owner.KeysReadable) (n : Nat) :
    MockReadonlyIndexIterator.decrementN owner wantKey (owner.m_ids.length + n)
        MockReadonlyIndexIterator.fresh
      = some ({ m_pos := 0 },
          owner.m_ids.reverse.map (fun id => some (owner.entry wantKey id))
            ++ List.replicate n none) := by
  have hn : owner.m_ids.length + n = (owner.m_ids.length - 1 + n) + 1 := by omega
  rw [hn]
  unfold MockReadonlyIndexIterator.decrementN
  simp only [MockReadonlyIndexIterator.decrement_fresh owner wantKey hk hrows hmax,
    MockReadonlyIndexIterator.decrementN_from owner wantKey hk hmax n
      (owner.m_ids.length - 1) (by omega)]
  have hlt : owner.m_ids.length - 1 < owner.m_ids.length := by omega
  have htake : owner.m_ids.reverse
      = owner.m_ids[owner.m_ids.length - 1]
          :: (owner.m_ids.take (owner.m_ids.length - 1)).reverse := by
    have h1 : owner.m_ids = owner.m_ids.take (owner.m_ids.length - 1 + 1) := by
      rw [Nat.sub_add_cancel hrows, List.take_length]
    have h2 : (owner.m_ids.take (owner.m_ids.length - 1 + 1)).reverse
        = owner.m_ids[owner.m_ids.length - 1]
            :: (owner.m_ids.take (owner.m_ids.length - 1)).reverse := by
      rw [List.take_succ, List.getElem?_eq_getElem hlt]
      simp
    rw [← h2, ← h1]
  rw [htake]
  rfl

theorem MockReadonlyIndexIterator.decrementN_fresh_sample :
    (1 ≤ sampleVarIndex.m_ids.length ∧ sampleVarIndex.m_ids.length < SIZE_MAX ∧
      sampleVarIndex.KeysReadable ∧
      MockReadonlyIndexIterator.decrementN sampleVarIndex true
          (sampleVarIndex.m_ids.length + 3) MockReadonlyIndexIterator.fresh
        = some ({ m_pos := 0 },
            sampleVarIndex.m_ids.reverse.map (fun id => some (sampleVarIndex.entry true id))
              ++ List.replicate 3 none)) ∧
    (1 ≤ sampleFixedIndex.m_ids.length ∧ sampleFixedIndex.m_ids.length < SIZE_MAX ∧
      MockReadonlyIndexIterator.decrementN sampleFixedIndex false
          (sampleFixedIndex.m_ids.length + 3) MockReadonlyIndexIterator.fresh
        = some ({ m_pos := 0 },
            sampleFixedIndex.m_ids.reverse.map
                (fun id => some (sampleFixedIndex.entry false id))
              ++ List.replicate 3 none)) :=
  ⟨⟨by decide, by decide, by decide,
    MockReadonlyIndexIterator.decrementN_fresh sampleVarIndex true (by decide) (by decide)
      (fun _ => by decide) 3⟩,
   ⟨by decide, by decide,
    MockReadonlyIndexIterator.decrementN_fresh sampleFixedIndex false (by decide) (by decide)
      (fun h => absurd h (by decide)) 3⟩⟩

theorem MockReadonlyIndexIterator.getIndexKey_lt (owner : MockReadonlyIndex) (wantKey : Bool)
    (p : Nat) (e : Nat × Option Bytes)
    (h : MockReadonlyIndexIterator.getIndexKey owner wantKey p = some e) :
    p < owner.m_ids.length := by
  unfold MockReadonlyIndexIterator.getIndexKey at h
  by_contra hp
  rw [List.getElem?_eq_none (by omega)] at h
  simp at h

/-- What holds at the end: on every readonly index with `rows >= 1`, an `increment` that
returns `false` leaves the iterator past-end (`m_pos = rows`), a `seekLowerBound` whose lower
bound is `rows` puts it there, and from past-end the next `decrement` returns `true` and yields
the entry at sorted position `rows - 1`.  This holds for calls with a null key pointer on every
index, and for calls with a key buffer when the keys of the ids are rows of `m_keys`, which
they are not on a fixed-length index. -/
theorem MockReadonlyIndexIterator.past_end_decrement (owner : MockReadonlyIndex) (wantKey : Bool)
    (hrows : 1 ≤ owner.m_ids.length) (hmax : owner.m_ids.length < SIZE_MAX)
    (hk : wantKey = true → owner.KeysReadable) :
    (∀ it it1, (it.m_pos = SIZE_MAX ∨ it.m_pos ≤ owner.m_ids.length) →
      MockReadonlyIndexIterator.increment owner wantKey it = some (it1, none) →
      it1.m_pos = owner.m_ids.length) ∧
    (∀ key it b, MockReadonlyIndexIterator.seekLowerBound_imp owner key
        = some (owner.m_ids.length, b) →
      MockReadonlyIndexIterator.seekLowerBound owner key it
        = some ({ m_pos := owner.m_ids.length }, b)) ∧
    (∀ it : MockReadonlyIndexIterator, it.m_pos = owner.m_ids.length →
      ∃ id, owner.m_ids[owner.m_ids.length - 1]? = some id ∧
        MockReadonlyIndexIterator.decrement owner wantKey it
          = some ({ m_pos := owner.m_ids.length - 1 }, some (owner.entry wantKey id))) := by
  refine ⟨?_, ?_, ?_⟩
  · intro it it1 hv h
    unfold MockReadonlyIndexIterator.increment at h
    by_cases h1 : it.m_pos = SIZE_MAX
    · simp only [h1, if_true,
        MockReadonlyIndexIterator.getIndexKey_eq owner wantKey hk 0 hrows] at h
      simp at h
    · simp only [h1, if_false] at h
      by_cases h2 : it.m_pos < owner.m_ids.length
      · simp only [h2, if_true,
          MockReadonlyIndexIterator.getIndexKey_eq owner wantKey hk it.m_pos h2] at h
        simp at h
      · simp only [h2, if_false, Option.some.injEq, Prod.mk.injEq, and_true] at h
        subst h
        rcases hv with hv | hv
        · exact absurd hv h1
        · omega
  · intro key it b h
    unfold MockReadonlyIndexIterator.seekLowerBound
    rw [h]
  · intro it hit
    have hp : owner.m_ids.length - 1 < owner.m_ids.length := by omega
    have h := MockReadonlyIndexIterator.decrement_at owner wantKey hk hmax
      (owner.m_ids.length - 1) hp
    have hit' : it = { m_pos := owner.m_ids.length - 1 + 1 } := by
      cases it
      simp only [MockReadonlyIndexIterator.mk.injEq]
      simp only at hit
      omega
    rw [hit']
    exact ⟨_, List.getElem?_eq_getElem hp, h⟩

theorem MockReadonlyIndexIterator.past_end_decrement_sample :
    1 ≤ sampleVarIndex.m_ids.length ∧ sampleVarIndex.m_ids.length < SIZE_MAX ∧
    sampleVarIndex.KeysReadable ∧
    ∃ id, sampleVarIndex.m_ids[sampleVarIndex.m_ids.length - 1]? = some id ∧
      MockReadonlyIndexIterator.decrement sampleVarIndex true
          { m_pos := sampleVarIndex.m_ids.length }
        = some ({ m_pos := sampleVarIndex.m_ids.length - 1 },
            some (sampleVarIndex.entry true id)) :=
  ⟨by decide, by decide, by decide,
    (MockReadonlyIndexIterator.past_end_decrement sampleVarIndex true (by decide) (by decide)
      (fun _ => by decide)).2.2 { m_pos := sampleVarIndex.m_ids.length } rfl⟩

theorem lower_bound_loop_spec (a : List Nat) (comp : Nat → Bool) (n : Nat)
    (hmono : ∀ p q, p ≤ q → q < n → comp (a.getD q 0) = true → comp (a.getD p 0) = true) :
    ∀ fuel lo hi, hi - lo ≤ fuel → lo ≤ hi → hi ≤ n →
      (∀ p, p < lo → comp (a.getD p 0) = true) →
      (∀ p, hi ≤ p → p < n → comp (a.getD p 0) = false) →
      lo ≤ lower_bound_loop a comp fuel lo hi ∧ lower_bound_loop a comp fuel lo hi ≤ hi ∧
      (∀ p, p < lower_bound_loop a comp fuel lo hi → comp (a.getD p 0) = true) ∧
      (∀ p, lower_bound_loop a comp fuel lo hi ≤ p → p < n →
        comp (a.getD p 0) = false) := by
  intro fuel
  induction fuel with
  | zero =>
    intro lo hi hf hle _ hlo hhi
    have : lo = hi := by omega
    subst this
    exact ⟨Nat.le_refl _, Nat.le_refl _, hlo, hhi⟩
  | succ fuel ih =>
    intro lo hi hf hle hn hlo hhi
    unfold lower_bound_loop
    by_cases hlt : lo < hi
    · have hmid1 : lo ≤ (lo + hi) / 2 := by omega
      have hmid2 : (lo + hi) / 2 < hi := by omega
      simp only [hlt, if_true]
      by_cases hc : comp (a.getD ((lo + hi) / 2) 0) = true
      · simp only [hc, if_true]
        obtain ⟨h1, h2, h3, h4⟩ := ih ((lo + hi) / 2 + 1) hi (by omega) (by omega) hn
          (fun p hp => hmono p ((lo + hi) / 2) (by omega) (by omega) hc) hhi
        exact ⟨by omega, h2, h3, h4⟩
      · simp only [hc, Bool.false_eq_true, if_false]
        obtain ⟨h1, h2, h3, h4⟩ := ih lo ((lo + hi) / 2) (by omega) hmid1 (by omega) hlo
          (fun p hp hpn => by
            by_contra hp'
            exact hc (hmono ((lo + hi) / 2) p hp hpn (by simpa using hp')))
        exact ⟨h1, by omega, h3, h4⟩
    · simp only [hlt, if_false]
      have : lo = hi := by omega
      subst this
      exact ⟨Nat.le_refl _, Nat.le_refl _, hlo, hhi⟩

theorem lower_bound_loop_le (a : List Nat) (comp : Nat → Bool) :
    ∀ fuel lo hi, lo ≤ hi → lower_bound_loop a comp fuel lo hi ≤ hi := by
  intro fuel
  induction fuel with
  | zero => intro lo hi h; exact h
  | succ fuel ih =>
    intro lo hi h
    unfold lower_bound_loop
    by_cases hlt : lo < hi
    · simp only [hlt, if_true]
      split
      · exact ih _ _ (by omega)
      · exact Nat.le_trans (ih _ _ (by omega)) (by omega)
    · simp only [hlt, if_false]
      exact h

theorem lower_bound_0_le (a : List Nat) (n : Nat) (comp : Nat → Bool) :
    lower_bound_0 a n comp ≤ n :=
  lower_bound_loop_le a comp n 0 n (Nat.zero_le _)

theorem countP_eq_of_partition (a : List Nat) (comp : Nat → Bool) (r : Nat)
    (hr : r ≤ a.length)
    (h1 : ∀ p, p < r → comp (a.getD p 0) = true)
    (h2 : ∀ p, r ≤ p → p < a.length → comp (a.getD p 0) = false) :
    (a.filter comp).length = r := by
  induction a generalizing r with
  | nil => simp at hr; simp [hr]
  | cons x xs ih =>
    cases r with
    | zero =>
      have hx : comp x = false := by simpa using h2 0 (Nat.le_refl _) (by simp)
      have := ih 0 (Nat.zero_le _) (fun p hp => absurd hp (Nat.not_lt_zero _))
        (fun p _ hp => by simpa using h2 (p + 1) (Nat.zero_le _) (by simpa using hp))
      simp [List.filter_cons, hx, this]
    | succ r =>
      have hx : comp x = true := by simpa using h1 0 (Nat.zero_lt_succ _)
      have := ih r (by simpa using hr)
        (fun p hp => by simpa using h1 (p + 1) (by omega))
        (fun p hp hp' => by simpa using h2 (p + 1) (by omega) (by simpa using hp'))
      simp [List.filter_cons, hx, this]

/-- The lower bound that binary search finds in a list whose elements that precede the key all
stand in front is the number of elements that precede the key. -/
theorem lower_bound_0_eq_count (a : List Nat) (comp : Nat → Bool)
    (hmono : ∀ p q, p ≤ q → q < a.length → comp (a.getD q 0) = true →
      comp (a.getD p 0) = true) :
    lower_bound_0 a a.length comp = (a.filter comp).length := by
  obtain ⟨-, h2, h3, h4⟩ := lower_bound_loop_spec a comp a.length hmono a.length 0 a.length
    (by omega) (Nat.zero_le _) (Nat.le_refl _) (fun p hp => absurd hp (Nat.not_lt_zero _))
    (fun p hp hp' => absurd hp' (by omega))
  exact (countP_eq_of_partition a comp _ h2 h3 h4).symm

/-- Every operation of the readonly iterator that returns keeps the position either unset
(`size_t(-1)`) or at most `rows`. -/
theorem readonly_iterator_position_valid (owner : MockReadonlyIndex) (wantKey : Bool)
    (key : Bytes) (it it1 : MockReadonlyIndexIterator)
    (hv : it.m_pos = SIZE_MAX ∨ it.m_pos ≤ owner.m_ids.length)
    (hop : (∃ r, MockReadonlyIndexIterator.increment owner wantKey it = some (it1, r)) ∨
      (∃ r, MockReadonlyIndexIterator.decrement owner wantKey it = some (it1, r)) ∨
      (∃ b, MockReadonlyIndexIterator.seekLowerBound owner key it = some (it1, b)) ∨
      (∃ b, MockReadonlyIndexIterator.seekExact owner key it = some (it1, b))) :
    it1.m_pos = SIZE_MAX ∨ it1.m_pos ≤ owner.m_ids.length := by
  have himp : ∀ lo b, MockReadonlyIndexIterator.seekLowerBound_imp owner key = some (lo, b) →
      lo ≤ owner.m_ids.length := by
    intro lo b h
    unfold MockReadonlyIndexIterator.seekLowerBound_imp at h
    simp only at h
    split at h
    · split at h
      · split at h
        · simp only [Option.some.injEq, Prod.mk.injEq] at h
          rw [← h.1]; exact lower_bound_0_le _ _ _
        · simp at h
      · simp only [Option.some.injEq, Prod.mk.injEq] at h
        rw [← h.1]; exact lower_bound_0_le _ _ _
    · split at h
      · split at h
        · simp only [Option.some.injEq, Prod.mk.injEq] at h
          rw [← h.1]; exact lower_bound_0_le _ _ _
        · simp at h
      · simp only [Option.some.injEq, Prod.mk.injEq] at h
        rw [← h.1]; exact lower_bound_0_le _ _ _
  rcases hop with ⟨r, h⟩ | ⟨r, h⟩ | ⟨b, h⟩ | ⟨b, h⟩
  · unfold MockReadonlyIndexIterator.increment at h
    split at h
    · split at h
      · simp at h
      · rename_i e hg
        have := MockReadonlyIndexIterator.getIndexKey_lt owner wantKey 0 e hg
        simp only [Option.some.injEq, Prod.mk.injEq] at h
        rw [← h.1]; right; show 1 ≤ _; omega
    · split at h
      · split at h
        · simp at h
        · rename_i hlt x e hg
          simp only [Option.some.injEq, Prod.mk.injEq] at h
          rw [← h.1]; right
          show (it.m_pos + 1) % 2 ^ 64 ≤ _
          exact Nat.le_trans (Nat.mod_le _ _) hlt
      · simp only [Option.some.injEq, Prod.mk.injEq] at h
        rw [← h.1]; exact hv
  · unfold MockReadonlyIndexIterator.decrement at h
    split at h
    · simp only at h
      split at h
      · simp at h
      · rename_i e hg
        have := MockReadonlyIndexIterator.getIndexKey_lt owner wantKey _ e hg
        simp only [Option.some.injEq, Prod.mk.injEq] at h
        rw [← h.1]; right; show size_sub _ 1 ≤ _; omega
    · split at h
      · split at h
        · simp at h
        · rename_i e hg
          have := MockReadonlyIndexIterator.getIndexKey_lt owner wantKey _ e hg
          simp only [Option.some.injEq, Prod.mk.injEq] at h
          rw [← h.1]; right; show it.m_pos - 1 ≤ _; omega
      · simp only [Option.some.injEq, Prod.mk.injEq] at h
        rw [← h.1]; exact hv
  · unfold MockReadonlyIndexIterator.seekLowerBound at h
    split at h
    · simp at h
    · rename_i lo b' himp'
      simp only [Option.some.injEq, Prod.mk.injEq] at h
      rw [← h.1]; right; exact himp lo b' himp'
  · unfold MockReadonlyIndexIterator.seekExact at h
    split at h
    · simp at h
    · rename_i lo himp'
      simp only [Option.some.injEq, Prod.mk.injEq] at h
      rw [← h.1]; right; exact himp lo true himp'
    · simp only [Option.some.injEq, Prod.mk.injEq] at h
      rw [← h.1]; exact hv

theorem MockReadonlyIndex.build_shape (self : MockReadonlyIndex) (keys : SortableStrVec)
    (idx : MockReadonlyIndex) (hb : self.build keys = .ok idx) :
    idx.m_fixedLen = self.m_schema.m_fixedLen ∧
    idx.m_ids.length = MockReadonlyIndex.buildRows self.m_schema keys ∧
    (∀ id ∈ idx.m_ids, id < MockReadonlyIndex.buildRows self.m_schema keys) ∧
    (self.m_schema.m_fixedLen = 0 →
      idx.m_keys.offsets.length = MockReadonlyIndex.buildRows self.m_schema keys + 1) := by
  obtain ⟨lt, hids⟩ := MockReadonlyIndex.build_ids self keys idx hb
  have hlen := MockReadonlyIndex.build_ids_length idx lt _ hids
  have hlt : ∀ id ∈ idx.m_ids, id < MockReadonlyIndex.buildRows self.m_schema keys := by
    intro id hid
    rw [hids, mem_std_sort] at hid
    exact initIds_lt_rows _ _ hid
  rcases MockReadonlyIndex.build_cases self keys idx hb with ⟨hf, rfl⟩ | ⟨hf, -, w, hw, rfl⟩
  · exact ⟨rfl, hlen, hlt, fun h => absurd h hf⟩
  · refine ⟨hf.symm, hlen, hlt, ?_⟩
    intro _
    have hr : MockReadonlyIndex.buildRows self.m_schema keys = keys.m_index.length := by
      simp [MockReadonlyIndex.buildRows, Schema.getFixedRowLen, hf]
    have hrows : 1 ≤ keys.m_index.length := by
      by_contra h
      have h0 : keys.m_index = [] := List.length_eq_zero.1 (by omega)
      rw [reuseIndexAsOffsets_empty keys h0] at hw
      simp at hw
    obtain ⟨w', hw', htake⟩ := reuseIndexAsOffsets_ok keys hrows
    have hww : w = w' := by
      rw [hw] at hw'
      exact Except.ok.inj hw'
    subst hww
    show (w.take (keys.m_index.length + 1)).length = _
    rw [htake, hr]
    simp

/-- On an index that `build` made of variable-length keys every key can be read from
`m_keys`. -/
theorem MockReadonlyIndex.build_var_keysReadable (self : MockReadonlyIndex)
    (keys : SortableStrVec) (idx : MockReadonlyIndex) (hb : self.build keys = .ok idx)
    (hvar : self.m_schema.m_fixedLen = 0) : idx.KeysReadable := by
  obtain ⟨-, -, hlt, hoff⟩ := MockReadonlyIndex.build_shape self keys idx hb
  intro id hid
  rw [hoff hvar]
  have := hlt id hid
  omega

/-- The position that `seekLowerBound_imp` writes is the result of the binary search with the
comparison of the row keys against the probe key, in both branches. -/
theorem MockReadonlyIndexIterator.seekLowerBound_imp_lo (owner : MockReadonlyIndex)
    (key : Bytes) (lo : Nat) (b : Bool)
    (h : MockReadonlyIndexIterator.seekLowerBound_imp owner key = some (lo, b)) :
    lo = lower_bound_0 owner.m_ids owner.m_ids.length
      (fun id => decide (owner.m_schema.compareData (owner.rowKey id) key < 0)) := by
  unfold MockReadonlyIndexIterator.seekLowerBound_imp at h
  by_cases hf : owner.m_fixedLen = 0
  · have hfun : (fun x => VarLenKeyCompare.id_key
        { offsets := owner.m_keys.offsets, strpool := owner.m_keys.strpool,
          schema := owner.m_schema } x key)
        = (fun id => decide (owner.m_schema.compareData (owner.rowKey id) key < 0)) := by
      funext x
      simp [VarLenKeyCompare.id_key, MockReadonlyIndex.rowKey, hf]
    simp only [hf, ne_eq, not_true_eq_false, if_false, hfun] at h
    split at h
    · split at h
      · simp only [Option.some.injEq, Prod.mk.injEq] at h
        exact h.1.symm
      · simp at h
    · simp only [Option.some.injEq, Prod.mk.injEq] at h
      exact h.1.symm
  · have hfun : (fun x => FixedLenKeyCompare.id_key
        { fixedLen := owner.m_fixedLen, strpool := owner.m_keys.strpool,
          schema := owner.m_schema } x key)
        = (fun id => decide (owner.m_schema.compareData (owner.rowKey id) key < 0)) := by
      funext x
      simp [FixedLenKeyCompare.id_key, MockReadonlyIndex.rowKey, hf]
    simp only [ne_eq, hf, not_false_eq_true, if_true, hfun] at h
    split at h
    · split at h
      · simp only [Option.some.injEq, Prod.mk.injEq] at h
        exact h.1.symm
      · simp at h
    · simp only [Option.some.injEq, Prod.mk.injEq] at h
      exact h.1.symm

/-- On a variable-length index whose ids are rows of `m_keys`, `seekLowerBound_imp` returns. -/
theorem MockReadonlyIndexIterator.seekLowerBound_imp_var (owner : MockReadonlyIndex)
    (key : Bytes) (hf : owner.m_fixedLen = 0)
    (hoff : owner.m_keys.offsets.length = owner.m_ids.length + 1) :
    ∃ b, MockReadonlyIndexIterator.seekLowerBound_imp owner key
      = some (lower_bound_0 owner.m_ids owner.m_ids.length
          (fun id => decide (owner.m_schema.compareData (owner.rowKey id) key < 0)), b) := by
  have hfun : (fun x => VarLenKeyCompare.id_key
      { offsets := owner.m_keys.offsets, strpool := owner.m_keys.strpool,
        schema := owner.m_schema } x key)
      = (fun id => decide (owner.m_schema.compareData (owner.rowKey id) key < 0)) := by
    funext x
    simp [VarLenKeyCompare.id_key, MockReadonlyIndex.rowKey, hf]
  unfold MockReadonlyIndexIterator.seekLowerBound_imp
  simp only [hf, ne_eq, not_true_eq_false, if_false, hfun]
  by_cases hlt : lower_bound_0 owner.m_ids owner.m_ids.length
      (fun id => decide (owner.m_schema.compareData (owner.rowKey id) key < 0))
      < owner.m_ids.length
  · obtain ⟨k, hk⟩ := fstrvec.get?_isSome owner.m_keys
      (lower_bound_0 owner.m_ids owner.m_ids.length
        (fun id => decide (owner.m_schema.compareData (owner.rowKey id) key < 0)))
      (by rw [hoff]; omega)
    exact ⟨decide (key = k), by simp only [hlt, if_true, hk]⟩
  · exact ⟨false, by simp only [hlt, if_false]⟩

/-- Range scan on a built index: `compareData` is a total preorder on the keys of the rows and
is transitive towards the probe key `k`.  Whenever `seekLowerBound(k)` returns, from whatever
previous state, the iterator is at `lowerBound(k)`, the number of entries whose key compares
less than `k`; on a variable-length index it always returns; and from that position the calls
of `increment` yield the entries at the positions `lowerBound(k)`, ..., `rows-1` in order and
then `false`. -/
theorem readonly_index_seekLowerBound_range_scan (self : MockReadonlyIndex)
    (keys : SortableStrVec) (idx : MockReadonlyIndex) (hb : self.build keys = .ok idx)
    (hmax : MockReadonlyIndex.buildRows self.m_schema keys < SIZE_MAX)
    (hpre : idx.KeysPreordered (MockReadonlyIndex.buildRows self.m_schema keys))
    (key : Bytes)
    (hkey : ∀ x, x < MockReadonlyIndex.buildRows self.m_schema keys →
      ∀ y, y < MockReadonlyIndex.buildRows self.m_schema keys →
      idx.cmpRows x y ≤ 0 → idx.m_schema.compareData (idx.rowKey y) key < 0 →
      idx.m_schema.compareData (idx.rowKey x) key < 0)
    (it : MockReadonlyIndexIterator) :
    (∀ it1 b, MockReadonlyIndexIterator.seekLowerBound idx key it = some (it1, b) →
      it1.m_pos = idx.countLess key) ∧
    (self.m_schema.m_fixedLen = 0 →
      ∃ b, MockReadonlyIndexIterator.seekLowerBound idx key it
        = some ({ m_pos := idx.countLess key }, b)) ∧
    (∀ (wantKey : Bool) (n : Nat), (wantKey = true → idx.KeysReadable) →
      MockReadonlyIndexIterator.incrementN idx wantKey
          (idx.m_ids.length - idx.countLess key + n) { m_pos := idx.countLess key }
        = some ({ m_pos := idx.m_ids.length },
            (idx.m_ids.drop (idx.countLess key)).map (fun id => some (idx.entry wantKey id))
              ++ List.replicate n none)) := by
  obtain ⟨hfix, hlen, hidlt, hoff⟩ := MockReadonlyIndex.build_shape self keys idx hb
  obtain ⟨lt, hlt, hids⟩ := MockReadonlyIndex.build_less self keys idx hb
  have hsorted := MockReadonlyIndex.weakly_sorted_of_less idx _ lt _
    (fun x hx => initIds_lt_rows _ x hx) hlt hids hpre
  have hmono : ∀ p q, p ≤ q → q < idx.m_ids.length →
      decide (idx.m_schema.compareData (idx.rowKey (idx.m_ids.getD q 0)) key < 0) = true →
      decide (idx.m_schema.compareData (idx.rowKey (idx.m_ids.getD p 0)) key < 0) = true := by
    intro p q hpq hq hc
    rcases Nat.eq_or_lt_of_le hpq with rfl | hpq'
    · exact hc
    · have hp : p < idx.m_ids.length := by omega
      rw [List.getD_eq_getElem _ _ hq] at hc
      rw [List.getD_eq_getElem _ _ hp]
      have hpair := (List.pairwise_iff_getElem.1 hsorted) p q hp hq hpq'
      simp only [decide_eq_true_eq] at hc ⊢
      exact hkey _ (hidlt _ (List.getElem_mem hp)) _ (hidlt _ (List.getElem_mem hq)) hpair hc
  have hlb : lower_bound_0 idx.m_ids idx.m_ids.length
      (fun id => decide (idx.m_schema.compareData (idx.rowKey id) key < 0))
      = idx.countLess key :=
    lower_bound_0_eq_count idx.m_ids _ hmono
  have hL : idx.countLess key ≤ idx.m_ids.length := List.length_filter_le _ _
  refine ⟨?_, ?_, ?_⟩
  · intro it1 b h
    unfold MockReadonlyIndexIterator.seekLowerBound at h
    split at h
    · simp at h
    · rename_i lo b1 himp
      simp only [Option.some.injEq, Prod.mk.injEq] at h
      rw [← h.1, ← hlb]
      exact MockReadonlyIndexIterator.seekLowerBound_imp_lo idx key lo b1 himp
  · intro hvar
    obtain ⟨b, hb'⟩ := MockReadonlyIndexIterator.seekLowerBound_imp_var idx key
      (by rw [hfix, hvar]) (by rw [hoff hvar, hlen])
    rw [hlb] at hb'
    refine ⟨b, ?_⟩
    unfold MockReadonlyIndexIterator.seekLowerBound
    rw [hb']
  · intro wantKey n hk
    exact MockReadonlyIndexIterator.incrementN_from idx wantKey hk (by rw [hlen]; exact hmax) n
      (idx.m_ids.length - idx.countLess key) (idx.countLess key) (by omega)

theorem readonly_index_seekLowerBound_range_scan_sample :
    ∃ b, MockReadonlyIndexIterator.seekLowerBound sampleVarIndex [98]
        MockReadonlyIndexIterator.fresh
      = some ({ m_pos := sampleVarIndex.countLess [98] }, b) :=
  (readonly_index_seekLowerBound_range_scan (MockReadonlyIndex.new sampleVarSchema)
    sampleVarKeys sampleVarIndex rfl (by decide) (by decide) [98] (by decide)
    MockReadonlyIndexIterator.fresh).2.1 rfl

/-! ## `MockReadonlyStore::build` and `getValueAppend` -/

theorem push_back_foldl_offsets (recs : List Bytes) : ∀ v : SortableStrVec,
    (recs.foldl SortableStrVec.push_back v).m_index.map SEntry.offset
      = v.m_index.map SEntry.offset
        ++ (List.range recs.length).map
            (fun i => v.m_strpool.length + (recs.take i).flatten.length) := by
  induction recs with
  | nil => intro v; simp
  | cons r rs ih =>
    intro v
    rw [List.foldl_cons, ih]
    simp only [SortableStrVec.push_back, List.map_append, List.map_cons, List.map_nil,
      List.length_append, List.length_cons, List.range_succ_eq_map, List.map_map,
      List.append_assoc, List.singleton_append]
    congr 1
    simp only [List.take_zero, List.flatten_nil, List.length_nil, Nat.add_zero,
      List.cons.injEq, true_and]
    apply List.map_congr_left
    intro i _
    simp [Nat.add_assoc]

theorem ofRecords_offsets (recs : List Bytes) :
    (SortableStrVec.ofRecords recs).m_index.map SEntry.offset
      = (List.range recs.length).map (fun i => (recs.take i).flatten.length) := by
  unfold SortableStrVec.ofRecords
  rw [push_back_foldl_offsets]
  simp

theorem flatten_take_length_le (recs : List Bytes) (i : Nat) :
    (recs.take i).flatten.length ≤ recs.flatten.length := by
  conv_rhs => rw [← List.take_append_drop i recs]
  rw [List.flatten_append, List.length_append]
  omega

theorem fstr_flatten (recs : List Bytes) (i : Nat) (r : Bytes) (h : recs[i]? = some r) :
    fstr recs.flatten (recs.take i).flatten.length r.length = r := by
  have hi : i < recs.length := by
    by_contra hi
    rw [List.getElem?_eq_none (by omega)] at h
    simp at h
  have hr : recs[i] = r := by
    rw [List.getElem?_eq_getElem hi] at h
    exact Option.some.inj h
  have hsplit : recs.flatten = (recs.take i).flatten ++ (r ++ (recs.drop (i + 1)).flatten) := by
    conv_lhs => rw [← List.take_append_drop i recs, List.drop_eq_getElem_cons hi, hr]
    simp
  unfold fstr
  rw [hsplit, List.drop_left, List.take_left]

theorem flatten_take_succ_length (recs : List Bytes) (i : Nat) (r : Bytes)
    (h : recs[i]? = some r) :
    (recs.take (i + 1)).flatten.length = (recs.take i).flatten.length + r.length := by
  rw [List.take_succ, h]
  simp

theorem size_sub_of_le {a b : Nat} (hb : b ≤ a) (ha : a < 2 ^ 64) : size_sub a b = a - b := by
  unfold size_sub
  rw [Nat.mod_eq_of_lt ha, Nat.mod_eq_of_lt (show b < 2 ^ 64 by omega)]
  have h3 : a + 2 ^ 64 - b = (a - b) + 2 ^ 64 := by omega
  rw [h3, Nat.add_mod_right]
  exact Nat.mod_eq_of_lt (by omega)

/-- The packed offsets that `build` derives from records in append order: offset `j` is the
total length of the first `j` records. -/
theorem ofRecords_packed_offsets (recs : List Bytes) (hn : 1 ≤ recs.length)
    (hs : recs.flatten.length < UINT32_MAX) :
    ∃ w, reuseIndexAsOffsets (SortableStrVec.ofRecords recs) = .ok w ∧
      ∀ j, j ≤ recs.length →
        (w.take ((SortableStrVec.ofRecords recs).m_index.length + 1))[j]?
          = some (recs.take j).flatten.length := by
  have hlen := ofRecords_index_length recs
  obtain ⟨w, hw, htake⟩ := reuseIndexAsOffsets_ok (SortableStrVec.ofRecords recs)
    (by rw [hlen]; exact hn)
  refine ⟨w, hw, ?_⟩
  intro j hj
  have hu : ∀ k, u32 (recs.take k).flatten.length = (recs.take k).flatten.length := by
    intro k
    apply u32_of_lt
    have := flatten_take_length_le recs k
    unfold UINT32_MAX at hs
    omega
  have hmap : (SortableStrVec.ofRecords recs).m_index.map (fun e => u32 e.offset)
      = (List.range recs.length).map (fun i => (recs.take i).flatten.length) := by
    have h1 : (SortableStrVec.ofRecords recs).m_index.map (fun e => u32 e.offset)
        = ((SortableStrVec.ofRecords recs).m_index.map SEntry.offset).map u32 := by
      rw [List.map_map]; rfl
    rw [h1, ofRecords_offsets, List.map_map]
    apply List.map_congr_left
    intro i _
    exact hu i
  rw [htake, hmap]
  rcases Nat.eq_or_lt_of_le hj with rfl | hlt
  · rw [List.getElem?_append_right (by simp)]
    simp only [List.length_map, List.length_range, Nat.sub_self, List.getElem?_cons_zero]
    rw [SortableStrVec.str_size, ofRecords_strpool, List.take_length]
    have := hu recs.length
    rw [List.take_length] at this
    rw [this]
  · rw [List.getElem?_append_left (by simpa using hlt)]
    simp [List.getElem?_range hlt]

theorem flatten_length_of_fixed (recs : List Bytes) (len : Nat)
    (h : ∀ r ∈ recs, r.length = len) : recs.flatten.length = len * recs.length := by
  induction recs with
  | nil => simp
  | cons r rs ih =>
    rw [List.flatten_cons, List.length_append, h r (List.mem_cons_self _ _),
      ih (fun x hx => h x (List.mem_cons_of_mem _ hx)), List.length_cons]
    ring

/-- C10: the records of a sortable string vector are `recs`, in append order.  Under a
variable-length schema with at least one record and a pool below `UINT32_MAX` bytes, and under
a fixed-row-length schema all of whose records have that length, `MockReadonlyStore::build`
returns a store, and for every local id `i` of a record `getValueAppend(i, buf)` leaves `buf` as
a prefix and appends exactly the bytes of the `i`-th record. -/
theorem readonly_store_build_getValueAppend (self : MockReadonlyStore) (schema : Schema)
    (recs : List Bytes) (data : SortableStrVec)
    (hcase : (schema.m_fixedLen = 0 ∧ data = SortableStrVec.ofRecords recs ∧
        1 ≤ recs.length ∧ data.str_size < UINT32_MAX) ∨
      (schema.m_fixedLen ≠ 0 ∧ data.m_strpool = recs.flatten ∧
        ∀ r ∈ recs, r.length = schema.m_fixedLen)) :
    ∃ s, self.build schema data = .ok s ∧
      ∀ (i : Nat) (r buf : Bytes), recs[i]? = some r →
        s.getValueAppend i buf = some (buf ++ r) := by
  rcases hcase with ⟨hf, rfl, hn, hs⟩ | ⟨hf, hpool, hfix⟩
  · have hs' : recs.flatten.length < UINT32_MAX := by
      rw [SortableStrVec.str_size, ofRecords_strpool] at hs
      exact hs
    obtain ⟨w, hw, hoff⟩ := ofRecords_packed_offsets recs hn hs'
    have hge : ¬ (SortableStrVec.ofRecords recs).str_size ≥ UINT32_MAX := by omega
    refine ⟨{ m_fixedLen := 0
              m_rows :=
                { strpool := (SortableStrVec.ofRecords recs).m_strpool
                  offsets := w.take ((SortableStrVec.ofRecords recs).m_index.length + 1) } },
      ?_, ?_⟩
    · unfold MockReadonlyStore.build
      simp only [Schema.getFixedRowLen, hf, if_true, hge, if_false, hw]
    · intro i r buf hr
      have hi : i < recs.length := by
        by_contra hi
        rw [List.getElem?_eq_none (by omega)] at hr
        simp at hr
      unfold MockReadonlyStore.getValueAppend fstrvec.get?
      simp only [ne_eq, not_true_eq_false, if_false, hoff i (by omega), hoff (i + 1) (by omega)]
      have hle := flatten_take_length_le recs (i + 1)
      have hsucc := flatten_take_succ_length recs i r hr
      rw [size_sub_of_le (by omega) (by unfold UINT32_MAX at hs'; omega), hsucc,
        Nat.add_sub_cancel_left, ofRecords_strpool, fstr_flatten recs i r hr]
  · refine ⟨{ m_fixedLen := schema.m_fixedLen
              m_rows := { strpool := data.m_strpool, offsets := self.m_rows.offsets } }, ?_, ?_⟩
    · unfold MockReadonlyStore.build
      simp only [Schema.getFixedRowLen, hf, if_false]
    · intro i r buf hr
      have hi : i < recs.length := by
        by_contra hi
        rw [List.getElem?_eq_none (by omega)] at hr
        simp at hr
      have hrl : r.length = schema.m_fixedLen :=
        hfix r (List.getElem?_mem hr)
      have htl : (recs.take i).flatten.length = schema.m_fixedLen * i := by
        rw [flatten_length_of_fixed _ schema.m_fixedLen
          (fun x hx => hfix x (List.mem_of_mem_take hx)), List.length_take]
        congr 1
        omega
      have hlt : i < recs.flatten.length / schema.m_fixedLen := by
        rw [flatten_length_of_fixed recs _ hfix, Nat.mul_div_cancel_left _ (by omega)]
        exact hi
      unfold MockReadonlyStore.getValueAppend
      simp only [ne_eq, hf, not_false_eq_true, if_true, hpool, hlt]
      rw [← htl, ← hrl, fstr_flatten recs i r hr]

theorem readonly_store_build_getValueAppend_witness :
    ((sampleVarSchema.m_fixedLen = 0 ∧
        SortableStrVec.ofRecords sampleRecords = SortableStrVec.ofRecords sampleRecords ∧
        1 ≤ sampleRecords.length ∧
        (SortableStrVec.ofRecords sampleRecords).str_size < UINT32_MAX) ∨
      (sampleVarSchema.m_fixedLen ≠ 0 ∧
        (SortableStrVec.ofRecords sampleRecords).m_strpool = sampleRecords.flatten ∧
        ∀ r ∈ sampleRecords, r.length = sampleVarSchema.m_fixedLen)) ∧
    ∃ s, MockReadonlyStore.new.build sampleVarSchema (SortableStrVec.ofRecords sampleRecords)
        = .ok s ∧
      ∀ (i : Nat) (r buf : Bytes), sampleRecords[i]? = some r →
        s.getValueAppend i buf = some (buf ++ r) :=
  ⟨Or.inl ⟨rfl, rfl, by decide, by decide⟩,
    readonly_store_build_getValueAppend MockReadonlyStore.new sampleVarSchema sampleRecords
      (SortableStrVec.ofRecords sampleRecords) (Or.inl ⟨rfl, rfl, by decide, by decide⟩)⟩

/-! ## The keys of a built index are the keys that were appended -/

/-- On the index that `build` makes of variable-length keys in append order, the key of row `i`
as the comparators read it is the `i`-th appended key. -/
theorem MockReadonlyIndex.build_rowKey_var (self : MockReadonlyIndex) (recs : List Bytes)
    (idx : MockReadonlyIndex) (hb : self.build (SortableStrVec.ofRecords recs) = .ok idx)
    (hvar : self.m_schema.m_fixedLen = 0) (i : Nat) (r : Bytes) (hr : recs[i]? = some r) :
    idx.rowKey i = r := by
  have hi : i < recs.length := by
    by_contra hi
    rw [List.getElem?_eq_none (by omega)] at hr
    simp at hr
  rcases MockReadonlyIndex.build_cases self _ idx hb with ⟨hf, -⟩ | ⟨-, hs, w, hw, rfl⟩
  · exact absurd hvar hf
  · have hs' : recs.flatten.length < UINT32_MAX := by
      rw [SortableStrVec.str_size, ofRecords_strpool] at hs
      exact hs
    obtain ⟨w', hw', hoff⟩ := ofRecords_packed_offsets recs (by omega) hs'
    have hww : w = w' := by
      rw [hw] at hw'
      exact Except.ok.inj hw'
    subst hww
    have hle := flatten_take_length_le recs (i + 1)
    have hsucc := flatten_take_succ_length recs i r hr
    simp only [MockReadonlyIndex.rowKey, ne_eq, not_true_eq_false, if_false,
      List.getD_eq_getElem?_getD, hoff i (by omega), hoff (i + 1) (by omega), Option.getD_some]
    rw [size_sub_of_le (by omega) (by unfold UINT32_MAX at hs'; omega), hsucc,
      Nat.add_sub_cancel_left, ofRecords_strpool, fstr_flatten recs i r hr]

/-- On the index that `build` makes of fixed-length keys stored one after the other in the
pool, the key of row `i` as the comparators read it is the `i`-th key. -/
theorem MockReadonlyIndex.build_rowKey_fixed (self : MockReadonlyIndex) (recs : List Bytes)
    (keys : SortableStrVec) (idx : MockReadonlyIndex) (hb : self.build keys = .ok idx)
    (hfix : self.m_schema.m_fixedLen ≠ 0) (hpool : keys.m_strpool = recs.flatten)
    (hlen : ∀ r ∈ recs, r.length = self.m_schema.m_fixedLen)
    (i : Nat) (r : Bytes) (hr : recs[i]? = some r) :
    idx.rowKey i = r := by
  rcases MockReadonlyIndex.build_cases self _ idx hb with ⟨-, rfl⟩ | ⟨hf, -⟩
  · have hrl : r.length = self.m_schema.m_fixedLen := hlen r (List.getElem?_mem hr)
    have hi : i < recs.length := by
      by_contra hi
      rw [List.getElem?_eq_none (by omega)] at hr
      simp at hr
    have htl : (recs.take i).flatten.length = self.m_schema.m_fixedLen * i := by
      rw [flatten_length_of_fixed _ self.m_schema.m_fixedLen
        (fun x hx => hlen x (List.mem_of_mem_take hx)), List.length_take]
      congr 1
      omega
    simp only [MockReadonlyIndex.rowKey, ne_eq, hfix, not_false_eq_true, if_true, hpool]
    rw [← htl, ← hrl, fstr_flatten recs i r hr]
  · exact absurd hf hfix

/-! ## The size check of the bulk builds -/

theorem reuseIndexAsOffsets_error (data : SortableStrVec) (e : BuildError)
    (h : reuseIndexAsOffsets data = .error e) : e = .out_of_bounds := by
  unfold reuseIndexAsOffsets at h
  simp only at h
  cases hc : copyOffsets data.m_index.length 0 (indexWords data.m_index) with
  | none =>
    rw [hc] at h
    exact (Except.error.inj h).symm
  | some w =>
    rw [hc] at h
    simp only at h
    split at h
    · simp at h
    · exact (Except.error.inj h).symm

theorem MockReadonlyStore.store_build_length_error_iff (self : MockReadonlyStore) (schema : Schema)
    (data : SortableStrVec) :
    self.build schema data = .error .length_error ↔
      (schema.m_fixedLen = 0 ∧ UINT32_MAX ≤ data.str_size) := by
  unfold MockReadonlyStore.build
  simp only [Schema.getFixedRowLen]
  by_cases hf : schema.m_fixedLen = 0
  · by_cases hs : data.str_size ≥ UINT32_MAX
    · simp [hf, hs]
    · simp only [hf, if_true, hs, if_false, true_and]
      constructor
      · intro h
        cases hr : reuseIndexAsOffsets data with
        | error e =>
          rw [hr] at h
          have := reuseIndexAsOffsets_error data e hr
          subst this
          simp at h
        | ok w =>
          rw [hr] at h
          simp at h
      · intro h
        exact False.elim h
  · simp [hf]

theorem MockReadonlyIndex.index_build_length_error_iff (self : MockReadonlyIndex)
    (keys : SortableStrVec) :
    self.build keys = .error .length_error ↔
      (self.m_schema.m_fixedLen = 0 ∧ UINT32_MAX ≤ keys.str_size) := by
  unfold MockReadonlyIndex.build
  simp only [Schema.getFixedRowLen]
  by_cases hf : self.m_schema.m_fixedLen = 0
  · by_cases hs : keys.str_size ≥ UINT32_MAX
    · simp [hf, hs]
    · simp only [hf, ne_eq, not_true_eq_false, if_false, hs, true_and]
      constructor
      · intro h
        cases hr : reuseIndexAsOffsets keys with
        | error e =>
          rw [hr] at h
          have := reuseIndexAsOffsets_error keys e hr
          subst this
          simp at h
        | ok w =>
          rw [hr] at h
          simp at h
      · intro h
        exact False.elim h
  · simp [hf]

theorem maxPoolKeys_str_size : maxPoolKeys.str_size = 2 ^ 32 - 1 :=
  List.length_replicate _ _

theorem hugeFixedKeys_str_size : hugeFixedKeys.str_size = 2 ^ 32 + 1 :=
  List.length_replicate _ _

/-- C11, as amended: `MockReadonlyStore::build` and `MockReadonlyIndex::build` fail with
`length_error` if and only if the schema is variable-length (fixed row length `0`) and the pool
holds at least `UINT32_MAX = 2^32 - 1` bytes. -/
theorem build_length_error_iff_var_len_pool_ge_max (store : MockReadonlyStore)
    (index : MockReadonlyIndex) (schema : Schema) (data : SortableStrVec) :
    (store.build schema data = .error .length_error ↔
      (schema.m_fixedLen = 0 ∧ 2 ^ 32 - 1 ≤ data.str_size)) ∧
    (index.build data = .error .length_error ↔
      (index.m_schema.m_fixedLen = 0 ∧ 2 ^ 32 - 1 ≤ data.str_size)) :=
  ⟨MockReadonlyStore.store_build_length_error_iff store schema data,
    MockReadonlyIndex.index_build_length_error_iff index data⟩

/-- C11 as stated fails in both directions.  A pool of exactly `2^32 - 1` bytes, which does not
exceed `2^32 - 1`, is rejected with `length_error` by both builds under a variable-length
schema; and a pool of `2^32 + 1` bytes, which exceeds it, is accepted by both builds under a
fixed-length schema. -/
theorem build_length_error_counterexample :
    (¬ (2 ^ 32 - 1 < maxPoolKeys.str_size) ∧
      MockReadonlyStore.new.build constVarSchema maxPoolKeys = .error .length_error ∧
      (MockReadonlyIndex.new constVarSchema).build maxPoolKeys = .error .length_error) ∧
    (2 ^ 32 - 1 < hugeFixedKeys.str_size ∧
      (∃ s, MockReadonlyStore.new.build constFixedSchema hugeFixedKeys = .ok s) ∧
      (∃ x, (MockReadonlyIndex.new constFixedSchema).build hugeFixedKeys = .ok x)) := by
  refine ⟨⟨?_, ?_, ?_⟩, ?_, ?_, ?_⟩
  · rw [maxPoolKeys_str_size]; omega
  · rw [MockReadonlyStore.store_build_length_error_iff]
    exact ⟨rfl, by rw [maxPoolKeys_str_size]; rfl⟩
  · rw [MockReadonlyIndex.index_build_length_error_iff]
    exact ⟨rfl, by rw [maxPoolKeys_str_size]; rfl⟩
  · rw [hugeFixedKeys_str_size]; omega
  · exact ⟨_, rfl⟩
  · exact MockReadonlyIndex.build_fixed _ _ (by decide)

/-! ## The file format: writing and reading back -/

theorem le_bytes_length (n x : Nat) : (le_bytes n x).length = n := by
  induction n generalizing x with
  | zero => rfl
  | succ n ih => simp [le_bytes, ih]

theorem le_value_le_bytes (n x : Nat) : le_value (le_bytes n x) = x % 256 ^ n := by
  induction n generalizing x with
  | zero => simp [le_bytes, le_value, Nat.mod_one]
  | succ n ih =>
    simp only [le_bytes, le_value, ih, Nat.mod_mod]
    rw [pow_succ, Nat.mul_comm (256 ^ n) 256, Nat.mod_mul]

theorem ensureRead_append (a rest : Bytes) :
    ensureRead a.length (a ++ rest) = some (a, rest) := by
  simp [ensureRead]

theorem read_u64_append (x : Nat) (rest : Bytes) :
    read_u64 (le_bytes 8 x ++ rest) = some (x % 2 ^ 64, rest) := by
  have h := ensureRead_append (le_bytes 8 x) rest
  rw [le_bytes_length] at h
  unfold read_u64
  rw [h]
  simp only [le_value_le_bytes]
  norm_num

theorem u32_array_bytes_length (l : List Nat) : (u32_array_bytes l).length = 4 * l.length := by
  induction l with
  | nil => rfl
  | cons x xs ih => simp [u32_array_bytes, le_bytes_length, ih]; omega

theorem u32_array_of_bytes_bytes (l : List Nat) (h : ∀ x ∈ l, x < 2 ^ 32) :
    u32_array_of_bytes l.length (u32_array_bytes l) = l := by
  induction l with
  | nil => rfl
  | cons x xs ih =>
    have hx : x < 2 ^ 32 := h x (List.mem_cons_self _ _)
    have h4 : (le_bytes 4 x).length = 4 := le_bytes_length 4 x
    simp only [List.length_cons, u32_array_of_bytes, u32_array_bytes]
    rw [List.take_left' h4, List.drop_left' h4, le_value_le_bytes,
      ih (fun y hy => h y (List.mem_cons_of_mem _ hy))]
    congr 1
    exact Nat.mod_eq_of_lt (by norm_num; exact hx)

theorem ensureRead_u32_array (l : List Nat) (rest : Bytes) :
    ensureRead (4 * l.length) (u32_array_bytes l ++ rest) = some (u32_array_bytes l, rest) := by
  have h := ensureRead_append (u32_array_bytes l) rest
  rw [u32_array_bytes_length] at h
  exact h

/-- Reading back what `MockReadonlyStore::save` wrote: for a state whose sizes are `size_t`
values, whose offsets (variable-length case) are `uint32_t` values with the end offset present,
and whose offset array (fixed-length case) is the one of the object loaded into. -/
theorem MockReadonlyStore.store_load_save (other s : MockReadonlyStore)
    (hfl : s.m_fixedLen < 2 ^ 64) (hpool : s.m_rows.strpool.length < 2 ^ 64)
    (hvar : s.m_fixedLen = 0 → 1 ≤ s.m_rows.offsets.length ∧
      s.m_rows.offsets.length < 2 ^ 64 ∧ ∀ x ∈ s.m_rows.offsets, x < 2 ^ 32)
    (hfix : s.m_fixedLen ≠ 0 → other.m_rows.offsets = s.m_rows.offsets) :
    other.load s.save = some s := by
  obtain ⟨fl, ⟨pool, offs⟩⟩ := s
  simp only at hfl hpool hvar hfix
  by_cases hf : fl = 0
  · subst hf
    obtain ⟨h1, h2, h3⟩ := hvar rfl
    have hn : (offs.length - 1 + 1) % 2 ^ 64 = offs.length := by
      rw [Nat.sub_add_cancel h1]
      exact Nat.mod_eq_of_lt h2
    have hrows : (offs.length - 1) % 2 ^ 64 = offs.length - 1 := Nat.mod_eq_of_lt (by omega)
    simp only [MockReadonlyStore.save, MockReadonlyStore.load, fstrvec.size, ne_eq,
      not_true_eq_false, if_false, if_true, List.nil_append, List.append_assoc,
      read_u64_append, Nat.zero_mod, hrows, hn, ensureRead_u32_array, ensureRead_append,
      Nat.mod_eq_of_lt hpool]
    have hp := ensureRead_append pool []
    rw [List.append_nil] at hp
    rw [hp, u32_array_of_bytes_bytes offs h3]
  · have hoff := hfix hf
    simp only [MockReadonlyStore.save, MockReadonlyStore.load, ne_eq, hf,
      not_false_eq_true, if_true, if_false, List.nil_append, List.append_assoc,
      read_u64_append, Nat.mod_eq_of_lt hfl, Nat.mod_eq_of_lt hpool]
    have hp := ensureRead_append pool []
    rw [List.append_nil] at hp
    rw [hp, hoff]

/-- Reading back what `MockReadonlyIndex::save` wrote: for a state whose sizes are `size_t`
values, whose ids and offsets are `uint32_t` values, with one more offset than ids in the
variable-length case, and whose offset array (fixed-length case) is the one of the object
loaded into. -/
theorem MockReadonlyIndex.index_load_save (other x : MockReadonlyIndex)
    (hfl : x.m_fixedLen < 2 ^ 64) (hpool : x.m_keys.strpool.length < 2 ^ 64)
    (hrows : x.m_ids.length < 2 ^ 64) (hids : ∀ i ∈ x.m_ids, i < 2 ^ 32)
    (hvar : x.m_fixedLen = 0 → x.m_keys.offsets.length = x.m_ids.length + 1 ∧
      x.m_keys.offsets.length < 2 ^ 64 ∧ ∀ o ∈ x.m_keys.offsets, o < 2 ^ 32)
    (hfix : x.m_fixedLen ≠ 0 → other.m_keys.offsets = x.m_keys.offsets)
    (hschema : other.m_schema = x.m_schema) :
    other.load x.save = some x := by
  obtain ⟨⟨pool, offs⟩, ids, fl, sch⟩ := x
  obtain ⟨okeys, oids, ofl, osch⟩ := other
  simp only at hfl hpool hrows hids hvar hfix hschema
  subst hschema
  have hr : ids.length % 2 ^ 64 = ids.length := Nat.mod_eq_of_lt (by omega)
  have hp := ensureRead_append pool []
  rw [List.append_nil] at hp
  by_cases hf : fl = 0
  · subst hf
    obtain ⟨h1, h3, h2⟩ := hvar rfl
    have hn : (ids.length + 1) % 2 ^ 64 = offs.length := by
      rw [← h1]
      exact Nat.mod_eq_of_lt h3
    simp only [MockReadonlyIndex.save, MockReadonlyIndex.load, ne_eq,
      not_true_eq_false, if_false, if_true, List.nil_append, List.append_assoc,
      read_u64_append, Nat.zero_mod, hr, hn, ensureRead_u32_array, ensureRead_append,
      Nat.mod_eq_of_lt hpool]
    rw [hp, u32_array_of_bytes_bytes offs h2, u32_array_of_bytes_bytes ids hids]
  · have hoff := hfix hf
    simp only at hoff
    simp only [MockReadonlyIndex.save, MockReadonlyIndex.load, ne_eq, hf,
      not_false_eq_true, if_true, if_false, List.nil_append, List.append_assoc,
      read_u64_append, Nat.mod_eq_of_lt hfl, Nat.mod_eq_of_lt hpool, hr,
      ensureRead_u32_array]
    rw [hp, hoff, u32_array_of_bytes_bytes ids hids]

theorem reuseIndexAsOffsets_take (data : SortableStrVec) (w : List Nat)
    (h : reuseIndexAsOffsets data = .ok w) :
    1 ≤ data.m_index.length ∧
    w.take (data.m_index.length + 1) =
      data.m_index.map (fun e => u32 e.offset) ++ [u32 data.str_size] := by
  have hrows : 1 ≤ data.m_index.length := by
    by_contra hc
    have h0 : data.m_index = [] := List.length_eq_zero.1 (by omega)
    rw [reuseIndexAsOffsets_empty data h0] at h
    simp at h
  obtain ⟨w', hw', htake⟩ := reuseIndexAsOffsets_ok data hrows
  have hww : w = w' := by
    rw [h] at hw'
    exact Except.ok.inj hw'
  subst hww
  exact ⟨hrows, htake⟩

theorem MockReadonlyStore.store_build_cases (self : MockReadonlyStore) (schema : Schema)
    (data : SortableStrVec) (s : MockReadonlyStore) (hb : self.build schema data = .ok s) :
    (schema.m_fixedLen ≠ 0 ∧
      s = { m_fixedLen := schema.m_fixedLen
            m_rows := { strpool := data.m_strpool, offsets := self.m_rows.offsets } }) ∨
    (schema.m_fixedLen = 0 ∧ data.str_size < UINT32_MAX ∧ 1 ≤ data.m_index.length ∧
      s = { m_fixedLen := 0
            m_rows := { strpool := data.m_strpool
                        offsets := data.m_index.map (fun e => u32 e.offset)
                          ++ [u32 data.str_size] } }) := by
  unfold MockReadonlyStore.build at hb
  simp only [Schema.getFixedRowLen] at hb
  by_cases hf : schema.m_fixedLen = 0
  · right
    simp only [hf, if_true] at hb
    by_cases hs : data.str_size ≥ UINT32_MAX
    · simp [hs] at hb
    · simp only [hs, if_false] at hb
      cases hr : reuseIndexAsOffsets data with
      | error e => simp [hr] at hb
      | ok w =>
        simp only [hr] at hb
        obtain ⟨h1, h2⟩ := reuseIndexAsOffsets_take data w hr
        rw [h2] at hb
        exact ⟨hf, by omega, h1, (Except.ok.inj hb).symm⟩
  · left
    simp only [hf, if_false] at hb
    exact ⟨hf, (Except.ok.inj hb).symm⟩

theorem u32_offsets_lt (data : SortableStrVec) :
    ∀ o ∈ data.m_index.map (fun e => u32 e.offset) ++ [u32 data.str_size], o < 2 ^ 32 := by
  intro o ho
  rcases List.mem_append.1 ho with h | h
  · obtain ⟨e, -, rfl⟩ := List.mem_map.1 h
    exact u32_lt _
  · rw [List.mem_singleton] at h
    rw [h]
    exact u32_lt _

/-- C12: a file is the sequence of its bytes.  For every store that
`MockReadonlyStore::build` makes on a freshly constructed object, and every index that
`MockReadonlyIndex::build` makes on a freshly constructed object, with sizes that are `size_t`
values, `load` into a freshly constructed object (for the index: constructed with the same
schema) of the bytes that `save` wrote returns, and gives the same in-memory state:
`m_fixedLen`, the offsets, the pool and, for the index, `m_ids`. -/
theorem readonly_save_load_roundtrip (schema : Schema) (data : SortableStrVec)
    (hfl : schema.m_fixedLen < 2 ^ 64) (hpool : data.str_size < 2 ^ 64)
    (hrows : data.m_index.length + 1 < 2 ^ 64) :
    (∀ s, MockReadonlyStore.new.build schema data = .ok s →
      MockReadonlyStore.new.load s.save = some s) ∧
    (∀ x, (MockReadonlyIndex.new schema).build data = .ok x →
      (MockReadonlyIndex.new schema).load x.save = some x) := by
  constructor
  · intro s hb
    rcases MockReadonlyStore.store_build_cases _ schema data s hb with ⟨hf, rfl⟩ | ⟨hf, -, h1, rfl⟩
    · exact MockReadonlyStore.store_load_save _ _ hfl hpool (fun h => absurd h hf) (fun _ => rfl)
    · refine MockReadonlyStore.store_load_save _ _ (by norm_num) hpool ?_ (fun h => absurd rfl h)
      intro _
      refine ⟨by simp, ?_, u32_offsets_lt data⟩
      simp only [List.length_append, List.length_map, List.length_singleton]
      exact hrows
  · intro x hb
    obtain ⟨hfx, hlen, hlt, hoff⟩ := MockReadonlyIndex.build_shape _ data x hb
    obtain ⟨lt, hids⟩ := MockReadonlyIndex.build_ids _ data x hb
    have hsch : (MockReadonlyIndex.new schema).m_schema = schema := rfl
    rw [hsch] at hfx hlen hlt hoff hids
    have hidlt : ∀ i ∈ x.m_ids, i < 2 ^ 32 := by
      intro i hi
      rw [hids, mem_std_sort] at hi
      exact initIds_lt _ _ hi
    have hrl : x.m_ids.length < 2 ^ 64 := by
      rw [hlen]
      unfold MockReadonlyIndex.buildRows Schema.getFixedRowLen
      split
      · have := Nat.div_le_self data.str_size schema.m_fixedLen
        omega
      · omega
    rcases MockReadonlyIndex.build_cases _ data x hb with ⟨hf, hx⟩ | ⟨hf, -, w, hw, hx⟩
    · refine MockReadonlyIndex.index_load_save _ x (by rw [hfx]; exact hfl) ?_ hrl hidlt
        (fun h => absurd (hfx ▸ h) hf) ?_ ?_
      · rw [hx]; exact hpool
      · intro _; rw [hx]
      · rw [hx]
    · obtain ⟨-, htake⟩ := reuseIndexAsOffsets_take data w hw
      refine MockReadonlyIndex.index_load_save _ x (by rw [hfx]; exact hfl) ?_ hrl hidlt ?_
        (fun h => absurd (hfx.trans hf) h) ?_
      · rw [hx]; exact hpool
      · intro _
        have hbr : MockReadonlyIndex.buildRows schema data = data.m_index.length := by
          have hf0 : schema.m_fixedLen = 0 := hf
          simp [MockReadonlyIndex.buildRows, Schema.getFixedRowLen, hf0]
        refine ⟨?_, ?_, ?_⟩
        · rw [hoff hf, hlen]
        · rw [hoff hf, hbr]
          exact hrows
        · rw [hx]
          show ∀ o ∈ w.take (data.m_index.length + 1), o < 2 ^ 32
          rw [htake]
          exact u32_offsets_lt data
      · rw [hx]

theorem readonly_save_load_roundtrip_witness :
    sampleVarSchema.m_fixedLen < 2 ^ 64 ∧ sampleVarKeys.str_size < 2 ^ 64 ∧
    sampleVarKeys.m_index.length + 1 < 2 ^ 64 ∧
    MockReadonlyStore.new.build sampleVarSchema sampleVarKeys = .ok sampleVarStore ∧
    MockReadonlyStore.new.load sampleVarStore.save = some sampleVarStore ∧
    (MockReadonlyIndex.new sampleVarSchema).build sampleVarKeys = .ok sampleVarIndex ∧
    (MockReadonlyIndex.new sampleVarSchema).load sampleVarIndex.save = some sampleVarIndex :=
  ⟨by decide, by decide, by decide, rfl,
    (readonly_save_load_roundtrip sampleVarSchema sampleVarKeys (by decide) (by decide)
      (by decide)).1 sampleVarStore rfl,
    rfl,
    (readonly_save_load_roundtrip sampleVarSchema sampleVarKeys (by decide) (by decide)
      (by decide)).2 sampleVarIndex rfl⟩

/-! ## The layout of the files -/

/-- C13: the bytes that `MockReadonlyStore::save` writes, for every store whose packed vector
holds its end offset (as every packed vector does): the three `u64` values `fixedLen`,
`rowCount` and `poolSize`, then the `u32` offsets, of which there are `rowCount + 1`, if and
only if `fixedLen == 0`, then the pool; the file is
`24 + (fixedLen == 0 ? 4 * (rowCount + 1) : 0) + poolSize` bytes long, and `rowCount` is the
number of rows of the store, `poolSize / fixedLen` in the fixed-length case. -/
theorem readonly_store_save_layout (s : MockReadonlyStore)
    (hoff : s.m_fixedLen = 0 → 1 ≤ s.m_rows.offsets.length) :
    s.save = le_bytes 8 s.m_fixedLen ++ le_bytes 8 s.rowCount
        ++ le_bytes 8 s.m_rows.strpool.length
        ++ (if s.m_fixedLen = 0 then u32_array_bytes s.m_rows.offsets else [])
        ++ s.m_rows.strpool ∧
    (s.m_fixedLen = 0 → s.m_rows.offsets.length = s.rowCount + 1) ∧
    s.save.length
      = 24 + (if s.m_fixedLen = 0 then 4 * (s.rowCount + 1) else 0) + s.m_rows.strpool.length ∧
    (s.m_fixedLen = 0 → s.rowCount = s.numDataRows) ∧
    (s.m_fixedLen ≠ 0 → s.rowCount = s.m_rows.strpool.length / s.m_fixedLen) := by
  by_cases hf : s.m_fixedLen = 0
  · have h1 := hoff hf
    have hrc : s.rowCount = s.m_rows.offsets.length - 1 := by
      simp [MockReadonlyStore.rowCount, MockReadonlyStore.numDataRows, fstrvec.size, hf]
    refine ⟨?_, fun _ => by rw [hrc]; omega, ?_, fun _ => by
      simp [MockReadonlyStore.rowCount, hf], fun h => absurd hf h⟩
    · simp [MockReadonlyStore.save, MockReadonlyStore.rowCount,
        MockReadonlyStore.numDataRows, hf]
    · simp only [MockReadonlyStore.save, hf, ne_eq, not_true_eq_false, if_false, if_true,
        List.nil_append, List.length_append, le_bytes_length, u32_array_bytes_length, hrc]
      omega
  · refine ⟨?_, fun h => absurd h hf, ?_, fun h => absurd h hf, fun _ => by
      simp [MockReadonlyStore.rowCount, hf]⟩
    · simp [MockReadonlyStore.save, MockReadonlyStore.rowCount, hf]
    · simp only [MockReadonlyStore.save, hf, ne_eq, not_false_eq_true, if_false, if_true,
        List.nil_append, List.length_append, le_bytes_length]

theorem readonly_store_save_layout_witness :
    (sampleVarStore.m_fixedLen = 0 → 1 ≤ sampleVarStore.m_rows.offsets.length) ∧
    sampleVarStore.save.length
      = 24 + (if sampleVarStore.m_fixedLen = 0 then 4 * (sampleVarStore.rowCount + 1) else 0)
        + sampleVarStore.m_rows.strpool.length ∧
    sampleVarStore.save
      = [0, 0, 0, 0, 0, 0, 0, 0, 4, 0, 0, 0, 0, 0, 0, 0, 4, 0, 0, 0, 0, 0, 0, 0,
         0, 0, 0, 0, 1, 0, 0, 0, 2, 0, 0, 0, 3, 0, 0, 0, 4, 0, 0, 0, 98, 97, 99, 97] ∧
    (sampleFixedStore.m_fixedLen = 0 → 1 ≤ sampleFixedStore.m_rows.offsets.length) ∧
    sampleFixedStore.save
      = le_bytes 8 sampleFixedStore.m_fixedLen ++ le_bytes 8 sampleFixedStore.rowCount
        ++ le_bytes 8 sampleFixedStore.m_rows.strpool.length
        ++ (if sampleFixedStore.m_fixedLen = 0 then
              u32_array_bytes sampleFixedStore.m_rows.offsets else [])
        ++ sampleFixedStore.m_rows.strpool :=
  ⟨by decide,
    (readonly_store_save_layout sampleVarStore (by decide)).2.2.1,
    by decide,
    by decide,
    (readonly_store_save_layout sampleFixedStore (by decide)).1⟩

/-- C14: the bytes that `MockReadonlyIndex::save` writes, for every index with one more offset
than ids in the variable-length case (what `save` asserts as `m_keys.size() == rows`): the
three `u64` values `fixedLen`, `rowCount = m_ids.size()` and `poolSize`, then the `rowCount`
`u32` ids, then the `u32` offsets, of which there are `rowCount + 1`, if and only if
`fixedLen == 0`, then the pool.  The ids are the bytes `[24, 24 + 4 * rowCount)` of the file, in
front of the offsets and the pool. -/
theorem readonly_index_save_layout (x : MockReadonlyIndex)
    (hinv : x.m_fixedLen = 0 → x.m_keys.offsets.length = x.m_ids.length + 1) :
    x.save = le_bytes 8 x.m_fixedLen ++ le_bytes 8 x.m_ids.length
        ++ le_bytes 8 x.m_keys.strpool.length
        ++ u32_array_bytes x.m_ids
        ++ (if x.m_fixedLen = 0 then u32_array_bytes x.m_keys.offsets else [])
        ++ x.m_keys.strpool ∧
    (x.save.drop 24).take (4 * x.m_ids.length) = u32_array_bytes x.m_ids ∧
    (x.save.drop (24 + 4 * x.m_ids.length)
      = (if x.m_fixedLen = 0 then u32_array_bytes x.m_keys.offsets else [])
        ++ x.m_keys.strpool) ∧
    x.save.length
      = 24 + 4 * x.m_ids.length + (if x.m_fixedLen = 0 then 4 * (x.m_ids.length + 1) else 0)
        + x.m_keys.strpool.length := by
  have hsave : x.save = (le_bytes 8 x.m_fixedLen ++ le_bytes 8 x.m_ids.length
        ++ le_bytes 8 x.m_keys.strpool.length)
        ++ (u32_array_bytes x.m_ids
        ++ ((if x.m_fixedLen = 0 then u32_array_bytes x.m_keys.offsets else [])
        ++ x.m_keys.strpool)) := by
    by_cases hf : x.m_fixedLen = 0 <;> simp [MockReadonlyIndex.save, hf]
  have h24 : (le_bytes 8 x.m_fixedLen ++ le_bytes 8 x.m_ids.length
        ++ le_bytes 8 x.m_keys.strpool.length).length = 24 := by
    simp [le_bytes_length]
  have hids : (u32_array_bytes x.m_ids).length = 4 * x.m_ids.length :=
    u32_array_bytes_length _
  refine ⟨?_, ?_, ?_, ?_⟩
  · rw [hsave]; simp only [List.append_assoc]
  · rw [hsave, List.drop_left' h24, List.take_left' hids]
  · rw [hsave, ← List.drop_drop, List.drop_left' h24, List.drop_left' hids]
  · rw [hsave]
    simp only [List.length_append, h24, hids]
    by_cases hf : x.m_fixedLen = 0
    · simp only [hf, if_true, u32_array_bytes_length, hinv hf]
      omega
    · simp only [hf, if_false, List.length_nil]
      omega

theorem readonly_index_save_layout_witness :
    (sampleVarIndex.m_fixedLen = 0 →
      sampleVarIndex.m_keys.offsets.length = sampleVarIndex.m_ids.length + 1) ∧
    (sampleVarIndex.save.drop 24).take (4 * sampleVarIndex.m_ids.length)
      = u32_array_bytes sampleVarIndex.m_ids ∧
    sampleVarIndex.save
      = [0, 0, 0, 0, 0, 0, 0, 0, 4, 0, 0, 0, 0, 0, 0, 0, 4, 0, 0, 0, 0, 0, 0, 0,
         1, 0, 0, 0, 3, 0, 0, 0, 0, 0, 0, 0, 2, 0, 0, 0,
         0, 0, 0, 0, 1, 0, 0, 0, 2, 0, 0, 0, 3, 0, 0, 0, 4, 0, 0, 0, 98, 97, 99, 97] ∧
    (sampleFixedIndex.m_fixedLen = 0 →
      sampleFixedIndex.m_keys.offsets.length = sampleFixedIndex.m_ids.length + 1) ∧
    sampleFixedIndex.save.length
      = 24 + 4 * sampleFixedIndex.m_ids.length
        + (if sampleFixedIndex.m_fixedLen = 0 then 4 * (sampleFixedIndex.m_ids.length + 1)
           else 0)
        + sampleFixedIndex.m_keys.strpool.length :=
  ⟨by decide,
    (readonly_index_save_layout sampleVarIndex (by decide)).2.1,
    by decide,
    by decide,
    (readonly_index_save_layout sampleFixedIndex (by decide)).2.2.2⟩

/-! ## The asserted offsets of a variable-length store -/

/-- What holds of the offsets that `build` makes of records in append order: offset `j` is the
total length of the first `j` records, so the offsets never decrease and end at the pool size;
the assertions of the source, which ask for strictly increasing offsets, hold exactly when no
record is empty. -/
theorem MockReadonlyStore.build_offsetsAsserted_iff (self : MockReadonlyStore)
    (schema : Schema) (hvar : schema.m_fixedLen = 0) (recs : List Bytes) (s : MockReadonlyStore)
    (hb : self.build schema (SortableStrVec.ofRecords recs) = .ok s) :
    (∀ j, j ≤ recs.length → s.m_rows.offsets[j]? = some (recs.take j).flatten.length) ∧
    s.m_rows.offsets.getLast? = some s.m_rows.strpool.length ∧
    (s.offsetsAsserted = true ↔ ∀ r ∈ recs, r ≠ []) := by
  rcases MockReadonlyStore.store_build_cases _ _ _ s hb with ⟨hf, -⟩ | ⟨-, hs, hn, hx⟩
  · exact absurd hvar hf
  · rw [ofRecords_index_length] at hn
    have hs' : recs.flatten.length < UINT32_MAX := by
      rw [SortableStrVec.str_size, ofRecords_strpool] at hs
      exact hs
    obtain ⟨w, hw, hoff⟩ := ofRecords_packed_offsets recs hn hs'
    obtain ⟨-, htake⟩ := reuseIndexAsOffsets_take _ w hw
    have hso : s.m_rows.offsets
        = w.take ((SortableStrVec.ofRecords recs).m_index.length + 1) := by
      rw [hx, htake]
    have hpool : s.m_rows.strpool = recs.flatten := by
      rw [hx]
      exact ofRecords_strpool recs
    have hlen : s.m_rows.offsets.length = recs.length + 1 := by
      rw [hx]
      simp [ofRecords_index_length]
    have hget : ∀ j, j ≤ recs.length →
        s.m_rows.offsets[j]? = some (recs.take j).flatten.length := by
      intro j hj
      rw [hso]
      exact hoff j hj
    have hlast : s.m_rows.offsets.getLast? = some s.m_rows.strpool.length := by
      rw [List.getLast?_eq_getElem?, hlen, Nat.add_sub_cancel, hget _ (Nat.le_refl _),
        List.take_length, hpool]
    refine ⟨hget, hlast, ?_⟩
    unfold MockReadonlyStore.offsetsAsserted
    rw [Bool.and_eq_true, decide_eq_true_eq, List.all_eq_true]
    have hsize : s.m_rows.size = recs.length := by
      unfold fstrvec.size
      rw [hlen, Nat.add_sub_cancel]
    constructor
    · rintro ⟨-, hall⟩ r hr hr0
      obtain ⟨i, hi, hri⟩ := List.getElem_of_mem hr
      have h := hall i (by rw [hsize]; exact List.mem_range.2 hi)
      rw [decide_eq_true_eq, List.getD_eq_getElem?_getD, List.getD_eq_getElem?_getD,
        hget i (by omega), hget (i + 1) (by omega), Option.getD_some, Option.getD_some,
        flatten_take_succ_length recs i r (by rw [List.getElem?_eq_getElem hi, hri]), hr0] at h
      simp at h
    · intro hne
      refine ⟨hlast, ?_⟩
      intro i hi
      rw [hsize, List.mem_range] at hi
      have hr : recs[i] ≠ [] := hne _ (List.getElem_mem hi)
      have hpos : 0 < recs[i].length := List.length_pos.2 hr
      rw [decide_eq_true_eq, List.getD_eq_getElem?_getD, List.getD_eq_getElem?_getD,
        hget i (by omega), hget (i + 1) (by omega), Option.getD_some, Option.getD_some,
        flatten_take_succ_length recs i recs[i] (List.getElem?_eq_getElem hi)]
      omega

/-- C15 fails on the code: built from the records `[1]`, `[]`, `[2]` in append order under a
variable-length schema, the store has the offsets `0, 1, 1, 2`; `offsets[1] < offsets[2]` is
false, so the assertions of `build` and `save` fail on this store, and they fail again in
`load` on the store read back from the file that `save` writes. -/
theorem readonly_store_empty_record_breaks_offset_assert :
    MockReadonlyStore.new.build sampleVarSchema (SortableStrVec.ofRecords recordsWithEmpty)
      = .ok storeWithEmpty ∧
    storeWithEmpty.m_rows.offsets = [0, 1, 1, 2] ∧
    ¬ (storeWithEmpty.m_rows.offsets.getD 1 0 < storeWithEmpty.m_rows.offsets.getD 2 0) ∧
    storeWithEmpty.offsetsAsserted = false ∧
    (MockReadonlyStore.new.load storeWithEmpty.save).map MockReadonlyStore.offsetsAsserted
      = some false :=
  ⟨rfl, rfl, by decide, by decide, by decide⟩

/-! ## The writable store and the store part of the writable segment -/

theorem getElem?_append_singleton_lt (rows : List Bytes) (row : Bytes) (id : Nat)
    (h : id < rows.length) : (rows ++ [row])[id]? = rows[id]? :=
  List.getElem?_append_left h

theorem MockWritableStore.store_getValueAppend_eq (s : MockWritableStore) (id : Nat) (buf : Bytes) :
    s.getValueAppend id buf = (s.m_rows[id]?).map (fun row => buf ++ row) := by
  unfold MockWritableStore.getValueAppend
  split
  · rename_i h
    rw [List.getElem?_eq_getElem h]
    rfl
  · rename_i h
    rw [List.getElem?_eq_none (by omega)]
    rfl

theorem MockWritableSegment.segment_getValueAppend_eq (g : MockWritableSegment) (id : Nat)
    (buf : Bytes) :
    g.getValueAppend id buf = (g.m_rows[id]?).map (fun row => buf ++ row) := by
  unfold MockWritableSegment.getValueAppend
  split
  · rename_i h
    rw [List.getElem?_eq_getElem h]
    rfl
  · rename_i h
    rw [List.getElem?_eq_none (by omega)]
    rfl

/-- C16: for every state of a `MockWritableStore` and of a `MockWritableSegment` with `n` rows
and every byte string `row`, `append(row)` returns `n`; afterwards there are `n + 1` rows,
`getValueAppend(n)` appends exactly `row`, and `getValueAppend(id)` gives for every earlier id
in `[0, n)` what it gave before. -/
theorem writable_store_append_allocates_next_id (s : MockWritableStore)
    (g : MockWritableSegment) (row : Bytes) :
    ((s.append row).2 = s.numDataRows ∧
      (s.append row).1.numDataRows = s.numDataRows + 1 ∧
      (∀ buf, (s.append row).1.getValueAppend s.numDataRows buf = some (buf ++ row)) ∧
      (∀ id buf, id < s.numDataRows →
        (s.append row).1.getValueAppend id buf = s.getValueAppend id buf)) ∧
    ((g.append row).2 = g.numDataRows ∧
      (g.append row).1.numDataRows = g.numDataRows + 1 ∧
      (∀ buf, (g.append row).1.getValueAppend g.numDataRows buf = some (buf ++ row)) ∧
      (∀ id buf, id < g.numDataRows →
        (g.append row).1.getValueAppend id buf = g.getValueAppend id buf)) := by
  refine ⟨⟨rfl, ?_, ?_, ?_⟩, ⟨rfl, ?_, ?_, ?_⟩⟩
  · simp [MockWritableStore.append, MockWritableStore.numDataRows]
  · intro buf
    rw [MockWritableStore.store_getValueAppend_eq]
    simp [MockWritableStore.append, MockWritableStore.numDataRows]
  · intro id buf hid
    rw [MockWritableStore.store_getValueAppend_eq, MockWritableStore.store_getValueAppend_eq]
    show ((s.m_rows ++ [row])[id]?).map _ = _
    rw [getElem?_append_singleton_lt _ _ _ hid]
  · simp [MockWritableSegment.append, MockWritableSegment.numDataRows]
  · intro buf
    rw [MockWritableSegment.segment_getValueAppend_eq]
    simp [MockWritableSegment.append, MockWritableSegment.numDataRows]
  · intro id buf hid
    rw [MockWritableSegment.segment_getValueAppend_eq,
      MockWritableSegment.segment_getValueAppend_eq]
    show ((g.m_rows ++ [row])[id]?).map _ = _
    rw [getElem?_append_singleton_lt _ _ _ hid]

theorem MockWritableStore.store_step_rows (s t : MockWritableStore) (op : StoreOp) (r : Option Nat)
    (h : s.step op = some (t, r)) :
    s.numDataRows ≤ t.numDataRows ∧ (∀ i ∈ r.toList, s.numDataRows ≤ i) ∧
    t.m_dataSize = s.m_dataSize := by
  cases op with
  | append row =>
    simp only [MockWritableStore.step, Option.some.injEq, Prod.mk.injEq] at h
    obtain ⟨rfl, rfl⟩ := h
    simp [MockWritableStore.append, MockWritableStore.numDataRows]
  | replace id row =>
    simp only [MockWritableStore.step, MockWritableStore.replace, Option.map_eq_some',
      Prod.mk.injEq] at h
    obtain ⟨a, ha, rfl, rfl⟩ := h
    split at ha
    · cases ha
      simp [MockWritableStore.numDataRows]
    · cases ha
  | remove id =>
    simp only [MockWritableStore.step, MockWritableStore.remove, Option.map_eq_some',
      Prod.mk.injEq] at h
    obtain ⟨a, ha, rfl, rfl⟩ := h
    split at ha
    · cases ha
      simp [MockWritableStore.numDataRows]
    · cases ha

theorem MockWritableStore.store_run_rows (ops : List StoreOp) : ∀ (s t : MockWritableStore)
    (ids : List Nat), s.run ops = some (t, ids) →
    s.numDataRows ≤ t.numDataRows ∧ (∀ i ∈ ids, s.numDataRows ≤ i) ∧
    t.m_dataSize = s.m_dataSize := by
  induction ops with
  | nil =>
    intro s t ids h
    simp only [MockWritableStore.run, Option.some.injEq, Prod.mk.injEq] at h
    obtain ⟨rfl, rfl⟩ := h
    simp
  | cons op ops ih =>
    intro s t ids h
    simp only [MockWritableStore.run] at h
    cases hs : s.step op with
    | none => rw [hs] at h; cases h
    | some p =>
      obtain ⟨s1, r⟩ := p
      rw [hs] at h
      simp only at h
      cases hr : s1.run ops with
      | none => rw [hr] at h; cases h
      | some q =>
        obtain ⟨t1, ids1⟩ := q
        rw [hr] at h
        simp only [Option.some.injEq, Prod.mk.injEq] at h
        obtain ⟨rfl, rfl⟩ := h
        obtain ⟨h1, h2, h3⟩ := MockWritableStore.store_step_rows s s1 op r hs
        obtain ⟨h4, h5, h6⟩ := ih s1 t1 ids1 hr
        refine ⟨by omega, ?_, by rw [h6, h3]⟩
        intro i hi
        rcases List.mem_append.1 hi with hi | hi
        · exact h2 i hi
        · have := h5 i hi
          omega

theorem livePayload_append (rows : List Bytes) (row : Bytes) :
    livePayload (rows ++ [row]) = livePayload rows + row.length := by
  simp [livePayload]

theorem livePayload_set (rows : List Bytes) (row : Bytes) : ∀ (id : Nat) (h : id < rows.length),
    livePayload (rows.set id row) + rows[id].length = livePayload rows + row.length := by
  induction rows with
  | nil => intro id h; simp at h
  | cons r rs ih =>
    intro id h
    cases id with
    | zero =>
      simp only [List.set_cons_zero, livePayload, List.map_cons, List.sum_cons,
        List.getElem_cons_zero]
      omega
    | succ k =>
      have hk : k < rs.length := by simpa using h
      have := ih k hk
      simp only [List.set_cons_succ, livePayload, List.map_cons, List.sum_cons,
        List.getElem_cons_succ] at this ⊢
      omega

theorem MockWritableSegment.segment_step_rows (g t : MockWritableSegment) (op : StoreOp)
    (r : Option Nat) (h : g.step op = some (t, r)) :
    g.numDataRows ≤ t.numDataRows ∧ (∀ i ∈ r.toList, g.numDataRows ≤ i) ∧
    (g.m_dataSize = livePayload g.m_rows → t.m_dataSize = livePayload t.m_rows) := by
  cases op with
  | append row =>
    simp only [MockWritableSegment.step, Option.some.injEq, Prod.mk.injEq] at h
    obtain ⟨rfl, rfl⟩ := h
    refine ⟨by simp [MockWritableSegment.append, MockWritableSegment.numDataRows],
      by simp [MockWritableSegment.append, MockWritableSegment.numDataRows], ?_⟩
    intro hinv
    show g.m_dataSize + (row.length : Int) = livePayload (g.m_rows ++ [row])
    rw [livePayload_append, hinv]
    push_cast
    rfl
  | replace id row =>
    simp only [MockWritableSegment.step, MockWritableSegment.replace, Option.map_eq_some',
      Prod.mk.injEq] at h
    obtain ⟨a, ha, rfl, rfl⟩ := h
    split at ha
    · rename_i hlt
      cases ha
      refine ⟨by simp [MockWritableSegment.numDataRows], by simp, ?_⟩
      intro hinv
      have := livePayload_set g.m_rows row id hlt
      show g.m_dataSize - (g.m_rows[id].length : Int) + (row.length : Int)
        = livePayload (g.m_rows.set id row)
      rw [hinv]
      omega
    · cases ha
  | remove id =>
    simp only [MockWritableSegment.step, MockWritableSegment.remove, Option.map_eq_some',
      Prod.mk.injEq] at h
    obtain ⟨a, ha, rfl, rfl⟩ := h
    split at ha
    · rename_i hlt
      cases ha
      refine ⟨by simp [MockWritableSegment.numDataRows], by simp, ?_⟩
      intro hinv
      have := livePayload_set g.m_rows [] id hlt
      show g.m_dataSize - (g.m_rows[id].length : Int) = livePayload (g.m_rows.set id [])
      rw [hinv]
      simp only [List.length_nil] at this
      omega
    · cases ha

theorem MockWritableSegment.segment_run_rows (ops : List StoreOp) : ∀ (g t : MockWritableSegment)
    (ids : List Nat), g.run ops = some (t, ids) →
    g.numDataRows ≤ t.numDataRows ∧ (∀ i ∈ ids, g.numDataRows ≤ i) ∧
    (g.m_dataSize = livePayload g.m_rows → t.m_dataSize = livePayload t.m_rows) := by
  induction ops with
  | nil =>
    intro g t ids h
    simp only [MockWritableSegment.run, Option.some.injEq, Prod.mk.injEq] at h
    obtain ⟨rfl, rfl⟩ := h
    simp
  | cons op ops ih =>
    intro g t ids h
    simp only [MockWritableSegment.run] at h
    cases hs : g.step op with
    | none => rw [hs] at h; cases h
    | some p =>
      obtain ⟨g1, r⟩ := p
      rw [hs] at h
      simp only at h
      cases hr : g1.run ops with
      | none => rw [hr] at h; cases h
      | some q =>
        obtain ⟨t1, ids1⟩ := q
        rw [hr] at h
        simp only [Option.some.injEq, Prod.mk.injEq] at h
        obtain ⟨rfl, rfl⟩ := h
        obtain ⟨h1, h2, h3⟩ := MockWritableSegment.segment_step_rows g g1 op r hs
        obtain ⟨h4, h5, h6⟩ := ih g1 t1 ids1 hr
        refine ⟨by omega, ?_, fun hinv => h6 (h3 hinv)⟩
        intro i hi
        rcases List.mem_append.1 hi with hi | hi
        · exact h2 i hi
        · have := h5 i hi
          omega

/-- C17: for every state of a `MockWritableStore` and of a `MockWritableSegment` and every id
in `[0, numDataRows())`, `remove(id)` returns and keeps the slot: the number of rows is
unchanged, `getValueAppend(id)` afterwards appends zero bytes, `getValueAppend` of every other
id gives what it gave before, and in every sequence of later `append`, `replace` and `remove`
calls no `append` returns `id`. -/
theorem writable_store_remove_reserves_slot (s : MockWritableStore) (g : MockWritableSegment)
    (id : Nat) (hs : id < s.numDataRows) (hg : id < g.numDataRows) :
    (∃ t, s.remove id = some t ∧ t.numDataRows = s.numDataRows ∧
      (∀ buf, t.getValueAppend id buf = some buf) ∧
      (∀ j buf, j ≠ id → t.getValueAppend j buf = s.getValueAppend j buf) ∧
      (∀ ops u ids, t.run ops = some (u, ids) → id ∉ ids)) ∧
    (∃ t, g.remove id = some t ∧ t.numDataRows = g.numDataRows ∧
      (∀ buf, t.getValueAppend id buf = some buf) ∧
      (∀ j buf, j ≠ id → t.getValueAppend j buf = g.getValueAppend j buf) ∧
      (∀ ops u ids, t.run ops = some (u, ids) → id ∉ ids)) := by
  constructor
  · have hs' : id < s.m_rows.length := hs
    refine ⟨{ s with m_rows := s.m_rows.set id [] }, ?_, ?_, ?_, ?_, ?_⟩
    · simp [MockWritableStore.remove, hs']
    · simp [MockWritableStore.numDataRows]
    · intro buf
      rw [MockWritableStore.store_getValueAppend_eq]
      simp [List.getElem?_set_self hs']
    · intro j buf hj
      rw [MockWritableStore.store_getValueAppend_eq, MockWritableStore.store_getValueAppend_eq]
      simp only
      rw [List.getElem?_set_ne (Ne.symm hj)]
    · intro ops u ids hrun hmem
      have h := (MockWritableStore.store_run_rows ops _ u ids hrun).2.1 id hmem
      simp only [MockWritableStore.numDataRows, List.length_set] at h
      omega
  · have hg' : id < g.m_rows.length := hg
    refine ⟨{ m_rows := g.m_rows.set id []
              m_dataSize := g.m_dataSize - g.m_rows[id].length }, ?_, ?_, ?_, ?_, ?_⟩
    · simp [MockWritableSegment.remove, hg']
    · simp [MockWritableSegment.numDataRows]
    · intro buf
      rw [MockWritableSegment.segment_getValueAppend_eq]
      simp [List.getElem?_set_self hg']
    · intro j buf hj
      rw [MockWritableSegment.segment_getValueAppend_eq,
        MockWritableSegment.segment_getValueAppend_eq]
      simp only
      rw [List.getElem?_set_ne (Ne.symm hj)]
    · intro ops u ids hrun hmem
      have h := (MockWritableSegment.segment_run_rows ops _ u ids hrun).2.1 id hmem
      simp only [MockWritableSegment.numDataRows, List.length_set] at h
      omega

theorem writable_store_remove_reserves_slot_witness :
    1 < sampleWritableStore.numDataRows ∧ 1 < sampleWritableSegment.numDataRows ∧
    (∃ t, sampleWritableStore.remove 1 = some t ∧
      t.numDataRows = sampleWritableStore.numDataRows ∧
      (∀ buf, t.getValueAppend 1 buf = some buf) ∧
      (∀ j buf, j ≠ 1 → t.getValueAppend j buf = sampleWritableStore.getValueAppend j buf) ∧
      (∀ ops u ids, t.run ops = some (u, ids) → 1 ∉ ids)) ∧
    (∃ t, sampleWritableSegment.remove 1 = some t ∧
      t.numDataRows = sampleWritableSegment.numDataRows ∧
      (∀ buf, t.getValueAppend 1 buf = some buf) ∧
      (∀ j buf, j ≠ 1 → t.getValueAppend j buf = sampleWritableSegment.getValueAppend j buf) ∧
      (∀ ops u ids, t.run ops = some (u, ids) → 1 ∉ ids)) :=
  ⟨by decide, by decide,
    writable_store_remove_reserves_slot sampleWritableStore sampleWritableSegment 1
      (by decide) (by decide)⟩

/-- C18: for every state of a `MockWritableStore` and of a `MockWritableSegment`, every id in
`[0, numDataRows())` and every byte string `row`, `replace(id, row)` returns; afterwards
`getValueAppend(id)` appends exactly `row`, the number of rows is unchanged and
`getValueAppend` of every other id gives what it gave before. -/
theorem writable_store_replace_overwrites (s : MockWritableStore) (g : MockWritableSegment)
    (id : Nat) (row : Bytes) (hs : id < s.numDataRows) (hg : id < g.numDataRows) :
    (∃ t, s.replace id row = some t ∧ t.numDataRows = s.numDataRows ∧
      (∀ buf, t.getValueAppend id buf = some (buf ++ row)) ∧
      (∀ j buf, j ≠ id → t.getValueAppend j buf = s.getValueAppend j buf)) ∧
    (∃ t, g.replace id row = some t ∧ t.numDataRows = g.numDataRows ∧
      (∀ buf, t.getValueAppend id buf = some (buf ++ row)) ∧
      (∀ j buf, j ≠ id → t.getValueAppend j buf = g.getValueAppend j buf)) := by
  constructor
  · have hs' : id < s.m_rows.length := hs
    refine ⟨{ s with m_rows := s.m_rows.set id row }, ?_, ?_, ?_, ?_⟩
    · simp [MockWritableStore.replace, hs']
    · simp [MockWritableStore.numDataRows]
    · intro buf
      rw [MockWritableStore.store_getValueAppend_eq]
      simp [List.getElem?_set_self hs']
    · intro j buf hj
      rw [MockWritableStore.store_getValueAppend_eq, MockWritableStore.store_getValueAppend_eq]
      simp only
      rw [List.getElem?_set_ne (Ne.symm hj)]
  · have hg' : id < g.m_rows.length := hg
    refine ⟨{ m_rows := g.m_rows.set id row
              m_dataSize := g.m_dataSize - g.m_rows[id].length + row.length }, ?_, ?_, ?_, ?_⟩
    · simp [MockWritableSegment.replace, hg']
    · simp [MockWritableSegment.numDataRows]
    · intro buf
      rw [MockWritableSegment.segment_getValueAppend_eq]
      simp [List.getElem?_set_self hg']
    · intro j buf hj
      rw [MockWritableSegment.segment_getValueAppend_eq,
        MockWritableSegment.segment_getValueAppend_eq]
      simp only
      rw [List.getElem?_set_ne (Ne.symm hj)]

theorem writable_store_replace_overwrites_witness :
    1 < sampleWritableStore.numDataRows ∧ 1 < sampleWritableSegment.numDataRows ∧
    (∃ t, sampleWritableStore.replace 1 [100, 101] = some t ∧
      t.numDataRows = sampleWritableStore.numDataRows ∧
      (∀ buf, t.getValueAppend 1 buf = some (buf ++ [100, 101])) ∧
      (∀ j buf, j ≠ 1 → t.getValueAppend j buf = sampleWritableStore.getValueAppend j buf)) ∧
    (∃ t, sampleWritableSegment.replace 1 [100, 101] = some t ∧
      t.numDataRows = sampleWritableSegment.numDataRows ∧
      (∀ buf, t.getValueAppend 1 buf = some (buf ++ [100, 101])) ∧
      (∀ j buf, j ≠ 1 → t.getValueAppend j buf
        = sampleWritableSegment.getValueAppend j buf)) :=
  ⟨by decide, by decide,
    writable_store_replace_overwrites sampleWritableStore sampleWritableSegment 1 [100, 101]
      (by decide) (by decide)⟩

/-! ## The iterator of the writable store -/

theorem MockWritableStoreIter.storeIter_incrementN_past_end (rows : List Bytes) (p : Nat)
    (hp : rows.length ≤ p) (n : Nat) :
    MockWritableStoreIter.incrementN rows n { m_id := p }
      = ({ m_id := p }, List.replicate n none) := by
  induction n with
  | zero => rfl
  | succ n ih =>
    have hnot : ¬ p < rows.length := by omega
    simp only [MockWritableStoreIter.incrementN, MockWritableStoreIter.increment, hnot,
      dif_neg, not_false_eq_true, ih, List.replicate_succ]

theorem MockWritableStoreIter.storeIter_incrementN_from (rows : List Bytes)
    (hmax : rows.length < 2 ^ 64) (n : Nat) : ∀ (k p : Nat), p + k = rows.length →
    MockWritableStoreIter.incrementN rows (k + n) { m_id := p }
      = ({ m_id := rows.length },
          ((rows.drop p).enumFrom p).map some ++ List.replicate n none) := by
  intro k
  induction k with
  | zero =>
    intro p hp
    have hpe : p = rows.length := by omega
    subst hpe
    rw [Nat.zero_add, MockWritableStoreIter.storeIter_incrementN_past_end rows _ (Nat.le_refl _),
      List.drop_length]
    rfl
  | succ k ih =>
    intro p hp
    have hlt : p < rows.length := by omega
    have hmod : (p + 1) % 2 ^ 64 = p + 1 := Nat.mod_eq_of_lt (by omega)
    have hstep : MockWritableStoreIter.increment rows { m_id := p }
        = ({ m_id := p + 1 }, some (p, rows[p])) := by
      simp only [MockWritableStoreIter.increment, hlt, dif_pos, hmod]
    have hk : k + 1 + n = (k + n) + 1 := by omega
    rw [hk]
    simp only [MockWritableStoreIter.incrementN, hstep, ih (p + 1) (by omega)]
    rw [List.drop_eq_getElem_cons hlt, List.enumFrom_cons, List.map_cons, List.cons_append]

theorem MockWritableStoreIter.storeIter_incrementN_fresh (rows : List Bytes)
    (hmax : rows.length < 2 ^ 64) (n : Nat) :
    MockWritableStoreIter.incrementN rows (rows.length + n) MockWritableStoreIter.fresh
      = ({ m_id := rows.length }, rows.enum.map some ++ List.replicate n none) := by
  have h := MockWritableStoreIter.storeIter_incrementN_from rows hmax n rows.length 0 (by omega)
  rw [List.drop_zero] at h
  exact h

theorem enum_set_nil_getElem? (rows : List Bytes) (id n : Nat) (h : id < rows.length) :
    (((rows.set id []).enum.map some) ++ List.replicate n none)[id]? = some (some (id, [])) := by
  rw [List.getElem?_append_left (by simpa using h), List.getElem?_map, List.getElem?_enum,
    List.getElem?_set_self h]
  rfl

/-- C19: for every `MockWritableStore` and every `MockWritableSegment` with `n` slots (a
`size_t` value), the `n + k` first `increment` calls of a fresh store iterator yield the pairs
`(0, rows[0])`, ..., `(n-1, rows[n-1])` in id order and then `k` times `false`; a slot that
`remove` cleared is among them, with empty content. -/
theorem writable_store_iter_visits_all_slots (s : MockWritableStore) (g : MockWritableSegment)
    (hs : s.numDataRows < 2 ^ 64) (hg : g.numDataRows < 2 ^ 64) (k : Nat) :
    MockWritableStoreIter.incrementN s.m_rows (s.numDataRows + k) MockWritableStoreIter.fresh
      = ({ m_id := s.numDataRows }, s.m_rows.enum.map some ++ List.replicate k none) ∧
    MockWritableStoreIter.incrementN g.m_rows (g.numDataRows + k) MockWritableStoreIter.fresh
      = ({ m_id := g.numDataRows }, g.m_rows.enum.map some ++ List.replicate k none) ∧
    (∀ id t, s.remove id = some t →
      (MockWritableStoreIter.incrementN t.m_rows (t.numDataRows + k)
        MockWritableStoreIter.fresh).2[id]? = some (some (id, []))) ∧
    (∀ id t, g.remove id = some t →
      (MockWritableStoreIter.incrementN t.m_rows (t.numDataRows + k)
        MockWritableStoreIter.fresh).2[id]? = some (some (id, []))) := by
  refine ⟨MockWritableStoreIter.storeIter_incrementN_fresh s.m_rows hs k,
    MockWritableStoreIter.storeIter_incrementN_fresh g.m_rows hg k, ?_, ?_⟩
  · intro id t ht
    unfold MockWritableStore.remove at ht
    split at ht
    · rename_i hlt
      cases ht
      show (MockWritableStoreIter.incrementN (s.m_rows.set id []) ((s.m_rows.set id []).length + k)
        MockWritableStoreIter.fresh).2[id]? = _
      rw [MockWritableStoreIter.storeIter_incrementN_fresh _ (by rw [List.length_set]; exact hs)]
      exact enum_set_nil_getElem? s.m_rows id k hlt
    · cases ht
  · intro id t ht
    unfold MockWritableSegment.remove at ht
    split at ht
    · rename_i hlt
      cases ht
      show (MockWritableStoreIter.incrementN (g.m_rows.set id []) ((g.m_rows.set id []).length + k)
        MockWritableStoreIter.fresh).2[id]? = _
      rw [MockWritableStoreIter.storeIter_incrementN_fresh _ (by rw [List.length_set]; exact hg)]
      exact enum_set_nil_getElem? g.m_rows id k hlt
    · cases ht

theorem writable_store_iter_visits_all_slots_witness :
    sampleWritableStore.numDataRows < 2 ^ 64 ∧ sampleWritableSegment.numDataRows < 2 ^ 64 ∧
    MockWritableStoreIter.incrementN sampleWritableStore.m_rows
        (sampleWritableStore.numDataRows + 2) MockWritableStoreIter.fresh
      = ({ m_id := 3 },
          [some (0, [97, 98]), some (1, []), some (2, [99]), none, none]) ∧
    MockWritableStoreIter.incrementN sampleWritableSegment.m_rows
        (sampleWritableSegment.numDataRows + 2) MockWritableStoreIter.fresh
      = ({ m_id := sampleWritableSegment.numDataRows },
          sampleWritableSegment.m_rows.enum.map some ++ List.replicate 2 none) :=
  ⟨by decide, by decide,
    (writable_store_iter_visits_all_slots sampleWritableStore sampleWritableSegment
      (by decide) (by decide) 2).1,
    (writable_store_iter_visits_all_slots sampleWritableStore sampleWritableSegment
      (by decide) (by decide) 2).2.1⟩

/-! ## The counter `m_dataSize` -/

/-- What holds in the sibling class: starting from the empty `MockWritableSegment` with
`m_dataSize = 0`, after every sequence of `append`, `replace` and `remove` calls `m_dataSize` is
the sum of the lengths of the rows that are stored. -/
theorem MockWritableSegment.segment_run_dataSize (ops : List StoreOp) (t : MockWritableSegment)
    (ids : List Nat) (h : MockWritableSegment.empty.run ops = some (t, ids)) :
    t.m_dataSize = livePayload t.m_rows :=
  (MockWritableSegment.segment_run_rows ops _ t ids h).2.2 rfl

/-- In `MockWritableStore` no call changes `m_dataSize`: starting from the empty store it is
`0` after every sequence of `append`, `replace` and `remove` calls. -/
theorem MockWritableStore.store_run_dataSize (ops : List StoreOp) (t : MockWritableStore)
    (ids : List Nat) (h : MockWritableStore.empty.run ops = some (t, ids)) :
    t.m_dataSize = 0 :=
  (MockWritableStore.store_run_rows ops _ t ids h).2.2

/-- C20 fails on the code: `append("abc")` on the empty `MockWritableStore` with
`m_dataSize = 0` leaves `m_dataSize` at `0`, while the stored rows hold `3` bytes; so
`dataStorageSize()` is the container bytes alone.  The same calls on the empty
`MockWritableSegment` give `m_dataSize = 3`. -/
theorem writable_store_dataSize_not_maintained :
    MockWritableStore.empty.run [StoreOp.append [97, 98, 99]]
      = some ({ m_rows := [[97, 98, 99]], m_dataSize := 0 }, [0]) ∧
    livePayload [[97, 98, 99]] = 3 ∧
    (∀ rowHeader, MockWritableStore.dataStorageSize rowHeader
      { m_rows := [[97, 98, 99]], m_dataSize := 0 } = (rowHeader * 1 : Nat)) ∧
    MockWritableSegment.empty.run [StoreOp.append [97, 98, 99]]
      = some ({ m_rows := [[97, 98, 99]], m_dataSize := 3 }, [0]) := by
  refine ⟨rfl, rfl, ?_, rfl⟩
  intro rowHeader
  simp [MockWritableStore.dataStorageSize]

/-! ## The ordered set of a writable index -/

theorem pair_less_iff {Key : Type} [LinearOrder Key] (a b : Key × Int) :
    pair_less a b = true ↔ a.1 < b.1 ∨ (a.1 = b.1 ∧ a.2 < b.2) := by
  unfold pair_less
  simp only [KeyOrder.less, Bool.or_eq_true, Bool.and_eq_true, Bool.not_eq_true',
    decide_eq_true_eq, decide_eq_false_iff_not, not_lt]
  constructor
  · rintro (h | ⟨h1, h2⟩)
    · exact Or.inl h
    · rcases lt_or_eq_of_le h1 with h | h
      · exact Or.inl h
      · exact Or.inr ⟨h, h2⟩
  · rintro (h | ⟨h1, h2⟩)
    · exact Or.inl h
    · exact Or.inr ⟨le_of_eq h1, h2⟩

theorem pair_less_irrefl {Key : Type} [LinearOrder Key] (a : Key × Int) :
    pair_less a a = false := by
  rw [Bool.eq_false_iff, ne_eq, pair_less_iff]
  rintro (h | ⟨-, h⟩)
  · exact lt_irrefl _ h
  · exact lt_irrefl _ h

theorem pair_less_trans {Key : Type} [LinearOrder Key] {a b c : Key × Int}
    (hab : pair_less a b = true) (hbc : pair_less b c = true) : pair_less a c = true := by
  rw [pair_less_iff] at hab hbc ⊢
  rcases hab with h1 | ⟨h1, h2⟩ <;> rcases hbc with h3 | ⟨h3, h4⟩
  · exact Or.inl (lt_trans h1 h3)
  · exact Or.inl (h3 ▸ h1)
  · exact Or.inl (h1 ▸ h3)
  · exact Or.inr ⟨h1.trans h3, lt_trans h2 h4⟩

theorem pair_less_asymm {Key : Type} [LinearOrder Key] {a b : Key × Int}
    (hab : pair_less a b = true) : pair_less b a = false := by
  rw [Bool.eq_false_iff]
  intro hba
  have := pair_less_trans hab hba
  rw [pair_less_irrefl] at this
  exact Bool.false_ne_true this

theorem pair_less_total {Key : Type} [LinearOrder Key] {a b : Key × Int}
    (hab : pair_less a b = false) (hba : pair_less b a = false) : a = b := by
  rw [Bool.eq_false_iff, ne_eq, pair_less_iff] at hab hba
  push_neg at hab hba
  have h1 : a.1 = b.1 := le_antisymm hba.1 hab.1
  have h2 : a.2 = b.2 := le_antisymm (hba.2 h1.symm) (hab.2 h1)
  exact Prod.ext h1 h2

theorem pair_less_ne {Key : Type} [LinearOrder Key] {a b : Key × Int}
    (hab : pair_less a b = true) : a ≠ b := by
  intro h
  rw [h, pair_less_irrefl] at hab
  exact Bool.false_ne_true hab

theorem pair_less_or_of_ne {Key : Type} [LinearOrder Key] {a b : Key × Int} (h : a ≠ b) :
    pair_less a b = true ∨ pair_less b a = true := by
  by_contra hc
  push_neg at hc
  exact h (pair_less_total (Bool.eq_false_iff.2 hc.1) (Bool.eq_false_iff.2 hc.2))

theorem SetOrdered.nodup {Key : Type} [LinearOrder Key] {l : List (Key × Int)}
    (h : SetOrdered l) : l.Nodup :=
  List.Pairwise.imp (fun hab => pair_less_ne hab) h

theorem set_insert_mem {Key : Type} [LinearOrder Key] (x : Key × Int) (l : List (Key × Int))
    (e : Key × Int) : e ∈ (set_insert x l).1 ↔ e = x ∨ e ∈ l := by
  induction l with
  | nil => simp [set_insert]
  | cons y ys ih =>
    unfold set_insert
    split
    · simp
    · rename_i hxy
      split
      · simp only [List.mem_cons, ih]
        tauto
      · rename_i hyx
        have hxe : x = y := pair_less_total (Bool.eq_false_iff.2 hxy) (Bool.eq_false_iff.2 hyx)
        subst hxe
        simp

theorem set_insert_ordered {Key : Type} [LinearOrder Key] (x : Key × Int)
    (l : List (Key × Int)) (hl : SetOrdered l) : SetOrdered (set_insert x l).1 := by
  induction l with
  | nil => simp [set_insert, SetOrdered]
  | cons y ys ih =>
    have hy := List.pairwise_cons.1 hl
    unfold set_insert
    split
    · rename_i hxy
      refine List.Pairwise.cons ?_ hl
      intro z hz
      rcases List.mem_cons.1 hz with rfl | hz
      · exact hxy
      · exact pair_less_trans hxy (hy.1 z hz)
    · split
      · rename_i hyx
        refine List.Pairwise.cons ?_ (ih hy.2)
        intro z hz
        rcases (set_insert_mem x ys z).1 hz with rfl | hz
        · exact hyx
        · exact hy.1 z hz
      · exact hl

theorem set_insert_flag {Key : Type} [LinearOrder Key] (x : Key × Int) (l : List (Key × Int))
    (hl : SetOrdered l) : (set_insert x l).2 = true ↔ x ∉ l := by
  induction l with
  | nil => simp [set_insert]
  | cons y ys ih =>
    have hy := List.pairwise_cons.1 hl
    unfold set_insert
    split
    · rename_i hxy
      simp only [true_iff, List.mem_cons, not_or]
      refine ⟨pair_less_ne hxy, ?_⟩
      intro hmem
      exact pair_less_ne (pair_less_trans hxy (hy.1 x hmem)) rfl
    · rename_i hxy
      split
      · rename_i hyx
        simp only [ih hy.2, List.mem_cons, not_or]
        exact ⟨fun h => ⟨(pair_less_ne hyx).symm, h⟩, fun h => h.2⟩
      · rename_i hyx
        have hxe : x = y := pair_less_total (Bool.eq_false_iff.2 hxy) (Bool.eq_false_iff.2 hyx)
        simp [hxe]

theorem set_insert_unchanged {Key : Type} [LinearOrder Key] (x : Key × Int)
    (l : List (Key × Int)) (h : (set_insert x l).2 = false) : (set_insert x l).1 = l := by
  induction l with
  | nil => simp [set_insert] at h
  | cons y ys ih =>
    unfold set_insert at h ⊢
    split
    · rename_i hxy
      simp [hxy] at h
    · rename_i hxy
      split
      · rename_i hyx
        simp only [hxy, hyx, if_true, if_false, Bool.false_eq_true] at h
        rw [ih h]
      · rfl

theorem set_insert_length {Key : Type} [LinearOrder Key] (x : Key × Int)
    (l : List (Key × Int)) :
    (set_insert x l).1.length = l.length + (if (set_insert x l).2 then 1 else 0) := by
  induction l with
  | nil => simp [set_insert]
  | cons y ys ih =>
    unfold set_insert
    split
    · simp
    · split
      · simp only [List.length_cons, ih]
        omega
      · simp

theorem set_erase_mem {Key : Type} [LinearOrder Key] (x : Key × Int) (l : List (Key × Int))
    (e : Key × Int) : e ∈ set_erase x l ↔ e ∈ l ∧ e ≠ x := by
  unfold set_erase
  rw [List.mem_filter, Bool.or_eq_true]
  constructor
  · rintro ⟨h1, h2 | h2⟩
    · exact ⟨h1, (pair_less_ne h2).symm⟩
    · exact ⟨h1, pair_less_ne h2⟩
  · rintro ⟨h1, h2⟩
    exact ⟨h1, pair_less_or_of_ne (Ne.symm h2)⟩

theorem set_erase_ordered {Key : Type} [LinearOrder Key] (x : Key × Int)
    (l : List (Key × Int)) (hl : SetOrdered l) : SetOrdered (set_erase x l) :=
  List.Pairwise.sublist (List.filter_sublist l) hl

theorem set_find_spec {Key : Type} [LinearOrder Key] (x : Key × Int) (l : List (Key × Int))
    (hl : l.Nodup) :
    (x ∈ l → ∃ pos, set_find x l = some pos ∧ l[pos]? = some x ∧
      (∀ e, e ∈ l.eraseIdx pos ↔ e ∈ l ∧ e ≠ x)) ∧
    (x ∉ l → set_find x l = none) := by
  induction l with
  | nil => simp [set_find]
  | cons y ys ih =>
    have hy := List.nodup_cons.1 hl
    obtain ⟨ih1, ih2⟩ := ih hy.2
    by_cases hxy : x = y
    · subst hxy
      have hp : (!pair_less x x && !pair_less x x) = true := by simp [pair_less_irrefl]
      refine ⟨fun _ => ⟨0, ?_, by simp, ?_⟩, fun h => absurd (List.mem_cons_self _ _) h⟩
      · simp [set_find, List.findIdx_cons, pair_less_irrefl]
      · intro e
        simp only [List.eraseIdx_cons_zero, List.mem_cons]
        constructor
        · intro he
          exact ⟨Or.inr he, fun h => hy.1 (h ▸ he)⟩
        · rintro ⟨h1 | h1, h2⟩
          · exact absurd h1 h2
          · exact h1
    · have hp : (!pair_less x y && !pair_less y x) = false := by
        rcases pair_less_or_of_ne hxy with h | h <;> simp [h]
      have hfind : set_find x (y :: ys) = (set_find x ys).map (· + 1) := by
        simp only [set_find, List.findIdx_cons, hp, cond_false, List.length_cons,
          Nat.add_lt_add_iff_right]
        split <;> rfl
      constructor
      · intro hmem
        have hmem' : x ∈ ys := by
          rcases List.mem_cons.1 hmem with h | h
          · exact absurd h hxy
          · exact h
        obtain ⟨pos, h1, h2, h3⟩ := ih1 hmem'
        refine ⟨pos + 1, ?_, ?_, ?_⟩
        · rw [hfind, h1]; rfl
        · simpa using h2
        · intro e
          simp only [List.eraseIdx_cons_succ, List.mem_cons, h3]
          constructor
          · rintro (h | ⟨h, h'⟩)
            · exact ⟨Or.inl h, fun hh => hxy (hh.symm.trans h)⟩
            · exact ⟨Or.inr h, h'⟩
          · rintro ⟨h | h, h'⟩
            · exact Or.inl h
            · exact Or.inr ⟨h, h'⟩
      · intro hmem
        have hmem' : x ∉ ys := fun h => hmem (List.mem_cons_of_mem _ h)
        rw [hfind, ih2 hmem']
        rfl

/-! ## `MockWritableIndex`: insert, replace, remove -/

theorem MockWritableIndex.insert_of_makeKey {Key : Type} [KeyOrder Key] [IndexKey Key]
    (S : MockWritableIndex Key) (key : Bytes) (k : Key)
    (hk : IndexKey.makeKey key = some k) (id : Int) :
    S.insert key id
      = if (set_insert (k, id) S.m_kv).2 then
          some ({ m_kv := (set_insert (k, id) S.m_kv).1
                  m_keysLen := S.m_keysLen + IndexKey.keyHeapLen k }, 1)
        else some ({ S with m_kv := (set_insert (k, id) S.m_kv).1 }, 0) := by
  simp only [MockWritableIndex.insert, hk]

theorem MockWritableIndex.replace_of_makeKey {Key : Type} [KeyOrder Key] [IndexKey Key]
    (S : MockWritableIndex Key) (key : Bytes) (k : Key)
    (hk : IndexKey.makeKey key = some k) (oldId newId : Int) :
    S.replace key oldId newId
      = some ({ S with m_kv := (set_insert (k, newId)
            (if oldId ≠ newId then set_erase (k, oldId) S.m_kv else S.m_kv)).1 },
          if (set_insert (k, newId)
            (if oldId ≠ newId then set_erase (k, oldId) S.m_kv else S.m_kv)).2 then 1 else 0) := by
  simp only [MockWritableIndex.replace, hk]

theorem MockWritableIndex.remove_of_find {Key : Type} [KeyOrder Key] [IndexKey Key]
    (S : MockWritableIndex Key) (key : Bytes) (k : Key)
    (hk : IndexKey.makeKey key = some k) (id : Int) (pos : Nat) (e : Key × Int)
    (hf : set_find (k, id) S.m_kv = some pos) (hget : S.m_kv[pos]? = some e) :
    S.remove key id
      = some ({ m_kv := S.m_kv.eraseIdx pos, m_keysLen := IndexKey.keyHeapLen e.1 }, 1) := by
  simp only [MockWritableIndex.remove, hk, hf, hget]

theorem MockWritableIndex.remove_of_not_found {Key : Type} [KeyOrder Key] [IndexKey Key]
    (S : MockWritableIndex Key) (key : Bytes) (k : Key)
    (hk : IndexKey.makeKey key = some k) (id : Int)
    (hf : set_find (k, id) S.m_kv = none) : S.remove key id = some (S, 0) := by
  simp only [MockWritableIndex.remove, hk, hf]

/-- A call with key bytes that are not of the size of the key type has no result: the
assertion of `makeKey` fails. -/
theorem MockWritableIndex.no_result_of_makeKey_none {Key : Type} [KeyOrder Key] [IndexKey Key]
    (S : MockWritableIndex Key) (key : Bytes)
    (hk : (IndexKey.makeKey key : Option Key) = none) (id id1 : Int) (it : MyIndexIter) :
    S.insert key id = none ∧ S.replace key id id1 = none ∧ S.remove key id = none ∧
    MyIndexIter.seekExact S key it = none ∧ MyIndexIter.seekLowerBound S key it = none := by
  simp only [MockWritableIndex.insert, MockWritableIndex.replace, MockWritableIndex.remove,
    MyIndexIter.seekExact, MyIndexIter.seekLowerBound, hk, and_self]

/-- C21, as amended: for a `MockWritableIndex` over a key type on which `<` is a linear order
(`std::string` and the integer types), every state `S` (a set of `(key, id)` pairs, held in
ascending order), every key of the size of the key type and every id: `insert(key, id)` returns
`0` if and only if `(key, id)` is already in `S`, and then the index is unchanged; otherwise it
returns `1` and the new set holds `(key, id)` and the entries of `S`, nothing else, again in
ascending order. -/
theorem writable_index_insert_set_semantics {Key : Type} [LinearOrder Key] [IndexKey Key]
    (S : MockWritableIndex Key) (hS : SetOrdered S.m_kv) (key : Bytes) (k : Key)
    (hk : IndexKey.makeKey key = some k) (id : Int) :
    ∃ S1 r, S.insert key id = some (S1, r) ∧
      (r = 0 ↔ (k, id) ∈ S.m_kv) ∧
      (r = 0 → S1 = S) ∧
      (r ≠ 0 → r = 1 ∧ ∀ e, e ∈ S1.m_kv ↔ e ∈ S.m_kv ∨ e = (k, id)) ∧
      SetOrdered S1.m_kv := by
  have hflag := set_insert_flag (k, id) S.m_kv hS
  have hmem := set_insert_mem (k, id) S.m_kv
  have hord := set_insert_ordered (k, id) S.m_kv hS
  have hres := MockWritableIndex.insert_of_makeKey S key k hk id
  cases hb : (set_insert (k, id) S.m_kv).2 with
  | true =>
    have hnot : (k, id) ∉ S.m_kv := hflag.1 hb
    rw [hb, if_pos rfl] at hres
    refine ⟨_, 1, hres, ⟨fun h => absurd h Nat.one_ne_zero, fun h => absurd h hnot⟩,
      fun h => absurd h Nat.one_ne_zero, fun _ => ⟨rfl, ?_⟩, hord⟩
    intro e
    rw [hmem e]
    tauto
  | false =>
    have hin : (k, id) ∈ S.m_kv := by
      by_contra hc
      rw [hflag.2 hc] at hb
      exact Bool.noConfusion hb
    have hun := set_insert_unchanged _ _ hb
    rw [hb, if_neg Bool.false_ne_true, hun] at hres
    exact ⟨S, 0, hres, ⟨fun _ => hin, fun _ => rfl⟩, fun _ => rfl, fun h => absurd rfl h, hS⟩

theorem writable_index_insert_set_semantics_witness :
    SetOrdered sampleWritableIndex.m_kv ∧
    (IndexKey.makeKey [99] : Option Bytes) = some [99] ∧
    sampleWritableIndex.insert [97] 0 = some (sampleWritableIndex, 0) ∧
    sampleWritableIndex.insert [99] 2
      = some ({ m_kv := [([97], 0), ([98], 1), ([99], 2)], m_keysLen := 6 }, 1) ∧
    ∃ S1 r, sampleWritableIndex.insert [99] 2 = some (S1, r) ∧
      (r = 0 ↔ (([99] : Bytes), (2 : Int)) ∈ sampleWritableIndex.m_kv) ∧
      (r = 0 → S1 = sampleWritableIndex) ∧
      (r ≠ 0 → r = 1 ∧
        ∀ e, e ∈ S1.m_kv ↔ e ∈ sampleWritableIndex.m_kv ∨ e = (([99] : Bytes), (2 : Int))) ∧
      SetOrdered S1.m_kv :=
  ⟨by decide, rfl, by decide, by decide,
    writable_index_insert_set_semantics sampleWritableIndex (by decide) [99] [99] rfl 2⟩

/-- C21 as stated fails on an index over `float` keys: the index holds the one entry `(NaN, 1)`
(it is what `insert(NaN, 1)` makes of the empty index); `(5.0, 1)` is not in it, yet
`insert(5.0, 1)` returns `0` and leaves the index as it is, because neither pair is less than
the other. -/
theorem writable_index_insert_nan_counterexample :
    (MockWritableIndex.empty : MockWritableIndex Float32).insert [0, 0, 192, 127] 1
      = some (nanWritableIndex, 1) ∧
    (IndexKey.makeKey [0, 0, 160, 64] : Option Float32) = some float_5 ∧
    (float_5, (1 : Int)) ∉ nanWritableIndex.m_kv ∧
    pair_less (float_5, (1 : Int)) (float_nan, (1 : Int)) = false ∧
    pair_less (float_nan, (1 : Int)) (float_5, (1 : Int)) = false ∧
    nanWritableIndex.insert [0, 0, 160, 64] 1 = some (nanWritableIndex, 0) := by
  decide

/-- C22, as amended: a `MockWritableIndex` (over a key type on which `<` is a linear order) has
no notion of a unique schema.  If some entry `(key, id')` with `id' != id` is in the index and
`(key, id)` itself is not, `insert(key, id)` returns `1` and the index then holds both
`(key, id')` and `(key, id)`, one entry more than before. -/
theorem writable_index_insert_keeps_other_ids {Key : Type} [LinearOrder Key] [IndexKey Key]
    (S : MockWritableIndex Key) (hS : SetOrdered S.m_kv) (key : Bytes) (k : Key)
    (hk : IndexKey.makeKey key = some k) (id id' : Int)
    (hother : (k, id') ∈ S.m_kv) (_hne : id' ≠ id) (hnew : (k, id) ∉ S.m_kv) :
    ∃ S1, S.insert key id = some (S1, 1) ∧
      (k, id') ∈ S1.m_kv ∧ (k, id) ∈ S1.m_kv ∧
      S1.numIndexRows = S.numIndexRows + 1 := by
  have hb : (set_insert (k, id) S.m_kv).2 = true := (set_insert_flag _ _ hS).2 hnew
  have hmem := set_insert_mem (k, id) S.m_kv
  have hlen := set_insert_length (k, id) S.m_kv
  have hres := MockWritableIndex.insert_of_makeKey S key k hk id
  rw [hb, if_pos rfl] at hres
  refine ⟨_, hres, (hmem _).2 (Or.inr hother), (hmem _).2 (Or.inl rfl), ?_⟩
  simp only [MockWritableIndex.numIndexRows, hlen, hb, if_true]

theorem writable_index_insert_keeps_other_ids_witness :
    SetOrdered sampleWritableIndex.m_kv ∧
    (IndexKey.makeKey [97] : Option Bytes) = some [97] ∧
    (([97] : Bytes), (0 : Int)) ∈ sampleWritableIndex.m_kv ∧
    (0 : Int) ≠ 5 ∧
    (([97] : Bytes), (5 : Int)) ∉ sampleWritableIndex.m_kv ∧
    ∃ S1, sampleWritableIndex.insert [97] 5 = some (S1, 1) ∧
      (([97] : Bytes), (0 : Int)) ∈ S1.m_kv ∧ (([97] : Bytes), (5 : Int)) ∈ S1.m_kv ∧
      S1.numIndexRows = sampleWritableIndex.numIndexRows + 1 :=
  ⟨by decide, rfl, by decide, by decide, by decide,
    writable_index_insert_keeps_other_ids sampleWritableIndex (by decide) [97] [97] rfl 5 0
      (by decide) (by decide) (by decide)⟩

/-- C22 as stated fails: the index holds `("a", 0)`; `insert("a", 5)` returns `1`, not `0`, and
the index then holds the two entries `("a", 0)` and `("a", 5)` with the same key. -/
theorem writable_index_insert_unique_counterexample :
    (([97] : Bytes), (0 : Int)) ∈ sampleWritableIndex.m_kv ∧
    sampleWritableIndex.insert [97] 5
      = some ({ m_kv := [([97], 0), ([97], 5), ([98], 1)], m_keysLen := 6 }, 1) := by
  decide

/-- C23, as amended: for a `MockWritableIndex` over a key type on which `<` is a linear order
(`std::string` and the integer types), every state `S`, every key of the size of the key type,
`oldId` and `newId`: after `replace(key, oldId, newId)` the set is `S` without `(key, oldId)`
(when `oldId != newId`) and with `(key, newId)`: `(key, newId)` is present, `(key, oldId)` is
absent when `oldId != newId`, every other entry is present exactly when it was, and when
`oldId == newId` no entry of `S` is missing. -/
theorem writable_index_replace_set_semantics {Key : Type} [LinearOrder Key] [IndexKey Key]
    (S : MockWritableIndex Key) (hS : SetOrdered S.m_kv) (key : Bytes) (k : Key)
    (hk : IndexKey.makeKey key = some k) (oldId newId : Int) :
    ∃ S1 r, S.replace key oldId newId = some (S1, r) ∧
      (k, newId) ∈ S1.m_kv ∧
      (oldId ≠ newId → (k, oldId) ∉ S1.m_kv) ∧
      (∀ e, e ≠ (k, oldId) → e ≠ (k, newId) → (e ∈ S1.m_kv ↔ e ∈ S.m_kv)) ∧
      (oldId = newId → ∀ e ∈ S.m_kv, e ∈ S1.m_kv) ∧
      SetOrdered S1.m_kv := by
  have hres := MockWritableIndex.replace_of_makeKey S key k hk oldId newId
  by_cases hne : oldId = newId
  · subst hne
    rw [if_neg (fun h : oldId ≠ oldId => h rfl)] at hres
    refine ⟨_, _, hres, (set_insert_mem _ _ _).2 (Or.inl rfl), fun h => absurd rfl h, ?_, ?_,
      set_insert_ordered _ _ hS⟩
    · intro e h1 _
      rw [set_insert_mem]
      exact ⟨fun h => h.resolve_left h1, fun h => Or.inr h⟩
    · intro _ e he
      exact (set_insert_mem _ _ _).2 (Or.inr he)
  · rw [if_pos hne] at hres
    refine ⟨_, _, hres, (set_insert_mem _ _ _).2 (Or.inl rfl), ?_, ?_, fun h => absurd h hne,
      set_insert_ordered _ _ (set_erase_ordered _ _ hS)⟩
    · intro _ hmem
      rw [set_insert_mem, set_erase_mem] at hmem
      rcases hmem with h | ⟨-, h⟩
      · exact hne (Prod.mk.inj h).2
      · exact h rfl
    · intro e h1 h2
      rw [set_insert_mem, set_erase_mem]
      exact ⟨fun h => (h.resolve_left h2).1, fun h => Or.inr ⟨h, h1⟩⟩

theorem writable_index_replace_set_semantics_witness :
    SetOrdered sampleWritableIndex.m_kv ∧
    (IndexKey.makeKey [97] : Option Bytes) = some [97] ∧
    sampleWritableIndex.replace [97] 0 7
      = some ({ m_kv := [([97], 7), ([98], 1)], m_keysLen := 4 }, 1) ∧
    ∃ S1 r, sampleWritableIndex.replace [97] 0 7 = some (S1, r) ∧
      (([97] : Bytes), (7 : Int)) ∈ S1.m_kv ∧
      ((0 : Int) ≠ 7 → (([97] : Bytes), (0 : Int)) ∉ S1.m_kv) ∧
      (∀ e, e ≠ (([97] : Bytes), (0 : Int)) → e ≠ (([97] : Bytes), (7 : Int)) →
        (e ∈ S1.m_kv ↔ e ∈ sampleWritableIndex.m_kv)) ∧
      ((0 : Int) = 7 → ∀ e ∈ sampleWritableIndex.m_kv, e ∈ S1.m_kv) ∧
      SetOrdered S1.m_kv :=
  ⟨by decide, rfl, by decide,
    writable_index_replace_set_semantics sampleWritableIndex (by decide) [97] [97] rfl 0 7⟩

/-- C23 as stated fails on an index over `float` keys: the index holds the one entry
`(NaN, 1)`; `replace(5.0, 1, 2)` erases it, although it is neither `(5.0, 1)` nor `(5.0, 2)`:
`erase` removes the element that is equivalent to `(5.0, 1)`, and under the comparison of
`float` the pair `(NaN, 1)` is. -/
theorem writable_index_replace_nan_counterexample :
    (IndexKey.makeKey [0, 0, 160, 64] : Option Float32) = some float_5 ∧
    (float_nan, (1 : Int)) ∈ nanWritableIndex.m_kv ∧
    (float_nan, (1 : Int)) ≠ (float_5, (1 : Int)) ∧
    (float_nan, (1 : Int)) ≠ (float_5, (2 : Int)) ∧
    nanWritableIndex.replace [0, 0, 160, 64] 1 2
      = some ({ m_kv := [(float_5, 2)], m_keysLen := 0 }, 1) ∧
    (float_nan, (1 : Int)) ∉ [(float_5, (2 : Int))] := by
  decide

/-- C24, as amended: for a `MockWritableIndex` over a key type on which `<` is a linear order
(`std::string` and the integer types), every state `S`, every key of the size of the key type
and every id: `remove(key, id)` returns `1` if and only if `(key, id)` is in `S`, and `0`
otherwise; afterwards `(key, id)` is absent, every other entry (also one with the same key and
another id) is present exactly when it was, and `numIndexRows()` has dropped by the returned
value. -/
theorem writable_index_remove_set_semantics {Key : Type} [LinearOrder Key] [IndexKey Key]
    (S : MockWritableIndex Key) (hS : SetOrdered S.m_kv) (key : Bytes) (k : Key)
    (hk : IndexKey.makeKey key = some k) (id : Int) :
    ∃ S1 r, S.remove key id = some (S1, r) ∧
      (r = 1 ↔ (k, id) ∈ S.m_kv) ∧
      (r = 1 ∨ r = 0) ∧
      (k, id) ∉ S1.m_kv ∧
      (∀ e, e ≠ (k, id) → (e ∈ S1.m_kv ↔ e ∈ S.m_kv)) ∧
      S1.numIndexRows + r = S.numIndexRows ∧
      SetOrdered S1.m_kv := by
  obtain ⟨h1, h2⟩ := set_find_spec (k, id) S.m_kv hS.nodup
  by_cases hin : (k, id) ∈ S.m_kv
  · obtain ⟨pos, hf, hget, hmem⟩ := h1 hin
    have hpos : pos < S.m_kv.length := by
      by_contra hc
      rw [List.getElem?_eq_none (by omega)] at hget
      exact Option.noConfusion hget
    have hres := MockWritableIndex.remove_of_find S key k hk id pos _ hf hget
    refine ⟨_, 1, hres, ⟨fun _ => hin, fun _ => rfl⟩, Or.inl rfl, ?_, ?_, ?_, ?_⟩
    · intro h
      exact ((hmem _).1 h).2 rfl
    · intro e he
      exact ⟨fun h => ((hmem e).1 h).1, fun h => (hmem e).2 ⟨h, he⟩⟩
    · simp only [MockWritableIndex.numIndexRows, List.length_eraseIdx, hpos, if_true]
      omega
    · exact List.Pairwise.sublist (List.eraseIdx_sublist _ _) hS
  · have hres := MockWritableIndex.remove_of_not_found S key k hk id (h2 hin)
    exact ⟨S, 0, hres, ⟨fun h => absurd h Nat.zero_ne_one, fun h => absurd h hin⟩, Or.inr rfl,
      hin, fun _ _ => Iff.rfl, rfl, hS⟩

theorem writable_index_remove_set_semantics_witness :
    SetOrdered sampleWritableIndex.m_kv ∧
    (IndexKey.makeKey [97] : Option Bytes) = some [97] ∧
    sampleWritableIndex.remove [97] 0 = some ({ m_kv := [([98], 1)], m_keysLen := 2 }, 1) ∧
    sampleWritableIndex.remove [97] 3 = some (sampleWritableIndex, 0) ∧
    ∃ S1 r, sampleWritableIndex.remove [97] 0 = some (S1, r) ∧
      (r = 1 ↔ (([97] : Bytes), (0 : Int)) ∈ sampleWritableIndex.m_kv) ∧
      (r = 1 ∨ r = 0) ∧
      (([97] : Bytes), (0 : Int)) ∉ S1.m_kv ∧
      (∀ e, e ≠ (([97] : Bytes), (0 : Int)) → (e ∈ S1.m_kv ↔ e ∈ sampleWritableIndex.m_kv)) ∧
      S1.numIndexRows + r = sampleWritableIndex.numIndexRows ∧
      SetOrdered S1.m_kv :=
  ⟨by decide, rfl, by decide, by decide,
    writable_index_remove_set_semantics sampleWritableIndex (by decide) [97] [97] rfl 0⟩

/-- C24 as stated fails on an index over `float` keys: the index holds the one entry
`(NaN, 1)`; `(5.0, 1)` is not in it, yet `remove(5.0, 1)` returns `1` and erases `(NaN, 1)`:
`find` returns the element that is equivalent to `(5.0, 1)`. -/
theorem writable_index_remove_nan_counterexample :
    (IndexKey.makeKey [0, 0, 160, 64] : Option Float32) = some float_5 ∧
    (float_5, (1 : Int)) ∉ nanWritableIndex.m_kv ∧
    (float_nan, (1 : Int)) ∈ nanWritableIndex.m_kv ∧
    nanWritableIndex.remove [0, 0, 160, 64] 1 = some ({ m_kv := [], m_keysLen := 0 }, 1) := by
  decide

/-! ## The counter `m_keysLen` -/

theorem keyHeapSum_set_insert {Key : Type} [KeyOrder Key] [IndexKey Key] (x : Key × Int)
    (l : List (Key × Int)) :
    keyHeapSum (set_insert x l).1
      = keyHeapSum l + (if (set_insert x l).2 then IndexKey.keyHeapLen x.1 else 0) := by
  induction l with
  | nil => simp [set_insert, keyHeapSum]
  | cons y ys ih =>
    unfold set_insert
    split
    · simp [keyHeapSum]
      omega
    · split
      · simp only [keyHeapSum, List.map_cons, List.sum_cons] at ih ⊢
        rw [ih]
        omega
      · simp

/-- What holds of `m_keysLen`: `insert` keeps it equal to the sum of `keyHeapLen` over the
entries, so it is that sum after every sequence of `insert` calls on the empty index. -/
theorem MockWritableIndex.insertAll_keysLen {Key : Type} [KeyOrder Key] [IndexKey Key]
    (entries : List (Bytes × Int)) : ∀ (S S1 : MockWritableIndex Key),
    S.m_keysLen = keyHeapSum S.m_kv → S.insertAll entries = some S1 →
    S1.m_keysLen = keyHeapSum S1.m_kv := by
  induction entries with
  | nil =>
    intro S S1 h hrun
    rw [MockWritableIndex.insertAll] at hrun
    rw [← Option.some.inj hrun]
    exact h
  | cons e es ih =>
    intro S S1 h hrun
    rw [MockWritableIndex.insertAll] at hrun
    cases hk : (IndexKey.makeKey e.1 : Option Key) with
    | none =>
      simp only [MockWritableIndex.insert, hk] at hrun
      exact Option.noConfusion hrun
    | some k =>
      rw [MockWritableIndex.insert_of_makeKey S e.1 k hk e.2] at hrun
      have hsum := keyHeapSum_set_insert (k, e.2) S.m_kv
      cases hb : (set_insert (k, e.2) S.m_kv).2 with
      | true =>
        rw [hb] at hsum
        simp only [hb, if_true] at hrun
        refine ih _ S1 ?_ hrun
        simp only [hsum, if_true, h]
      | false =>
        rw [hb] at hsum
        simp only [hb, Bool.false_eq_true, if_false] at hrun
        refine ih _ S1 ?_ hrun
        simp only [hsum, Bool.false_eq_true, if_false, h, Nat.add_zero]

/-- C25 fails on the code.  On the empty index over byte-string keys, `insert("a", 0)`,
`insert("bc", 1)` and `remove("a", 0)` leave the one entry `("bc", 1)`, whose key heap length
is `3`, but `m_keysLen` is `2`: `remove` assigns the heap length of the removed key instead of
subtracting it.  After `insert("a", 0)` and `replace("b", 5, 1)` the index holds `("a", 0)`
and `("b", 1)`, with key heap lengths `2 + 2`, but `m_keysLen` is `2`. -/
theorem writable_index_keysLen_not_maintained :
    (MockWritableIndex.empty : MockWritableIndex Bytes).run
        [IndexOp.insert [97] 0, IndexOp.insert [98, 99] 1, IndexOp.remove [97] 0]
      = some { m_kv := [([98, 99], 1)], m_keysLen := 2 } ∧
    keyHeapSum ([([98, 99], 1)] : List (Bytes × Int)) = 3 ∧
    (∀ sizeofKv sizeofPtr,
      ((MockWritableIndex.empty : MockWritableIndex Bytes).run
          [IndexOp.insert [97] 0, IndexOp.insert [98, 99] 1, IndexOp.remove [97] 0]).map
          (MockWritableIndex.indexStorageSize sizeofKv sizeofPtr)
        = some (2 + 1 * (sizeofKv + 4 * sizeofPtr))) ∧
    (MockWritableIndex.empty : MockWritableIndex Bytes).run
        [IndexOp.insert [97] 0, IndexOp.replace [98] 5 1]
      = some { m_kv := [([97], 0), ([98], 1)], m_keysLen := 2 } ∧
    keyHeapSum ([([97], 0), ([98], 1)] : List (Bytes × Int)) = 4 := by
  have h1 : (MockWritableIndex.empty : MockWritableIndex Bytes).run
      [IndexOp.insert [97] 0, IndexOp.insert [98, 99] 1, IndexOp.remove [97] 0]
      = some { m_kv := [([98, 99], 1)], m_keysLen := 2 } := by decide
  refine ⟨h1, by decide, ?_, by decide, by decide⟩
  intro sizeofKv sizeofPtr
  rw [h1]
  rfl

/-! ## Forward iteration over a writable index -/

theorem MyIndexIter.incrementN_end {Key : Type} [IndexKey Key] (owner : MockWritableIndex Key)
    (n : Nat) :
    MyIndexIter.incrementN owner n { m_iter := owner.m_kv.length, m_isNull := false }
      = some ({ m_iter := owner.m_kv.length, m_isNull := false }, List.replicate n none) := by
  induction n with
  | zero => rfl
  | succ n ih =>
    simp only [MyIndexIter.incrementN, MyIndexIter.increment, Bool.false_eq_true, if_false,
      ne_eq, not_true_eq_false, ih, List.replicate_succ]

theorem MyIndexIter.incrementN_at {Key : Type} [IndexKey Key] (owner : MockWritableIndex Key)
    (n : Nat) : ∀ (k p : Nat), p + k = owner.m_kv.length →
    MyIndexIter.incrementN owner (k + n) { m_iter := p, m_isNull := false }
      = some ({ m_iter := owner.m_kv.length, m_isNull := false },
          (owner.m_kv.drop p).map (fun kv => some (kv.2, IndexKey.copyKey kv.1))
            ++ List.replicate n none) := by
  intro k
  induction k with
  | zero =>
    intro p hp
    have hpe : p = owner.m_kv.length := by omega
    subst hpe
    rw [Nat.zero_add, MyIndexIter.incrementN_end, List.drop_length]
    rfl
  | succ k ih =>
    intro p hp
    have hlt : p < owner.m_kv.length := by omega
    have hne : owner.m_kv.length ≠ p := by omega
    have hstep : MyIndexIter.increment owner { m_iter := p, m_isNull := false }
        = some ({ m_iter := p + 1, m_isNull := false },
            some (owner.m_kv[p].2, IndexKey.copyKey owner.m_kv[p].1)) := by
      simp only [MyIndexIter.increment, Bool.false_eq_true, if_false, ne_eq, hne,
        not_false_eq_true, if_true, List.getElem?_eq_getElem hlt]
    have hk : k + 1 + n = (k + n) + 1 := by omega
    rw [hk]
    simp only [MyIndexIter.incrementN, hstep, ih (p + 1) (by omega)]
    rw [List.drop_eq_getElem_cons hlt, List.map_cons, List.cons_append]

theorem MyIndexIter.incrementN_all {Key : Type} [IndexKey Key] (owner : MockWritableIndex Key)
    (n : Nat) :
    (MyIndexIter.incrementN owner (owner.m_kv.length + n) MyIndexIter.fresh).map Prod.snd
      = some (owner.m_kv.map (fun kv => some (kv.2, IndexKey.copyKey kv.1))
          ++ List.replicate n none) := by
  cases hkv : owner.m_kv with
  | nil =>
    cases n with
    | zero => rfl
    | succ n =>
      have hend := MyIndexIter.incrementN_end owner n
      rw [hkv] at hend
      have hstep : MyIndexIter.increment owner MyIndexIter.fresh
          = some ({ m_iter := 0, m_isNull := false }, none) := by
        simp [MyIndexIter.increment, MyIndexIter.fresh, hkv]
      rw [show ([] : List (Key × Int)).length = 0 from rfl] at hend
      have hn : ([] : List (Key × Int)).length + (n + 1) = n + 1 := by simp
      rw [hn]
      simp only [MyIndexIter.incrementN, hstep, hend]
      rfl
  | cons e es =>
    have hat := MyIndexIter.incrementN_at owner n es.length 1 (by rw [hkv]; simp; omega)
    have hstep : MyIndexIter.increment owner MyIndexIter.fresh
        = some ({ m_iter := 1, m_isNull := false }, some (e.2, IndexKey.copyKey e.1)) := by
      simp [MyIndexIter.increment, MyIndexIter.fresh, hkv]
    have hlen : (e :: es).length + n = (es.length + n) + 1 := by simp; omega
    rw [hlen]
    simp only [MyIndexIter.incrementN, hstep, hat, hkv]
    simp

theorem MockWritableIndex.insertAll_spec {Key : Type} [LinearOrder Key] [IndexKey Key]
    (entries : List (Bytes × Int)) (xs : List (Key × Int))
    (hkeys : List.Forall₂ (fun e x => IndexKey.makeKey e.1 = some x.1 ∧ e.2 = x.2) entries xs) :
    ∀ (S : MockWritableIndex Key), SetOrdered S.m_kv →
    ∃ S1, S.insertAll entries = some S1 ∧ SetOrdered S1.m_kv ∧
      ∀ y, y ∈ S1.m_kv ↔ y ∈ S.m_kv ∨ y ∈ xs := by
  induction hkeys with
  | nil =>
    intro S hS
    exact ⟨S, rfl, hS, fun y => by simp⟩
  | @cons e x es xs1 hex _ ih =>
    intro S hS
    have hins := MockWritableIndex.insert_of_makeKey S e.1 x.1 hex.1 e.2
    have hkv : ∃ r, S.insert e.1 e.2 = some r
        ∧ r.1.m_kv = (set_insert (x.1, e.2) S.m_kv).1 := by
      rw [hins]
      split
      · exact ⟨_, rfl, rfl⟩
      · exact ⟨_, rfl, rfl⟩
    obtain ⟨r, hr, hrkv⟩ := hkv
    have hord : SetOrdered r.1.m_kv := by
      rw [hrkv]
      exact set_insert_ordered _ _ hS
    obtain ⟨S1, h1, h2, h3⟩ := ih r.1 hord
    have hx : (x.1, e.2) = x := by
      rw [hex.2]
    refine ⟨S1, ?_, h2, ?_⟩
    · rw [MockWritableIndex.insertAll, hr]
      exact h1
    · intro y
      rw [h3 y, hrkv, set_insert_mem, hx, List.mem_cons]
      tauto

theorem SetOrdered.keys_sorted {Key : Type} [LinearOrder Key] {l : List (Key × Int)}
    (h : SetOrdered l) : (l.map Prod.fst).Pairwise (fun a b => a ≤ b) := by
  rw [List.pairwise_map]
  refine List.Pairwise.imp ?_ h
  intro a b hab
  rcases (pair_less_iff a b).1 hab with h1 | ⟨h1, -⟩
  · exact le_of_lt h1
  · exact le_of_eq h1

theorem sint32_load_bytes (v : Int) (h1 : -2 ^ 31 ≤ v) (h2 : v < 2 ^ 31) :
    sint32_load (sint32_bytes v) = v := by
  unfold sint32_load sint32_bytes
  have hlen : (le_bytes 4 (v % 2 ^ 32).toNat).length = 4 := le_bytes_length _ _
  rw [List.take_of_length_le (by omega), le_value_le_bytes]
  have hnn : (0 : Int) ≤ v % 2 ^ 32 := Int.emod_nonneg _ (by norm_num)
  have hlt : v % 2 ^ 32 < 2 ^ 32 := Int.emod_lt_of_pos _ (by norm_num)
  have hmod : (v % 2 ^ 32).toNat % 256 ^ 4 = (v % 2 ^ 32).toNat := by
    apply Nat.mod_eq_of_lt
    have : ((v % 2 ^ 32).toNat : Int) < 2 ^ 32 := by rw [Int.toNat_of_nonneg hnn]; exact hlt
    norm_num
    omega
  rw [hmod]
  simp only
  have hcast : ((v % 2 ^ 32).toNat : Int) = v % 2 ^ 32 := Int.toNat_of_nonneg hnn
  split
  · rename_i h
    rw [hcast]
    have : ((v % 2 ^ 32).toNat : Int) < 2 ^ 31 := by exact_mod_cast h
    rw [hcast] at this
    omega
  · rename_i h
    rw [hcast]
    have : ¬ ((v % 2 ^ 32).toNat : Int) < 2 ^ 31 := by exact_mod_cast h
    rw [hcast] at this
    omega

theorem sint32_makeKey_bytes (v : Int) (h1 : -2 ^ 31 ≤ v) (h2 : v < 2 ^ 31) :
    (IndexKey.makeKey (sint32_bytes v) : Option Sint32) = some v := by
  show (if (sint32_bytes v).length = 4 then some (sint32_load (sint32_bytes v)) else none)
    = some v
  have hl : (sint32_bytes v).length = 4 := le_bytes_length _ _
  rw [if_pos hl, sint32_load_bytes v h1 h2]

theorem sint32_entries_keys (ks : List Int) (hks : ∀ k ∈ ks, -2 ^ 31 ≤ k ∧ k < 2 ^ 31) :
    ∀ ids : List Int,
    List.Forall₂
      (fun (e : Bytes × Int) (x : Sint32 × Int) => IndexKey.makeKey e.1 = some x.1 ∧ e.2 = x.2)
      ((ks.map sint32_bytes).zip ids) (ks.zip ids) := by
  induction ks with
  | nil =>
    intro ids
    simp
  | cons k ks ih =>
    intro ids
    cases ids with
    | nil => simp
    | cons i ids =>
      have hk := hks k (List.mem_cons_self _ _)
      simp only [List.map_cons, List.zip_cons_cons]
      exact List.Forall₂.cons ⟨sint32_makeKey_bytes k hk.1 hk.2, rfl⟩
        (ih (fun k1 h => hks k1 (List.mem_cons_of_mem _ h)) ids)

theorem sint32_insertAll_keys (ks ids : List Int) (hperm : ks.Perm [-2, -1, 0, 1, 2])
    (hlen : ids.length = ks.length) :
    ∃ S, (MockWritableIndex.empty : MockWritableIndex Sint32).insertAll
        ((ks.map sint32_bytes).zip ids) = some S ∧
      S.m_kv.map Prod.fst = [-2, -1, 0, 1, 2] := by
  have hrange : ∀ k ∈ ks, -2 ^ 31 ≤ k ∧ k < 2 ^ 31 := by
    intro k hk
    have hk1 : k ∈ ([-2, -1, 0, 1, 2] : List Int) := hperm.mem_iff.1 hk
    simp only [List.mem_cons, List.mem_singleton, List.not_mem_nil, or_false] at hk1
    rcases hk1 with h | h | h | h | h <;> rw [h] <;> norm_num
  obtain ⟨S, hS, hord, hmem⟩ := @MockWritableIndex.insertAll_spec Sint32 _ _
    ((ks.map sint32_bytes).zip ids) (ks.zip ids) (sint32_entries_keys ks hrange ids)
    MockWritableIndex.empty List.Pairwise.nil
  refine ⟨S, hS, ?_⟩
  have hksnd : ks.Nodup := hperm.nodup_iff.2 (by decide)
  have hfst : (ks.zip ids).map Prod.fst = ks := List.map_fst_zip _ _ (by omega)
  have hEnd : (ks.zip ids).Nodup := List.Nodup.of_map Prod.fst (by rw [hfst]; exact hksnd)
  have hp : S.m_kv.Perm (ks.zip ids) := by
    rw [List.perm_ext_iff_of_nodup hord.nodup hEnd]
    intro a
    rw [hmem a]
    simp [MockWritableIndex.empty]
  have hkeys := (hp.map Prod.fst).trans (hfst ▸ hperm)
  exact List.eq_of_perm_of_sorted hkeys hord.keys_sorted (by decide)

/-- C26, as amended: for a `MockWritableIndex` over a key type on which `<` is a linear order
(`std::string` and the integer types; its set in ascending order), the first calls of
`increment` on a fresh iterator yield every entry of `m_kv`, each once, in ascending key order
with ties in ascending id order, and every later call returns `false` (every call on an empty
index).  With `Key = int32_t` (a single-column `Sint32` index) the order is numeric: when the
keys `-2, -1, 0, 1, 2` are inserted in any order with any ids into the empty index, the keys
yielded are the little-endian bytes of `-2, -1, 0, 1, 2` in this order. -/
theorem writable_index_iter_ascending {Key : Type} [LinearOrder Key] [IndexKey Key]
    (owner : MockWritableIndex Key) (hS : SetOrdered owner.m_kv) (n : Nat) :
    (MyIndexIter.incrementN owner (owner.m_kv.length + n) MyIndexIter.fresh).map Prod.snd
      = some (owner.m_kv.map (fun kv => some (kv.2, IndexKey.copyKey kv.1))
          ++ List.replicate n none) ∧
    owner.m_kv.Nodup ∧
    owner.m_kv.Pairwise (fun a b => a.1 < b.1 ∨ (a.1 = b.1 ∧ a.2 < b.2)) ∧
    (∀ ks ids : List Int, ks.Perm [-2, -1, 0, 1, 2] → ids.length = ks.length →
      ∃ S, (MockWritableIndex.empty : MockWritableIndex Sint32).insertAll
          ((ks.map sint32_bytes).zip ids) = some S ∧
        (MyIndexIter.incrementN S 6 MyIndexIter.fresh).map
            (fun r => r.2.map (Option.map Prod.snd))
          = some [some (sint32_bytes (-2)), some (sint32_bytes (-1)), some (sint32_bytes 0),
              some (sint32_bytes 1), some (sint32_bytes 2), none]) := by
  refine ⟨MyIndexIter.incrementN_all owner n, hS.nodup,
    List.Pairwise.imp (fun hab => (pair_less_iff _ _).1 hab) hS, ?_⟩
  intro ks ids hperm hlen
  obtain ⟨S, hrun, hkeys⟩ := sint32_insertAll_keys ks ids hperm hlen
  refine ⟨S, hrun, ?_⟩
  have hlen5 : S.m_kv.length = 5 := by
    have := congrArg List.length hkeys
    simpa using this
  have hall := MyIndexIter.incrementN_all S 1
  rw [hlen5] at hall
  have hmap : ∀ x : Option (MyIndexIter × List (Option (Int × Bytes))),
      x.map (fun r => r.2.map (Option.map Prod.snd))
        = (x.map Prod.snd).map (List.map (Option.map Prod.snd)) := by
    intro x
    cases x <;> rfl
  rw [hmap, hall]
  simp only [Option.map_some', List.map_append, List.map_map, List.replicate_one,
    List.map_cons, List.map_nil, Option.map_none']
  have hk2 : List.map ((Option.map Prod.snd) ∘ fun kv : Sint32 × Int =>
        some (kv.2, (IndexKey.copyKey kv.1 : Bytes))) S.m_kv
      = List.map (fun k : Int => some (sint32_bytes k)) (S.m_kv.map Prod.fst) := by
    rw [List.map_map]
    rfl
  rw [hk2, hkeys]
  rfl

theorem writable_index_iter_ascending_witness :
    SetOrdered sampleWritableIndex.m_kv ∧
    (MyIndexIter.incrementN sampleWritableIndex (sampleWritableIndex.m_kv.length + 1)
        MyIndexIter.fresh).map Prod.snd
      = some (sampleWritableIndex.m_kv.map (fun kv => some (kv.2, IndexKey.copyKey kv.1))
          ++ List.replicate 1 none) ∧
    ((MockWritableIndex.empty : MockWritableIndex Sint32).insertAll
        (([1, -2, 0, 2, -1].map sint32_bytes).zip [10, 11, 12, 13, 14])).bind
        (fun S => (MyIndexIter.incrementN S 6 MyIndexIter.fresh).map Prod.snd)
      = some [some (11, [254, 255, 255, 255]), some (14, [255, 255, 255, 255]),
          some (12, [0, 0, 0, 0]), some (10, [1, 0, 0, 0]), some (13, [2, 0, 0, 0]), none] :=
  ⟨by decide,
    (writable_index_iter_ascending sampleWritableIndex (by decide) 1).1,
    by decide⟩

/-- C26 as stated fails on an index over `float` keys: the calls `insert(NaN, 5)`,
`insert(7.0, 9)` and `insert(8.0, 2)` on the empty index make an index whose iterator yields the
keys `8.0`, `NaN`, `7.0` in this order, so `8.0` before `7.0`: under the comparison of pairs
with `float` keys, `(7.0, 9)` is placed after `(NaN, 5)` because `5 < 9`, and `(8.0, 2)` before
`(NaN, 5)` because `2 < 5`. -/
theorem writable_index_iter_nan_counterexample :
    (MockWritableIndex.empty : MockWritableIndex Float32).insertAll
        [([0, 0, 192, 127], 5), ([0, 0, 224, 64], 9), ([0, 0, 0, 65], 2)]
      = some nanScanIndex ∧
    (MyIndexIter.incrementN nanScanIndex 4 MyIndexIter.fresh).map Prod.snd
      = some [some (2, [0, 0, 0, 65]), some (5, [0, 0, 192, 127]), some (9, [0, 0, 224, 64]),
          none] ∧
    (IndexKey.makeKey [0, 0, 0, 65] : Option Float32) = some float_8 ∧
    (IndexKey.makeKey [0, 0, 224, 64] : Option Float32) = some float_7 ∧
    KeyOrder.less float_7 float_8 = true ∧
    pair_less (float_nan, (5 : Int)) (float_7, (9 : Int)) = true ∧
    pair_less (float_8, (2 : Int)) (float_nan, (5 : Int)) = true := by
  decide

/-! ## The order of byte-string keys -/

theorem bytewiseCompare_self (x : Bytes) : bytewiseCompare x x = 0 := by
  induction x with
  | nil => rfl
  | cons a as ih => simp [bytewiseCompare, ih]

theorem bytewiseCompare_of_lex (x y : Bytes) (h : List.Lex (· < ·) x y) :
    bytewiseCompare x y < 0 := by
  induction h with
  | nil => simp [bytewiseCompare]
  | cons _ ih => simpa [bytewiseCompare] using ih
  | rel hr => simp [bytewiseCompare, hr]

theorem bytewiseCompare_of_lt (x y : Bytes) (h : x < y) : bytewiseCompare x y < 0 :=
  bytewiseCompare_of_lex x y h

/-- The order of `std::string` keys in the set, which is the order `<=` of byte lists, is the
bytewise lexicographic comparison. -/
theorem bytewiseCompare_of_le (x y : Bytes) (h : x ≤ y) : bytewiseCompare x y ≤ 0 := by
  rcases lt_or_eq_of_le h with h | h
  · exact le_of_lt (bytewiseCompare_of_lt x y h)
  · rw [h, bytewiseCompare_self]

theorem SetOrdered.consecutive {Key : Type} [LinearOrder Key] {l : List (Key × Int)}
    (h : SetOrdered l) (i : Nat) (a b : Key × Int) (ha : l[i]? = some a)
    (hb : l[i + 1]? = some b) : a.1 ≤ b.1 := by
  have hi : i + 1 < l.length := by
    by_contra hc
    rw [List.getElem?_eq_none (by omega)] at hb
    exact Option.noConfusion hb
  rw [List.getElem?_eq_getElem (by omega)] at ha
  rw [List.getElem?_eq_getElem hi] at hb
  have hab := List.pairwise_iff_getElem.1 h i (i + 1) (by omega) hi (by omega)
  rw [Option.some.inj ha, Option.some.inj hb] at hab
  rcases (pair_less_iff a b).1 hab with h1 | ⟨h1, -⟩
  · exact le_of_lt h1
  · exact le_of_eq h1

/-- C27, as amended: a `MockWritableIndex` over byte-string keys orders its entries by the
bytewise lexicographic order of the key bytes (the order of `std::string`), whatever the
schema: for any two entries that forward iteration yields consecutively, the bytewise
comparison of the earlier key with the later key is `<= 0`; hence `compareData` of the two keys
is `<= 0` for every schema whose `compareData` is `<= 0` wherever the bytewise comparison
is. -/
theorem writable_index_string_keys_bytewise_order (owner : MockWritableIndex Bytes)
    (hS : SetOrdered owner.m_kv) (m i : Nat) (rs : List (Option (Int × Bytes)))
    (r1 r2 : Int × Bytes)
    (hrun : (MyIndexIter.incrementN owner (owner.m_kv.length + m) MyIndexIter.fresh).map
      Prod.snd = some rs)
    (h1 : rs[i]? = some (some r1)) (h2 : rs[i + 1]? = some (some r2)) :
    bytewiseCompare r1.2 r2.2 ≤ 0 ∧
    ∀ schema : Schema, (∀ x y, bytewiseCompare x y ≤ 0 → schema.compareData x y ≤ 0) →
      schema.compareData r1.2 r2.2 ≤ 0 := by
  rw [MyIndexIter.incrementN_all] at hrun
  have hrs := (Option.some.inj hrun).symm
  have hget : ∀ (j : Nat) (r : Int × Bytes), rs[j]? = some (some r) →
      ∃ e, owner.m_kv[j]? = some e ∧ r.2 = e.1 := by
    intro j r hj
    rw [hrs] at hj
    by_cases hlt : j < owner.m_kv.length
    · rw [List.getElem?_append_left (by simpa using hlt), List.getElem?_map,
        List.getElem?_eq_getElem hlt] at hj
      refine ⟨owner.m_kv[j], List.getElem?_eq_getElem hlt, ?_⟩
      have := Option.some.inj (Option.some.inj hj)
      rw [← this]
      rfl
    · rw [List.getElem?_append_right (by simpa using hlt)] at hj
      by_cases hj2 : j - (List.map (fun kv : Bytes × Int =>
          some (kv.2, (IndexKey.copyKey kv.1 : Bytes))) owner.m_kv).length < m
      · rw [List.getElem?_eq_getElem (by simpa using hj2), List.getElem_replicate] at hj
        exact Option.noConfusion (Option.some.inj hj)
      · rw [List.getElem?_eq_none (by simpa using hj2)] at hj
        exact Option.noConfusion hj
  obtain ⟨e1, he1, hk1⟩ := hget i r1 h1
  obtain ⟨e2, he2, hk2⟩ := hget (i + 1) r2 h2
  have hle : e1.1 ≤ e2.1 := hS.consecutive i e1 e2 he1 he2
  have hc : bytewiseCompare r1.2 r2.2 ≤ 0 := by
    rw [hk1, hk2]
    exact bytewiseCompare_of_le _ _ hle
  exact ⟨hc, fun schema hsch => hsch _ _ hc⟩

theorem writable_index_string_keys_bytewise_order_witness :
    SetOrdered sampleWritableIndex.m_kv ∧
    (MyIndexIter.incrementN sampleWritableIndex (sampleWritableIndex.m_kv.length + 1)
        MyIndexIter.fresh).map Prod.snd = some [some (0, [97]), some (1, [98]), none] ∧
    ([some (0, [97]), some (1, [98]), none] : List (Option (Int × Bytes)))[0]?
      = some (some (0, [97])) ∧
    ([some (0, [97]), some (1, [98]), none] : List (Option (Int × Bytes)))[0 + 1]?
      = some (some (1, [98])) ∧
    bytewiseCompare [97] [98] ≤ 0 ∧
    ∀ schema : Schema, (∀ x y, bytewiseCompare x y ≤ 0 → schema.compareData x y ≤ 0) →
      schema.compareData [97] [98] ≤ 0 :=
  ⟨by decide, by decide, by decide, by decide,
    writable_index_string_keys_bytewise_order sampleWritableIndex (by decide) 1 0
      [some (0, [97]), some (1, [98]), none] (0, [97]) (1, [98])
      (by decide) (by decide) (by decide)⟩

/-- C27 as stated fails: under a schema that compares its keys as `Sint32` values, the index
over byte-string keys that holds the keys of `1` and `-1` yields the bytes `01 00 00 00` of `1`
before the bytes `ff ff ff ff` of `-1`, and `compareData` of the earlier with the later key is
`1`, not `<= 0`. -/
theorem writable_index_string_keys_order_counterexample :
    ((MockWritableIndex.empty : MockWritableIndex Bytes).insertAll
        [(sint32_bytes 1, 0), (sint32_bytes (-1), 1)]).bind
        (fun S => (MyIndexIter.incrementN S 2 MyIndexIter.fresh).map Prod.snd)
      = some [some (0, [1, 0, 0, 0]), some (1, [255, 255, 255, 255])] ∧
    sint32Schema.compareData [1, 0, 0, 0] [255, 255, 255, 255] = 1 ∧
    ¬ (sint32Schema.compareData [1, 0, 0, 0] [255, 255, 255, 255] ≤ 0) := by
  decide

/-! ## Probes of a writable index -/

theorem set_lower_bound_le {Key : Type} [LinearOrder Key] (x : Key × Int)
    (l : List (Key × Int)) : set_lower_bound x l ≤ l.length := by
  unfold set_lower_bound
  have h := congrArg List.length (List.takeWhile_append_dropWhile (fun y => pair_less y x) l)
  rw [List.length_append] at h
  omega

theorem set_lower_bound_drop {Key : Type} [LinearOrder Key] (x : Key × Int)
    (l : List (Key × Int)) :
    l.drop (set_lower_bound x l) = l.dropWhile (fun y => pair_less y x) := by
  unfold set_lower_bound
  induction l with
  | nil => rfl
  | cons a t ih =>
    by_cases hp : pair_less a x = true
    · simp only [List.takeWhile_cons, List.dropWhile_cons, hp, if_true, List.length_cons,
        List.drop_succ_cons]
      exact ih
    · simp only [List.takeWhile_cons, List.dropWhile_cons, hp, if_false, Bool.false_eq_true,
        List.length_nil, List.drop_zero]

theorem pair_less_probe_iff {Key : Type} [LinearOrder Key] (e : Key × Int) (k : Key)
    (he : 0 ≤ e.2) : pair_less e (k, 0) = true ↔ ¬ k ≤ e.1 := by
  rw [pair_less_iff, not_le]
  constructor
  · rintro (h | ⟨-, h⟩)
    · exact h
    · exact absurd h (not_lt.2 he)
  · intro h
    exact Or.inl h

theorem dropWhile_probe_eq_filter {Key : Type} [LinearOrder Key] (k : Key)
    (l : List (Key × Int)) (hS : SetOrdered l) (hids : ∀ e ∈ l, 0 ≤ e.2) :
    l.dropWhile (fun y => pair_less y (k, 0)) = l.filter (fun e => decide (k ≤ e.1)) := by
  induction l with
  | nil => rfl
  | cons a t ih =>
    have ha := List.pairwise_cons.1 hS
    have hpr := pair_less_probe_iff a k (hids a (List.mem_cons_self _ _))
    by_cases hp : pair_less a (k, 0) = true
    · have hk : ¬ k ≤ a.1 := hpr.1 hp
      rw [List.filter_cons_of_neg (by simpa using hk)]
      simp only [List.dropWhile_cons, hp, if_true]
      exact ih ha.2 (fun e he => hids e (List.mem_cons_of_mem _ he))
    · have hk : k ≤ a.1 := by
        by_contra hc
        exact hp (hpr.2 hc)
      rw [List.filter_cons_of_pos (by simpa using hk)]
      simp only [List.dropWhile_cons, hp, if_false, Bool.false_eq_true]
      congr 1
      symm
      rw [List.filter_eq_self]
      intro b hb
      have hab := (pair_less_iff a b).1 (ha.1 b hb)
      have : a.1 ≤ b.1 := by
        rcases hab with h | ⟨h, -⟩
        · exact le_of_lt h
        · exact le_of_eq h
      simpa using le_trans hk this

theorem set_lower_bound_probe {Key : Type} [LinearOrder Key] (k : Key)
    (l : List (Key × Int)) (hS : SetOrdered l) (hids : ∀ e ∈ l, 0 ≤ e.2) :
    l.drop (set_lower_bound (k, 0) l) = l.filter (fun e => decide (k ≤ e.1)) := by
  rw [set_lower_bound_drop, dropWhile_probe_eq_filter k l hS hids]

/-- The element at the lower bound of a probe key: it exists and has the probe key exactly
when some entry has this key, and then it has the smallest id among the entries with this
key. -/
theorem set_lower_bound_hit {Key : Type} [LinearOrder Key] (k : Key)
    (l : List (Key × Int)) (hS : SetOrdered l) (hids : ∀ e ∈ l, 0 ≤ e.2) :
    ((∃ e, l[set_lower_bound (k, 0) l]? = some e ∧ e.1 = k) ↔ ∃ e ∈ l, e.1 = k) ∧
    (∀ e, l[set_lower_bound (k, 0) l]? = some e → e.1 = k →
      ∀ e' ∈ l, e'.1 = k → e.2 ≤ e'.2) := by
  have hdrop := set_lower_bound_probe k l hS hids
  have hsub : SetOrdered (l.drop (set_lower_bound (k, 0) l)) :=
    List.Pairwise.sublist (List.drop_sublist _ _) hS
  have hhead : ∀ e, l[set_lower_bound (k, 0) l]? = some e →
      ∃ t, l.drop (set_lower_bound (k, 0) l) = e :: t := by
    intro e he
    have hlt : set_lower_bound (k, 0) l < l.length := by
      by_contra hc
      rw [List.getElem?_eq_none (by omega)] at he
      exact Option.noConfusion he
    rw [List.getElem?_eq_getElem hlt] at he
    exact ⟨_, by rw [List.drop_eq_getElem_cons hlt, Option.some.inj he]⟩
  have hsmall : ∀ e, l[set_lower_bound (k, 0) l]? = some e →
      ∀ e' ∈ l, k ≤ e'.1 → e = e' ∨ pair_less e e' = true := by
    intro e he e' he' hk
    obtain ⟨t, ht⟩ := hhead e he
    have hmem : e' ∈ l.drop (set_lower_bound (k, 0) l) := by
      rw [hdrop, List.mem_filter]
      exact ⟨he', by simpa using hk⟩
    rw [ht] at hmem hsub
    rcases List.mem_cons.1 hmem with h | h
    · exact Or.inl h.symm
    · exact Or.inr ((List.pairwise_cons.1 hsub).1 e' h)
  refine ⟨⟨?_, ?_⟩, ?_⟩
  · rintro ⟨e, he, hk⟩
    exact ⟨e, List.getElem?_mem he, hk⟩
  · rintro ⟨e', he', hk'⟩
    have hmem : e' ∈ l.drop (set_lower_bound (k, 0) l) := by
      rw [hdrop, List.mem_filter]
      exact ⟨he', by simpa using le_of_eq hk'.symm⟩
    have hlt : set_lower_bound (k, 0) l < l.length := by
      by_contra hc
      rw [List.drop_eq_nil_of_le (by omega)] at hmem
      exact List.not_mem_nil _ hmem
    refine ⟨l[set_lower_bound (k, 0) l], List.getElem?_eq_getElem hlt, ?_⟩
    have hge : k ≤ (l[set_lower_bound (k, 0) l]).1 := by
      have hm : l[set_lower_bound (k, 0) l] ∈ l.drop (set_lower_bound (k, 0) l) := by
        rw [List.drop_eq_getElem_cons hlt]
        exact List.mem_cons_self _ _
      rw [hdrop, List.mem_filter] at hm
      simpa using hm.2
    rcases hsmall _ (List.getElem?_eq_getElem hlt) e' he' (le_of_eq hk'.symm) with h | h
    · rw [h]; exact hk'
    · rcases (pair_less_iff _ _).1 h with h1 | ⟨h1, -⟩
      · rw [hk'] at h1
        exact absurd hge (not_le.2 h1)
      · rw [h1]; exact hk'
  · intro e he hk e' he' hk'
    rcases hsmall e he e' he' (le_of_eq hk'.symm) with h | h
    · rw [h]
    · rcases (pair_less_iff _ _).1 h with h1 | ⟨-, h1⟩
      · rw [hk, hk'] at h1
        exact absurd h1 (lt_irrefl _)
      · exact le_of_lt h1

theorem MyIndexIter.seekLowerBound_of_get {Key : Type} [KeyOrder Key] [IndexKey Key]
    (owner : MockWritableIndex Key) (key : Bytes) (k : Key)
    (hk : IndexKey.makeKey key = some k) (it : MyIndexIter) (e : Key × Int)
    (hget : owner.m_kv[set_lower_bound (k, (0 : Int)) owner.m_kv]? = some e) :
    MyIndexIter.seekLowerBound owner key it
      = some ({ m_iter := set_lower_bound (k, (0 : Int)) owner.m_kv, m_isNull := false },
          KeyOrder.equal e.1 k) := by
  simp only [MyIndexIter.seekLowerBound, hk, hget]

theorem MyIndexIter.seekLowerBound_of_end {Key : Type} [KeyOrder Key] [IndexKey Key]
    (owner : MockWritableIndex Key) (key : Bytes) (k : Key)
    (hk : IndexKey.makeKey key = some k) (it : MyIndexIter)
    (hget : owner.m_kv[set_lower_bound (k, (0 : Int)) owner.m_kv]? = none) :
    MyIndexIter.seekLowerBound owner key it
      = some ({ m_iter := set_lower_bound (k, (0 : Int)) owner.m_kv, m_isNull := false },
          false) := by
  simp only [MyIndexIter.seekLowerBound, hk, hget]

theorem MyIndexIter.seekExact_of_get {Key : Type} [KeyOrder Key] [IndexKey Key]
    (owner : MockWritableIndex Key) (key : Bytes) (k : Key)
    (hk : IndexKey.makeKey key = some k) (it : MyIndexIter) (e : Key × Int)
    (hget : owner.m_kv[set_lower_bound (k, (0 : Int)) owner.m_kv]? = some e) :
    MyIndexIter.seekExact owner key it
      = if KeyOrder.equal e.1 k then
          some ({ m_iter := set_lower_bound (k, (0 : Int)) owner.m_kv, m_isNull := false }, true)
        else some (it, false) := by
  simp only [MyIndexIter.seekExact, hk, hget]

theorem MyIndexIter.seekExact_of_end {Key : Type} [KeyOrder Key] [IndexKey Key]
    (owner : MockWritableIndex Key) (key : Bytes) (k : Key)
    (hk : IndexKey.makeKey key = some k) (it : MyIndexIter)
    (hget : owner.m_kv[set_lower_bound (k, (0 : Int)) owner.m_kv]? = none) :
    MyIndexIter.seekExact owner key it = some (it, false) := by
  simp only [MyIndexIter.seekExact, hk, hget]

theorem KeyOrder.equal_iff {Key : Type} [LinearOrder Key] (a b : Key) :
    KeyOrder.equal a b = true ↔ a = b := by
  show decide (a = b) = true ↔ a = b
  exact decide_eq_true_iff

/-- C28, as amended: for a `MockWritableIndex` over a key type on which `<` is a linear order
(`std::string` and the integer types; its set in ascending order) whose ids are all
non-negative, and every probe key of the size of the key type: `seekLowerBound` and `seekExact`
return `true` if and only if some entry has the probe key; after `seekLowerBound` the next
calls of `increment` yield exactly the entries whose key is at least the probe key, in the
ascending order of the set, and then `false`; after a `seekExact` that returned `true` the next
`increment` yields the entry that has the probe key and the smallest id. -/
theorem writable_index_seek_range_scan {Key : Type} [LinearOrder Key] [IndexKey Key]
    (owner : MockWritableIndex Key) (hS : SetOrdered owner.m_kv)
    (hids : ∀ e ∈ owner.m_kv, 0 ≤ e.2) (key : Bytes) (k : Key)
    (hk : IndexKey.makeKey key = some k) (it : MyIndexIter) (n : Nat) :
    ∃ itL bL itE bE,
      MyIndexIter.seekLowerBound owner key it = some (itL, bL) ∧
      MyIndexIter.seekExact owner key it = some (itE, bE) ∧
      (bL = true ↔ ∃ e ∈ owner.m_kv, e.1 = k) ∧
      (bE = true ↔ ∃ e ∈ owner.m_kv, e.1 = k) ∧
      (MyIndexIter.incrementN owner
          ((owner.m_kv.filter (fun e => decide (k ≤ e.1))).length + n) itL).map Prod.snd
        = some ((owner.m_kv.filter (fun e => decide (k ≤ e.1))).map
              (fun kv => some (kv.2, IndexKey.copyKey kv.1))
            ++ List.replicate n none) ∧
      (bE = true →
        ∃ e it1, e ∈ owner.m_kv ∧ e.1 = k ∧
          (∀ e1 ∈ owner.m_kv, e1.1 = k → e.2 ≤ e1.2) ∧
          MyIndexIter.increment owner itE = some (it1, some (e.2, IndexKey.copyKey e.1))) := by
  obtain ⟨hhit, hmin⟩ := set_lower_bound_hit k owner.m_kv hS hids
  have hdrop := set_lower_bound_probe k owner.m_kv hS hids
  have hle := set_lower_bound_le (k, (0 : Int)) owner.m_kv
  have hlen : (owner.m_kv.filter (fun e => decide (k ≤ e.1))).length
      = owner.m_kv.length - set_lower_bound (k, (0 : Int)) owner.m_kv := by
    rw [← hdrop, List.length_drop]
  have hscan : (MyIndexIter.incrementN owner
      ((owner.m_kv.filter (fun e => decide (k ≤ e.1))).length + n)
      { m_iter := set_lower_bound (k, (0 : Int)) owner.m_kv, m_isNull := false }).map Prod.snd
      = some ((owner.m_kv.filter (fun e => decide (k ≤ e.1))).map
            (fun kv => some (kv.2, IndexKey.copyKey kv.1))
          ++ List.replicate n none) := by
    rw [hlen, MyIndexIter.incrementN_at owner n _ _ (by omega), hdrop]
    rfl
  cases hget : owner.m_kv[set_lower_bound (k, (0 : Int)) owner.m_kv]? with
  | none =>
    have hno : ¬ ∃ e ∈ owner.m_kv, e.1 = k := by
      rw [← hhit]
      rintro ⟨e, he, -⟩
      rw [hget] at he
      exact Option.noConfusion he
    refine ⟨_, false, it, false, MyIndexIter.seekLowerBound_of_end owner key k hk it hget,
      MyIndexIter.seekExact_of_end owner key k hk it hget,
      ⟨fun h => absurd h Bool.false_ne_true, fun h => absurd h hno⟩,
      ⟨fun h => absurd h Bool.false_ne_true, fun h => absurd h hno⟩, hscan,
      fun h => absurd h Bool.false_ne_true⟩
  | some e =>
    have hlt : set_lower_bound (k, (0 : Int)) owner.m_kv < owner.m_kv.length := by
      by_contra hc
      rw [List.getElem?_eq_none (by omega)] at hget
      exact Option.noConfusion hget
    have hL := MyIndexIter.seekLowerBound_of_get owner key k hk it e hget
    have hE := MyIndexIter.seekExact_of_get owner key k hk it e hget
    by_cases hek : e.1 = k
    · have heq : KeyOrder.equal e.1 k = true := (KeyOrder.equal_iff _ _).2 hek
      rw [heq] at hL
      rw [heq, if_pos rfl] at hE
      have hex : ∃ e ∈ owner.m_kv, e.1 = k := ⟨e, List.getElem?_mem hget, hek⟩
      refine ⟨_, true, _, true, hL, hE, ⟨fun _ => hex, fun _ => rfl⟩,
        ⟨fun _ => hex, fun _ => rfl⟩, hscan, fun _ => ?_⟩
      refine ⟨e, ⟨set_lower_bound (k, (0 : Int)) owner.m_kv + 1, false⟩,
        List.getElem?_mem hget, hek, hmin e hget hek, ?_⟩
      simp only [MyIndexIter.increment, Bool.false_eq_true, if_false, ne_eq,
        Nat.ne_of_gt hlt, not_false_eq_true, if_true, hget]
    · have heq : KeyOrder.equal e.1 k = false := by
        rw [Bool.eq_false_iff, ne_eq, KeyOrder.equal_iff]
        exact hek
      rw [heq] at hL
      rw [heq, if_neg Bool.false_ne_true] at hE
      have hno : ¬ ∃ e ∈ owner.m_kv, e.1 = k := by
        rw [← hhit]
        rintro ⟨e1, he1, hk1⟩
        rw [hget] at he1
        rw [← Option.some.inj he1] at hk1
        exact hek hk1
      refine ⟨_, false, it, false, hL, hE,
        ⟨fun h => absurd h Bool.false_ne_true, fun h => absurd h hno⟩,
        ⟨fun h => absurd h Bool.false_ne_true, fun h => absurd h hno⟩, hscan,
        fun h => absurd h Bool.false_ne_true⟩

theorem writable_index_seek_range_scan_witness :
    SetOrdered sampleWritableIndex.m_kv ∧
    (∀ e ∈ sampleWritableIndex.m_kv, 0 ≤ e.2) ∧
    (IndexKey.makeKey [97, 0] : Option Bytes) = some [97, 0] ∧
    MyIndexIter.seekLowerBound sampleWritableIndex [98] MyIndexIter.fresh
      = some ({ m_iter := 1, m_isNull := false }, true) ∧
    MyIndexIter.seekExact sampleWritableIndex [97, 0] MyIndexIter.fresh
      = some (MyIndexIter.fresh, false) ∧
    (MyIndexIter.incrementN sampleWritableIndex 2 { m_iter := 1, m_isNull := false }).map
        Prod.snd = some [some (1, [98]), none] ∧
    ∃ itL bL itE bE,
      MyIndexIter.seekLowerBound sampleWritableIndex [97, 0] MyIndexIter.fresh
        = some (itL, bL) ∧
      MyIndexIter.seekExact sampleWritableIndex [97, 0] MyIndexIter.fresh = some (itE, bE) ∧
      (bL = true ↔ ∃ e ∈ sampleWritableIndex.m_kv, e.1 = ([97, 0] : Bytes)) ∧
      (bE = true ↔ ∃ e ∈ sampleWritableIndex.m_kv, e.1 = ([97, 0] : Bytes)) ∧
      (MyIndexIter.incrementN sampleWritableIndex
          ((sampleWritableIndex.m_kv.filter
            (fun e => decide (([97, 0] : Bytes) ≤ e.1))).length + 1) itL).map Prod.snd
        = some ((sampleWritableIndex.m_kv.filter
              (fun e => decide (([97, 0] : Bytes) ≤ e.1))).map
              (fun kv => some (kv.2, IndexKey.copyKey kv.1))
            ++ List.replicate 1 none) ∧
      (bE = true →
        ∃ e it1, e ∈ sampleWritableIndex.m_kv ∧ e.1 = ([97, 0] : Bytes) ∧
          (∀ e1 ∈ sampleWritableIndex.m_kv, e1.1 = ([97, 0] : Bytes) → e.2 ≤ e1.2) ∧
          MyIndexIter.increment sampleWritableIndex itE
            = some (it1, some (e.2, IndexKey.copyKey e.1))) :=
  ⟨by decide, by decide, rfl, by decide, by decide, by decide,
    writable_index_seek_range_scan sampleWritableIndex (by decide) (by decide) [97, 0] [97, 0]
      rfl MyIndexIter.fresh 1⟩

/-- C28 as stated fails on an index over `float` keys whose ids are all non-negative.  The
index made by `insert(NaN, 5)`, `insert(7.0, 9)`, `insert(8.0, 2)` holds an entry with the key
`7.0`, yet `seekExact(7.0)` and `seekLowerBound(7.0)` return `false`: the lower bound of
`(7.0, 0)` is the first entry `(8.0, 2)`, and the increments that follow `seekLowerBound(7.0)`
yield `8.0`, `NaN`, `7.0`.  On the index that holds only `(NaN, 1)`, `seekExact` with the bytes
of this NaN returns `false`, because a NaN is not equal to itself. -/
theorem writable_index_seek_nan_counterexample :
    (∀ e ∈ nanScanIndex.m_kv, 0 ≤ e.2) ∧
    (IndexKey.makeKey [0, 0, 224, 64] : Option Float32) = some float_7 ∧
    (float_7, (9 : Int)) ∈ nanScanIndex.m_kv ∧
    MyIndexIter.seekExact nanScanIndex [0, 0, 224, 64] MyIndexIter.fresh
      = some (MyIndexIter.fresh, false) ∧
    MyIndexIter.seekLowerBound nanScanIndex [0, 0, 224, 64] MyIndexIter.fresh
      = some ({ m_iter := 0, m_isNull := false }, false) ∧
    (MyIndexIter.incrementN nanScanIndex 4 { m_iter := 0, m_isNull := false }).map Prod.snd
      = some [some (2, [0, 0, 0, 65]), some (5, [0, 0, 192, 127]), some (9, [0, 0, 224, 64]),
          none] ∧
    (IndexKey.makeKey [0, 0, 192, 127] : Option Float32) = some float_nan ∧
    MyIndexIter.seekExact nanWritableIndex [0, 0, 192, 127] MyIndexIter.fresh
      = some (MyIndexIter.fresh, false) := by
  decide

/-! ## The key type of a writable index -/

/-- C29: `MockWritableSegment::createIndex` returns for every schema, and the key type of the
index it creates is primitive if and only if the schema has exactly one column and the type of
this column is one of `Uint08`, `Sint08`, `Uint16`, `Sint16`, `Uint32`, `Sint32`, `Uint64`,
`Sint64`, `Float32`, `Float64`; the primitive key type then has the width and the kind (signed,
unsigned, floating) of the column type; in every other case the key is a byte string. -/
theorem createIndex_key_type (schema : Schema) :
    ∃ kt, MockWritableSegment.createIndex schema = some kt ∧
      (kt ≠ KeyType.std_string ↔
        ∃ cm, schema.m_columnsMeta = [cm] ∧ cm.type ∈ primitiveColumnTypes) ∧
      (kt ≠ KeyType.std_string →
        ∃ cm, schema.m_columnsMeta = [cm] ∧ kt.number = cm.type.number) ∧
      (kt = KeyType.std_string ↔
        (schema.columnNum ≠ 1 ∨
          ∃ cm, schema.m_columnsMeta = [cm] ∧
            cm.type ∈ [ColumnType.Uint128, ColumnType.Sint128, ColumnType.Float128,
              ColumnType.Uuid, ColumnType.Fixed, ColumnType.StrZero, ColumnType.StrUtf8,
              ColumnType.Binary])) := by
  obtain ⟨fl, cmp, cols⟩ := schema
  match cols with
  | [] =>
    refine ⟨KeyType.std_string, rfl, ?_, ?_, ?_⟩
    · simp
    · intro h; exact absurd rfl h
    · simp [Schema.columnNum]
  | [cm] =>
    obtain ⟨cfl, ty, ord⟩ := cm
    cases ty <;>
      simp [MockWritableSegment.createIndex, Schema.columnNum, Schema.getColumnMeta,
        primitiveColumnTypes, KeyType.number, ColumnType.number]
  | c1 :: c2 :: rest =>
    refine ⟨KeyType.std_string, ?_, ?_, ?_, ?_⟩
    · simp [MockWritableSegment.createIndex, Schema.columnNum]
    · simp
    · intro h; exact absurd rfl h
    · simp [Schema.columnNum]

/-! ## The in-place conversion to packed offsets -/

/-- C30: the index buffer of a sortable string vector is the array of its `3 * rows` `u32`
words, entry `i` in the words `3i..3i+2`, offset first.  For every `rows >= 1` the in-place
loop of `build` returns, and the first `rows + 1` words of the buffer afterwards are the offset
array that copying into a fresh array gives; when the loop reads the offset of entry `i`, after
`i` iterations, word `3i` still holds this offset; and the write at index `rows` lies inside
the buffer. -/
theorem build_in_place_offsets_refine_fresh_copy (data : SortableStrVec)
    (h : 1 ≤ data.m_index.length) :
    (∃ w, reuseIndexAsOffsets data = .ok w ∧ w.length = 3 * data.m_index.length ∧
      w.take (data.m_index.length + 1) = freshOffsets data) ∧
    (∀ i, i < data.m_index.length →
      ∃ wi, copyOffsets i 0 (indexWords data.m_index) = some wi ∧
        wi[3 * i]? = (data.m_index[i]?).map SEntry.offset) ∧
    data.m_index.length < (indexWords data.m_index).length := by
  have hwl := indexWords_length data.m_index
  refine ⟨?_, ?_, by omega⟩
  · obtain ⟨w, hw, htake⟩ := reuseIndexAsOffsets_ok data h
    refine ⟨w, hw, ?_, htake⟩
    obtain ⟨w', h1, h2, -⟩ := copyOffsets_spec data.m_index.length 0
      (indexWords data.m_index) (by intro j _ hj; rw [hwl]; omega)
    have hlen : data.m_index.length < w'.length := by rw [h2, hwl]; omega
    have hw2 : reuseIndexAsOffsets data
        = .ok (w'.set data.m_index.length (u32 data.str_size)) := by
      unfold reuseIndexAsOffsets
      simp only [h1, hlen, if_true]
    rw [hw2] at hw
    rw [← Except.ok.inj hw, List.length_set, h2, hwl]
  · intro i hi
    obtain ⟨wi, h1, -, -, -, h5⟩ := copyOffsets_spec i 0 (indexWords data.m_index)
      (by intro j _ hj; rw [hwl]; omega)
    refine ⟨wi, h1, ?_⟩
    rw [h5 (3 * i) (by omega), indexWords_getElem?]

theorem build_in_place_offsets_refine_fresh_copy_witness :
    1 ≤ (SortableStrVec.ofRecords sampleRecords).m_index.length ∧
    (∃ w, reuseIndexAsOffsets (SortableStrVec.ofRecords sampleRecords) = .ok w ∧
      w.length = 3 * (SortableStrVec.ofRecords sampleRecords).m_index.length ∧
      w.take ((SortableStrVec.ofRecords sampleRecords).m_index.length + 1)
        = freshOffsets (SortableStrVec.ofRecords sampleRecords)) ∧
    freshOffsets (SortableStrVec.ofRecords sampleRecords) = [0, 2, 3, 6] ∧
    reuseIndexAsOffsets (SortableStrVec.ofRecords sampleRecords)
      = .ok [0, 2, 3, 6, 1, 1, 3, 3, 2] :=
  ⟨by decide,
    (build_in_place_offsets_refine_fresh_copy (SortableStrVec.ofRecords sampleRecords)
      (by decide)).1,
    by decide, rfl⟩

/-! ## `Schema::StrZeroSaver` and `Schema::StrZeroLoader` -/

theorem strnlen_self_cons (c : Nat) (t : Bytes) :
    strnlen (c :: t) (c :: t).length = if c = 0 then 0 else strnlen t t.length + 1 := by
  unfold strnlen
  by_cases hc : c = 0
  · simp [hc]
  · simp [hc, List.takeWhile_cons]

theorem strnlen_self_le (x : Bytes) : strnlen x x.length ≤ x.length := by
  unfold strnlen
  rw [List.take_length]
  have h := congrArg List.length (List.takeWhile_append_dropWhile (fun c => c != 0) x)
  rw [List.length_append] at h
  omega

theorem strnlen_eq_length_iff (x : Bytes) : strnlen x x.length = x.length ↔ 0 ∉ x := by
  induction x with
  | nil => simp [strnlen]
  | cons c t ih =>
    rw [strnlen_self_cons]
    by_cases hc : c = 0
    · simp [hc]
    · simp only [hc, if_false, List.length_cons, Nat.add_right_cancel_iff, ih, List.mem_cons,
        not_or]
      exact ⟨fun h => ⟨fun h0 => hc h0.symm, h⟩, fun h => h.2⟩

theorem strnlen_no_embedded_iff (x : Bytes) :
    (strnlen x x.length = x.length ∨ strnlen x x.length + 1 = x.length) ↔ ¬ EmbeddedZero x := by
  unfold EmbeddedZero
  induction x with
  | nil => simp [strnlen]
  | cons c t ih =>
    have hle := strnlen_self_le t
    rw [strnlen_self_cons]
    cases t with
    | nil =>
      by_cases hc : c = 0 <;> simp [hc, strnlen]
    | cons d u =>
      rw [List.dropLast_cons₂]
      by_cases hc : c = 0
      · simp [hc]
      · simp only [hc, if_false, List.length_cons, Nat.add_right_cancel_iff, List.mem_cons,
          not_or] at ih ⊢
        rw [ih]
        exact ⟨fun h => ⟨fun h0 => hc h0.symm, h⟩, fun h => h.2⟩

theorem getLast?_eq_zero_iff (x : Bytes) (hx : ¬ EmbeddedZero x) :
    x.getLast? = some 0 ↔ 0 ∈ x := by
  unfold EmbeddedZero at hx
  rcases List.eq_nil_or_concat x with rfl | ⟨l, a, rfl⟩
  · simp
  · rw [List.concat_eq_append] at hx ⊢
    rw [List.dropLast_concat] at hx
    rw [List.getLast?_concat, List.mem_append]
    simp only [Option.some.injEq, List.mem_singleton]
    constructor
    · intro h; exact Or.inr h.symm
    · rintro (h | h)
      · exact absurd h hx
      · exact h.symm

theorem terark_save_eq (dio x : Bytes) :
    terark.StrZeroSaver.DataIO_saveObject dio x
      = if EmbeddedZero x then (dio ++ x, SaveOutcome.invalid_argument)
        else (dio ++ strZeroBytes x, SaveOutcome.returned) := by
  unfold terark.StrZeroSaver.DataIO_saveObject
  by_cases h0 : x.length = 0
  · have hx : x = [] := List.length_eq_zero.1 h0
    subst hx
    simp [EmbeddedZero, strZeroBytes]
  · simp only [h0, if_false, strnlen_no_embedded_iff, not_not]
    by_cases he : EmbeddedZero x
    · simp only [he, if_true]
    · simp only [he, if_false]
      have hlast := getLast?_eq_zero_iff x he
      have hlen := strnlen_eq_length_iff x
      unfold strZeroBytes
      by_cases hz : (0 : Nat) ∈ x
      · have hne : ¬ x.length = strnlen x x.length := fun h => (hlen.1 h.symm) hz
        simp only [hne, if_false, hlast.2 hz, if_true, List.append_nil]
      · have heq : x.length = strnlen x x.length := (hlen.2 hz).symm
        have hl : ¬ x.getLast? = some 0 := fun h => hz (hlast.1 h)
        rw [if_pos heq, if_neg hl, List.append_assoc]

theorem nark_save_eq (dio x : Bytes) :
    nark.StrZeroSaver.DataIO_saveObject dio x = (dio ++ strZeroBytes x, SaveOutcome.returned) := by
  unfold nark.StrZeroSaver.DataIO_saveObject strZeroBytes
  by_cases h0 : x.length = 0
  · have hx : x = [] := List.length_eq_zero.1 h0
    subst hx
    simp
  · by_cases hl : x.getLast? = some 0
    · simp [h0, hl]
    · simp [h0, hl]

/-- C31, as amended: `Schema::StrZeroSaver` of `terark/db/db_conf.hpp` fails with
`invalid_argument` for exactly the values that contain a zero byte at a position other than the
last, after it has written all bytes of the value to the output (and no terminator);
`Schema::StrZeroSaver` of `nark/db/db_conf.hpp` never fails. -/
theorem strZeroSaver_rejects_embedded_zero_after_write (dio x : Bytes) :
    ((terark.StrZeroSaver.DataIO_saveObject dio x).2 = SaveOutcome.invalid_argument ↔
      EmbeddedZero x) ∧
    ((terark.StrZeroSaver.DataIO_saveObject dio x).2 = SaveOutcome.invalid_argument →
      (terark.StrZeroSaver.DataIO_saveObject dio x).1 = dio ++ x) ∧
    (nark.StrZeroSaver.DataIO_saveObject dio x).2 = SaveOutcome.returned := by
  rw [terark_save_eq, nark_save_eq]
  by_cases he : EmbeddedZero x
  · simp [he]
  · simp [he]

/-- C31 as stated fails: saving the value `61 00 62`, which has an embedded zero, to an empty
output with the saver of `terark/db/db_conf.hpp` fails with `invalid_argument` when the three
bytes of the value are already in the output; with the saver of `nark/db/db_conf.hpp` it does
not fail and writes the value and a terminator. -/
theorem strZeroSaver_embedded_zero_counterexample :
    EmbeddedZero [97, 0, 98] ∧
    terark.StrZeroSaver.DataIO_saveObject [] [97, 0, 98]
      = ([97, 0, 98], SaveOutcome.invalid_argument) ∧
    nark.StrZeroSaver.DataIO_saveObject [] [97, 0, 98]
      = ([97, 0, 98, 0], SaveOutcome.returned) := by
  decide

theorem strZeroLoader_body (body : Bytes) (hb : 0 ∉ body) : ∀ (str rest : Bytes),
    StrZeroLoader.DataIO_loadObject str (body ++ 0 :: rest)
      = some (str ++ body ++ [0], rest) := by
  induction body with
  | nil =>
    intro str rest
    simp [StrZeroLoader.DataIO_loadObject]
  | cons c t ih =>
    intro str rest
    have hc : c ≠ 0 := fun h => hb (h ▸ List.mem_cons_self _ _)
    have ht : 0 ∉ t := fun h => hb (List.mem_cons_of_mem _ h)
    show StrZeroLoader.DataIO_loadObject str (c :: (t ++ 0 :: rest)) = _
    rw [StrZeroLoader.DataIO_loadObject, if_pos hc, ih ht]
    simp

theorem strZeroBytes_split (x : Bytes) (hx : ¬ EmbeddedZero x) :
    ∃ body, 0 ∉ body ∧ strZeroBytes x = body ++ [0] := by
  unfold strZeroBytes
  by_cases hl : x.getLast? = some 0
  · rcases List.eq_nil_or_concat x with rfl | ⟨l, a, rfl⟩
    · simp at hl
    · rw [List.concat_eq_append] at hx hl ⊢
      rw [List.getLast?_concat] at hl
      have ha : a = 0 := Option.some.inj hl
      subst ha
      unfold EmbeddedZero at hx
      rw [List.dropLast_concat] at hx
      exact ⟨l, hx, by simp⟩
  · refine ⟨x, fun h => hl ((getLast?_eq_zero_iff x hx).2 h), ?_⟩
    simp [hl]

/-- C32: for every value without an embedded zero byte, `Schema::StrZeroSaver` (in both headers)
returns and appends to the output the bytes of the value followed by a zero terminator that is
added if and only if the value does not end in a zero byte (an empty value gives the single
byte `0`); what it wrote holds exactly one zero byte, its last; and `StrZeroLoader` on an input
that starts with these bytes returns, consumes exactly them and appends them, terminator
included, to the target string. -/
theorem strZeroSaver_loader_roundtrip (x : Bytes) (hx : ¬ EmbeddedZero x)
    (dio str rest : Bytes) :
    terark.StrZeroSaver.DataIO_saveObject dio x
      = (dio ++ x ++ (if x.getLast? = some 0 then [] else [0]), SaveOutcome.returned) ∧
    nark.StrZeroSaver.DataIO_saveObject dio x
      = (dio ++ x ++ (if x.getLast? = some 0 then [] else [0]), SaveOutcome.returned) ∧
    (x = [] → strZeroBytes x = [0]) ∧
    (strZeroBytes x).count 0 = 1 ∧
    (strZeroBytes x).getLast? = some 0 ∧
    StrZeroLoader.DataIO_loadObject str (strZeroBytes x ++ rest)
      = some (str ++ strZeroBytes x, rest) := by
  obtain ⟨body, hb, hsplit⟩ := strZeroBytes_split x hx
  refine ⟨?_, ?_, ?_, ?_, ?_, ?_⟩
  · rw [terark_save_eq, if_neg hx, strZeroBytes, List.append_assoc]
  · rw [nark_save_eq, strZeroBytes, List.append_assoc]
  · intro h
    subst h
    rfl
  · rw [hsplit, List.count_append, List.count_eq_zero_of_not_mem hb]
    rfl
  · rw [hsplit, List.getLast?_concat]
  · rw [hsplit, List.append_assoc, List.singleton_append, strZeroLoader_body body hb,
      List.append_assoc]

theorem strZeroSaver_loader_roundtrip_witness :
    ¬ EmbeddedZero [97, 98] ∧ ¬ EmbeddedZero [97, 0] ∧
    terark.StrZeroSaver.DataIO_saveObject [7] [97, 98] = ([7, 97, 98, 0], SaveOutcome.returned) ∧
    terark.StrZeroSaver.DataIO_saveObject [7] [97, 0] = ([7, 97, 0], SaveOutcome.returned) ∧
    StrZeroLoader.DataIO_loadObject [1] (strZeroBytes [97, 98] ++ [5, 6])
      = some ([1] ++ strZeroBytes [97, 98], [5, 6]) ∧
    (strZeroBytes [97, 0]).count 0 = 1 :=
  ⟨by decide, by decide, by decide, by decide,
    (strZeroSaver_loader_roundtrip [97, 98] (by decide) [7] [1] [5, 6]).2.2.2.2.2,
    (strZeroSaver_loader_roundtrip [97, 0] (by decide) [7] [1] [5, 6]).2.2.2.1⟩

/-! ## The counter `m_dataSize` of the writable segment -/

theorem row_length_le_livePayload (rows : List Bytes) (id : Nat) (h : id < rows.length) :
    rows[id].length ≤ livePayload rows := by
  have := livePayload_set rows [] id h
  simp only [List.length_nil, Nat.add_zero] at this
  omega

/-- C33: starting from the empty `MockWritableSegment` with `m_dataSize = 0`, after every
sequence of `append`, `replace` and `remove` calls `m_dataSize` is the sum of the lengths of the
rows that are stored; it is not negative, the length that `replace` or `remove` subtracts for a
slot is never more than `m_dataSize`, and a second `remove(id)` after `remove(id)` changes
nothing. -/
theorem writable_segment_dataSize_invariant (ops : List StoreOp) (t : MockWritableSegment)
    (ids : List Nat) (h : MockWritableSegment.empty.run ops = some (t, ids)) :
    t.m_dataSize = livePayload t.m_rows ∧
    0 ≤ t.m_dataSize ∧
    (∀ id (hid : id < t.m_rows.length), (t.m_rows[id].length : Int) ≤ t.m_dataSize) ∧
    (∀ id t1, t.remove id = some t1 →
      t1.m_dataSize = livePayload t1.m_rows ∧ t1.remove id = some t1) := by
  have hinv : t.m_dataSize = livePayload t.m_rows :=
    (MockWritableSegment.segment_run_rows ops _ t ids h).2.2 rfl
  refine ⟨hinv, by rw [hinv]; exact Int.natCast_nonneg _, ?_, ?_⟩
  · intro id hid
    rw [hinv]
    exact_mod_cast row_length_le_livePayload t.m_rows id hid
  · intro id t1 hrem
    unfold MockWritableSegment.remove at hrem
    split at hrem
    · rename_i hlt
      have ht1 := (Option.some.inj hrem).symm
      have hset := livePayload_set t.m_rows [] id hlt
      simp only [List.length_nil, Nat.add_zero] at hset
      have hrows : t1.m_rows = t.m_rows.set id [] := by rw [ht1]
      have hsize : t1.m_dataSize = t.m_dataSize - (t.m_rows[id].length : Int) := by rw [ht1]
      have hlt1 : id < t1.m_rows.length := by rw [hrows, List.length_set]; exact hlt
      have hrow1 : t1.m_rows[id] = [] := by
        simp only [hrows, List.getElem_set_self]
      refine ⟨?_, ?_⟩
      · rw [hsize, hinv, hrows]
        omega
      · unfold MockWritableSegment.remove
        rw [dif_pos hlt1]
        have hss : t1.m_rows.set id [] = t1.m_rows := by
          rw [hrows, List.set_set]
        simp only [hrow1, List.length_nil, Nat.cast_zero, sub_zero, hss]
    · exact Option.noConfusion hrem

theorem writable_segment_dataSize_invariant_witness :
    MockWritableSegment.empty.run
        [StoreOp.append [97, 98], StoreOp.append [99], StoreOp.replace 1 [100, 101, 102],
          StoreOp.remove 0, StoreOp.remove 0]
      = some ({ m_rows := [[], [100, 101, 102]], m_dataSize := 3 }, [0, 1]) ∧
    ({ m_rows := [[], [100, 101, 102]], m_dataSize := 3 } : MockWritableSegment).m_dataSize
      = livePayload
          ({ m_rows := [[], [100, 101, 102]], m_dataSize := 3 } : MockWritableSegment).m_rows :=
  ⟨by decide,
    (writable_segment_dataSize_invariant
      [StoreOp.append [97, 98], StoreOp.append [99], StoreOp.replace 1 [100, 101, 102],
        StoreOp.remove 0, StoreOp.remove 0]
      { m_rows := [[], [100, 101, 102]], m_dataSize := 3 } [0, 1] (by decide)).1⟩

/-! ## What a probe does to the iterator -/

/-- The index that `build` makes on a freshly constructed object under a fixed-length schema
keeps no row in its packed keys `m_keys`: no element `m_keys[id]` can be read. -/
theorem MockReadonlyIndex.build_fixed_keys (schema : Schema) (keys : SortableStrVec)
    (idx : MockReadonlyIndex) (hfix : schema.m_fixedLen ≠ 0)
    (hb : (MockReadonlyIndex.new schema).build keys = .ok idx) :
    idx.m_fixedLen ≠ 0 ∧ idx.m_keys.size = 0 ∧ ∀ id, idx.m_keys.get? id = none := by
  rcases MockReadonlyIndex.build_cases _ keys idx hb with ⟨-, rfl⟩ | ⟨hf, -⟩
  · refine ⟨hfix, rfl, ?_⟩
    intro id
    have h1 : ([0] : List Nat)[id + 1]? = none := by simp
    show (match ([0] : List Nat)[id]?, ([0] : List Nat)[id + 1]? with
      | some off0, some off1 => some (fstr keys.m_strpool off0 (size_sub off1 off0))
      | _, _ => none) = none
    rw [h1]
    cases ([0] : List Nat)[id]? <;> rfl
  · exact absurd hf hfix

/-- The probe on an index whose packed keys hold no row, as on every built fixed-length index:
when the lower bound is a row, the read of `m_keys[lo]` has no result; when it is `rows`, the
probe returns `false`. -/
theorem MockReadonlyIndexIterator.seekLowerBound_imp_fixed (owner : MockReadonlyIndex)
    (key : Bytes) (hf : owner.m_fixedLen ≠ 0) (hkeys : ∀ id, owner.m_keys.get? id = none) :
    MockReadonlyIndexIterator.seekLowerBound_imp owner key
      = if lower_bound_0 owner.m_ids owner.m_ids.length
            (fun id => decide (owner.m_schema.compareData (owner.rowKey id) key < 0))
          < owner.m_ids.length then none
        else some (lower_bound_0 owner.m_ids owner.m_ids.length
            (fun id => decide (owner.m_schema.compareData (owner.rowKey id) key < 0)),
          false) := by
  have hfun : (fun x => FixedLenKeyCompare.id_key
      { fixedLen := owner.m_fixedLen, strpool := owner.m_keys.strpool,
        schema := owner.m_schema } x key)
      = (fun id => decide (owner.m_schema.compareData (owner.rowKey id) key < 0)) := by
    funext x
    simp [FixedLenKeyCompare.id_key, MockReadonlyIndex.rowKey, hf]
  unfold MockReadonlyIndexIterator.seekLowerBound_imp
  simp only [ne_eq, hf, not_false_eq_true, if_true, hfun, hkeys]

/-- C34 fails on the code for the readonly iterator of a fixed-length index.  On every index
that `build` makes under a fixed-length schema, `seekLowerBound(key)` and `seekExact(key)` read
`m_keys[lo]` outside the packed keys whenever the lower bound `lo` of the key is a row, and have
no result: `seekLowerBound` does not reposition the iterator, and `seekExact` does not return
`false`; only a key whose lower bound is `rows` gets an answer.  What holds: whenever the calls
of the readonly iterator return, a `seekExact` that returns `false` leaves the iterator as it
was and `seekLowerBound` leaves it at the lower bound; on a variable-length index with a key for
every id both calls return; on a writable index of every key type, a `seekExact` that returns
`false` leaves the iterator as it was, and `seekLowerBound` with a key of the size of the key
type returns and leaves the iterator at the lower bound of the key in the set, whatever the
state before. -/
theorem seek_effect_on_iterator_fixed_len_faults {Key : Type} [KeyOrder Key] [IndexKey Key]
    (owner : MockReadonlyIndex) (windex : MockWritableIndex Key) (key : Bytes) :
    (∀ schema keys idx, schema.m_fixedLen ≠ 0 →
      (MockReadonlyIndex.new schema).build keys = .ok idx →
      ∀ it,
        (lower_bound_0 idx.m_ids idx.m_ids.length
            (fun id => decide (idx.m_schema.compareData (idx.rowKey id) key < 0))
          < idx.m_ids.length →
          MockReadonlyIndexIterator.seekLowerBound idx key it = none ∧
          MockReadonlyIndexIterator.seekExact idx key it = none) ∧
        (¬ lower_bound_0 idx.m_ids idx.m_ids.length
            (fun id => decide (idx.m_schema.compareData (idx.rowKey id) key < 0))
          < idx.m_ids.length →
          MockReadonlyIndexIterator.seekLowerBound idx key it
            = some ({ m_pos := idx.m_ids.length }, false) ∧
          MockReadonlyIndexIterator.seekExact idx key it = some (it, false))) ∧
    (∀ it it1, MockReadonlyIndexIterator.seekExact owner key it = some (it1, false) →
      it1 = it ∧
      ∀ wantKey,
        MockReadonlyIndexIterator.increment owner wantKey it1
          = MockReadonlyIndexIterator.increment owner wantKey it ∧
        MockReadonlyIndexIterator.decrement owner wantKey it1
          = MockReadonlyIndexIterator.decrement owner wantKey it) ∧
    (∀ it it1 b, MockReadonlyIndexIterator.seekLowerBound owner key it = some (it1, b) →
      it1.m_pos = lower_bound_0 owner.m_ids owner.m_ids.length
        (fun id => decide (owner.m_schema.compareData (owner.rowKey id) key < 0))) ∧
    (owner.m_fixedLen = 0 → owner.m_keys.offsets.length = owner.m_ids.length + 1 →
      ∀ it, (∃ it1 b, MockReadonlyIndexIterator.seekLowerBound owner key it = some (it1, b)) ∧
        (∃ it1 b, MockReadonlyIndexIterator.seekExact owner key it = some (it1, b))) ∧
    (∀ it it1, MyIndexIter.seekExact windex key it = some (it1, false) → it1 = it) ∧
    (∀ k : Key, IndexKey.makeKey key = some k → ∀ it, ∃ b it1 b1,
      MyIndexIter.seekLowerBound windex key it
        = some ({ m_iter := set_lower_bound (k, (0 : Int)) windex.m_kv, m_isNull := false },
            b) ∧
      MyIndexIter.seekExact windex key it = some (it1, b1)) := by
  refine ⟨?_, ?_, ?_, ?_, ?_, ?_⟩
  · intro schema keys idx hfix hb it
    obtain ⟨hf, -, hkeys⟩ := MockReadonlyIndex.build_fixed_keys schema keys idx hfix hb
    have himp := MockReadonlyIndexIterator.seekLowerBound_imp_fixed idx key hf hkeys
    have hle := lower_bound_0_le idx.m_ids idx.m_ids.length
      (fun id => decide (idx.m_schema.compareData (idx.rowKey id) key < 0))
    constructor
    · intro hlt
      rw [if_pos hlt] at himp
      simp only [MockReadonlyIndexIterator.seekLowerBound,
        MockReadonlyIndexIterator.seekExact, himp, and_self]
    · intro hlt
      rw [if_neg hlt] at himp
      have heq : lower_bound_0 idx.m_ids idx.m_ids.length
          (fun id => decide (idx.m_schema.compareData (idx.rowKey id) key < 0))
          = idx.m_ids.length := by omega
      rw [heq] at himp
      simp only [MockReadonlyIndexIterator.seekLowerBound,
        MockReadonlyIndexIterator.seekExact, himp, and_self]
  · intro it it1 h
    have heq : it1 = it := by
      unfold MockReadonlyIndexIterator.seekExact at h
      split at h
      · exact Option.noConfusion h
      · simp only [Option.some.injEq, Prod.mk.injEq] at h
        exact absurd h.2 (by decide)
      · simp only [Option.some.injEq, Prod.mk.injEq] at h
        exact h.1.symm
    subst heq
    exact ⟨rfl, fun _ => ⟨rfl, rfl⟩⟩
  · intro it it1 b h
    unfold MockReadonlyIndexIterator.seekLowerBound at h
    split at h
    · exact Option.noConfusion h
    · rename_i lo b1 himp
      simp only [Option.some.injEq, Prod.mk.injEq] at h
      rw [← h.1]
      exact MockReadonlyIndexIterator.seekLowerBound_imp_lo owner key lo b1 himp
  · intro hf hoff it
    obtain ⟨b, hb⟩ := MockReadonlyIndexIterator.seekLowerBound_imp_var owner key hf hoff
    constructor
    · simp only [MockReadonlyIndexIterator.seekLowerBound, hb]
      exact ⟨_, b, rfl⟩
    · cases b with
      | true =>
        simp only [MockReadonlyIndexIterator.seekExact, hb]
        exact ⟨_, true, rfl⟩
      | false =>
        simp only [MockReadonlyIndexIterator.seekExact, hb]
        exact ⟨_, false, rfl⟩
  · intro it it1 h
    cases hk : (IndexKey.makeKey key : Option Key) with
    | none =>
      simp only [MyIndexIter.seekExact, hk] at h
      exact Option.noConfusion h
    | some k =>
      cases hget : windex.m_kv[set_lower_bound (k, (0 : Int)) windex.m_kv]? with
      | none =>
        rw [MyIndexIter.seekExact_of_end windex key k hk it hget] at h
        exact (Prod.mk.inj (Option.some.inj h)).1.symm
      | some e =>
        rw [MyIndexIter.seekExact_of_get windex key k hk it e hget] at h
        cases heq : KeyOrder.equal e.1 k with
        | true =>
          rw [heq, if_pos rfl] at h
          exact absurd (Prod.mk.inj (Option.some.inj h)).2 (by decide)
        | false =>
          rw [heq, if_neg Bool.false_ne_true] at h
          exact (Prod.mk.inj (Option.some.inj h)).1.symm
  · intro k hk it
    cases hget : windex.m_kv[set_lower_bound (k, (0 : Int)) windex.m_kv]? with
    | none =>
      exact ⟨false, it, false, MyIndexIter.seekLowerBound_of_end windex key k hk it hget,
        MyIndexIter.seekExact_of_end windex key k hk it hget⟩
    | some e =>
      have hE := MyIndexIter.seekExact_of_get windex key k hk it e hget
      cases heq : KeyOrder.equal e.1 k with
      | true =>
        rw [heq, if_pos rfl] at hE
        exact ⟨_, _, true, MyIndexIter.seekLowerBound_of_get windex key k hk it e hget, hE⟩
      | false =>
        rw [heq, if_neg Bool.false_ne_true] at hE
        exact ⟨_, it, false, MyIndexIter.seekLowerBound_of_get windex key k hk it e hget, hE⟩

theorem seek_effect_on_iterator_fixed_len_faults_witness :
    sampleFixedSchema.m_fixedLen ≠ 0 ∧
    (MockReadonlyIndex.new sampleFixedSchema).build sampleFixedKeys = .ok sampleFixedIndex ∧
    lower_bound_0 sampleFixedIndex.m_ids sampleFixedIndex.m_ids.length
        (fun id => decide (sampleFixedIndex.m_schema.compareData
          (sampleFixedIndex.rowKey id) [98] < 0))
      < sampleFixedIndex.m_ids.length ∧
    (MockReadonlyIndexIterator.seekLowerBound sampleFixedIndex [98] { m_pos := 1 } = none ∧
      MockReadonlyIndexIterator.seekExact sampleFixedIndex [98] { m_pos := 1 } = none) ∧
    MockReadonlyIndexIterator.seekLowerBound sampleFixedIndex [100] { m_pos := 1 }
      = some ({ m_pos := 4 }, false) ∧
    MockReadonlyIndexIterator.seekExact sampleVarIndex [100] { m_pos := 2 }
      = some ({ m_pos := 2 }, false) ∧
    MockReadonlyIndexIterator.seekLowerBound sortedVarIndex [98] { m_pos := 0 }
      = some ({ m_pos := 1 }, true) ∧
    (IndexKey.makeKey [97, 0] : Option Bytes) = some [97, 0] ∧
    MyIndexIter.seekExact sampleWritableIndex [97, 0] { m_iter := 0, m_isNull := false }
      = some ({ m_iter := 0, m_isNull := false }, false) ∧
    MyIndexIter.seekLowerBound sampleWritableIndex [97, 0] { m_iter := 0, m_isNull := false }
      = some ({ m_iter := 1, m_isNull := false }, false) :=
  ⟨by decide, rfl, by decide,
    ((seek_effect_on_iterator_fixed_len_faults sampleVarIndex sampleWritableIndex [98]).1
      sampleFixedSchema sampleFixedKeys sampleFixedIndex (by decide) rfl { m_pos := 1 }).1
      (by decide),
    by decide, by decide, by decide, rfl, by decide, by decide⟩

/-! ## The key that the readonly iterator yields -/

theorem MockReadonlyIndex.get?_eq_rowKey (idx : MockReadonlyIndex) (hvar : idx.m_fixedLen = 0)
    (id : Nat) (h : id + 1 < idx.m_keys.offsets.length) :
    idx.m_keys.get? id = some (idx.rowKey id) := by
  unfold fstrvec.get? MockReadonlyIndex.rowKey
  simp only [hvar, ne_eq, not_true_eq_false, if_false, List.getD_eq_getElem?_getD,
    List.getElem?_eq_getElem (show id < idx.m_keys.offsets.length by omega),
    List.getElem?_eq_getElem h, Option.getD_some]

/-- What holds for variable-length keys: on the index that `build` makes of keys in append
order, the entry at every sorted position `p` has the id `m_ids[p]` and the key bytes of this
row as they were appended, which are the bytes that `getValueAppend(id)` appends. -/
theorem MockReadonlyIndex.var_entry_key (self : MockReadonlyIndex) (recs : List Bytes)
    (idx : MockReadonlyIndex) (hb : self.build (SortableStrVec.ofRecords recs) = .ok idx)
    (hvar : self.m_schema.m_fixedLen = 0) (p : Nat) (hp : p < idx.m_ids.length) :
    ∃ id r, idx.m_ids[p]? = some id ∧ recs[id]? = some r ∧
      MockReadonlyIndexIterator.getIndexKey idx true p = some (id, some r) ∧
      ∀ buf, idx.getValueAppend id buf = some (buf ++ r) := by
  obtain ⟨hfl, hlen, hlt, hoff⟩ := MockReadonlyIndex.build_shape self _ idx hb
  have hrows : MockReadonlyIndex.buildRows self.m_schema (SortableStrVec.ofRecords recs)
      = recs.length := by
    simp [MockReadonlyIndex.buildRows, Schema.getFixedRowLen, hvar, ofRecords_index_length]
  rw [hrows] at hlen hlt hoff
  have hid : idx.m_ids[p] < recs.length := hlt _ (List.getElem_mem hp)
  have hfl0 : idx.m_fixedLen = 0 := hfl.trans hvar
  have hr : recs[idx.m_ids[p]]? = some recs[idx.m_ids[p]] := List.getElem?_eq_getElem hid
  have hkey := MockReadonlyIndex.build_rowKey_var self recs idx hb hvar _ _ hr
  have hget := MockReadonlyIndex.get?_eq_rowKey idx hfl0 idx.m_ids[p]
    (by rw [hoff hvar]; omega)
  rw [hkey] at hget
  refine ⟨idx.m_ids[p], recs[idx.m_ids[p]], List.getElem?_eq_getElem hp, hr, ?_, ?_⟩
  · simp only [MockReadonlyIndexIterator.getIndexKey, List.getElem?_eq_getElem hp, hget,
      if_true]
  · intro buf
    have hlt2 : idx.m_ids[p] < idx.m_ids.length := by rw [hlen]; exact hid
    simp only [MockReadonlyIndex.getValueAppend, hlt2, if_true, hfl0, ne_eq,
      not_true_eq_false, if_false, hget]

/-- C35 fails on the code for fixed-length keys: on the index that `build` makes of the one-byte
keys `"b"`, `"a"`, `"c"`, `"a"`, `getValueAppend(1)` appends the key `"a"` of row `1`, which is
the id at sorted position `0`; but the iterator's `getIndexKey` reads `m_keys[1]` although the
packed keys of a fixed-length index hold no row, so `increment` with a key buffer has no
defined result; with a null key pointer it yields the id `1`. -/
theorem readonly_iterator_fixed_len_key_faults :
    (MockReadonlyIndex.new sampleFixedSchema).build sampleFixedKeys = .ok sampleFixedIndex ∧
    sampleFixedIndex.m_ids[0]? = some 1 ∧
    sampleFixedIndex.getValueAppend 1 [] = some [97] ∧
    sampleFixedIndex.m_keys.size = 0 ∧
    MockReadonlyIndexIterator.getIndexKey sampleFixedIndex true 0 = none ∧
    MockReadonlyIndexIterator.increment sampleFixedIndex true MockReadonlyIndexIterator.fresh
      = none ∧
    MockReadonlyIndexIterator.increment sampleFixedIndex false MockReadonlyIndexIterator.fresh
      = some ({ m_pos := 1 }, some (1, none)) :=
  ⟨rfl, by decide, by decide, by decide, by decide, by decide, by decide⟩

/-! ## The row count of a readonly store -/

/-- C36 fails on the code for a fixed-row-length store: the store that `build` makes of the four
one-byte rows `"b"`, `"a"`, `"c"`, `"a"` answers `numDataRows() = 0`, the size of its packed
vector, which `build` leaves empty; `save` writes the row count `4 = poolSize / fixedLen` into
the header, and `getValueAppend` reads the rows `0..3`. -/
theorem readonly_store_fixed_len_numDataRows_zero :
    MockReadonlyStore.new.build sampleFixedSchema sampleFixedKeys = .ok sampleFixedStore ∧
    sampleFixedStore.numDataRows = 0 ∧
    sampleFixedStore.rowCount = 4 ∧
    (sampleFixedStore.save.drop 8).take 8 = le_bytes 8 4 ∧
    sampleFixedStore.getValueAppend 3 [] = some [97] :=
  ⟨rfl, by decide, by decide, by decide, by decide⟩

/-- What holds for a variable-length store: `numDataRows()` of the store that `build` makes of
records in append order is the number of records, and it is the row count that `save`
writes. -/
theorem MockReadonlyStore.var_numDataRows (self : MockReadonlyStore) (schema : Schema)
    (hvar : schema.m_fixedLen = 0) (recs : List Bytes) (s : MockReadonlyStore)
    (hb : self.build schema (SortableStrVec.ofRecords recs) = .ok s) :
    s.numDataRows = recs.length ∧ s.rowCount = s.numDataRows := by
  rcases MockReadonlyStore.store_build_cases _ _ _ s hb with ⟨hf, -⟩ | ⟨-, -, -, hx⟩
  · exact absurd hvar hf
  · subst hx
    simp [MockReadonlyStore.numDataRows, MockReadonlyStore.rowCount, fstrvec.size,
      ofRecords_index_length]

/-! ## The two overloads of the key comparators -/

theorem FixedLenKeyCompare.key_id_eq_id_key (c : FixedLenKeyCompare) (key : Bytes) (id : Nat) :
    c.key_id key id = c.id_key id key := rfl

theorem VarLenKeyCompare.var_key_id_eq_id_key (c : VarLenKeyCompare) (key : Bytes) (id : Nat) :
    c.key_id key id = c.id_key id key := rfl

/-- C37 fails on the code: the overload `operator()(fstring x, size_t y)` of both comparators
returns `(*this)(y, x)`, the value of the other overload for the same id and key, instead of
comparing the key with the key of the id.  For row `0` with the key `"a"` and the probe key
`"b"`, `cmp(0, "b")` and `cmp("b", 0)` are both `true`, although
`compareData("b", "a") = 1`; for the probe key `"a"` of a row with the key `"b"` both are
`false`, although `compareData("a", "b") < 0`. -/
theorem key_compare_overloads_coincide :
    sampleFixedCompare.id_key 0 [98] = true ∧
    sampleFixedCompare.key_id [98] 0 = true ∧
    sampleFixedCompare.schema.compareData [98] [97] = 1 ∧
    sampleVarCompare.id_key 0 [98] = true ∧
    sampleVarCompare.key_id [98] 0 = true ∧
    sampleVarCompare.schema.compareData [98] [97] = 1 ∧
    (∀ (c : FixedLenKeyCompare) (key : Bytes) (id : Nat), c.key_id key id = c.id_key id key) ∧
    (∀ (c : VarLenKeyCompare) (key : Bytes) (id : Nat), c.key_id key id = c.id_key id key) :=
  ⟨by decide, by decide, by decide, by decide, by decide, by decide,
    fun _ _ _ => rfl, fun _ _ _ => rfl⟩

/-! ## The readonly iterator on a fixed-length index -/

theorem MockReadonlyIndexIterator.getIndexKey_no_keys (owner : MockReadonlyIndex)
    (hkeys : ∀ id, owner.m_keys.get? id = none) (p : Nat) :
    MockReadonlyIndexIterator.getIndexKey owner true p = none := by
  unfold MockReadonlyIndexIterator.getIndexKey
  cases owner.m_ids[p]? with
  | none => rfl
  | some id => simp only [if_true, hkeys]

/-- C5 fails on the code for fixed-length keys.  On every index with at least one row that
`build` makes under a fixed-length schema, the packed keys hold no row, and the first
`increment` of a fresh iterator that is given a key buffer reads `m_keys[id]` outside them: it
has no result, and so has every sequence of such calls.  With a null key pointer the calls
yield `m_ids[0]`, ..., `m_ids[rows-1]` in this order and then `false`, as claimed. -/
theorem readonly_iterator_increment_fixed_len_faults (schema : Schema) (keys : SortableStrVec)
    (idx : MockReadonlyIndex) (hfix : schema.m_fixedLen ≠ 0)
    (hb : (MockReadonlyIndex.new schema).build keys = .ok idx)
    (hrows : 1 ≤ idx.m_ids.length) (hmax : idx.m_ids.length < SIZE_MAX) :
    idx.m_keys.size = 0 ∧
    MockReadonlyIndexIterator.increment idx true MockReadonlyIndexIterator.fresh = none ∧
    (∀ n, MockReadonlyIndexIterator.incrementN idx true (n + 1)
      MockReadonlyIndexIterator.fresh = none) ∧
    (∀ n, MockReadonlyIndexIterator.incrementN idx false (idx.m_ids.length + n)
        MockReadonlyIndexIterator.fresh
      = some ({ m_pos := idx.m_ids.length },
          idx.m_ids.map (fun id => some (id, none)) ++ List.replicate n none)) := by
  obtain ⟨-, hsize, hkeys⟩ := MockReadonlyIndex.build_fixed_keys schema keys idx hfix hb
  have hinc : MockReadonlyIndexIterator.increment idx true MockReadonlyIndexIterator.fresh
      = none := by
    unfold MockReadonlyIndexIterator.increment MockReadonlyIndexIterator.fresh
    simp only [if_true, MockReadonlyIndexIterator.getIndexKey_no_keys idx hkeys]
  refine ⟨hsize, hinc, ?_, ?_⟩
  · intro n
    simp only [MockReadonlyIndexIterator.incrementN, hinc]
  · intro n
    exact MockReadonlyIndexIterator.incrementN_fresh idx false hrows hmax
      (fun h => absurd h Bool.false_ne_true) n

theorem readonly_iterator_increment_fixed_len_faults_witness :
    sampleFixedSchema.m_fixedLen ≠ 0 ∧
    (MockReadonlyIndex.new sampleFixedSchema).build sampleFixedKeys = .ok sampleFixedIndex ∧
    1 ≤ sampleFixedIndex.m_ids.length ∧ sampleFixedIndex.m_ids.length < SIZE_MAX ∧
    MockReadonlyIndexIterator.incrementN sampleFixedIndex false 5
        MockReadonlyIndexIterator.fresh
      = some ({ m_pos := 4 }, [some (1, none), some (3, none), some (0, none), some (2, none),
          none]) ∧
    (sampleFixedIndex.m_keys.size = 0 ∧
      MockReadonlyIndexIterator.increment sampleFixedIndex true
        MockReadonlyIndexIterator.fresh = none ∧
      (∀ n, MockReadonlyIndexIterator.incrementN sampleFixedIndex true (n + 1)
        MockReadonlyIndexIterator.fresh = none) ∧
      (∀ n, MockReadonlyIndexIterator.incrementN sampleFixedIndex false
          (sampleFixedIndex.m_ids.length + n) MockReadonlyIndexIterator.fresh
        = some ({ m_pos := sampleFixedIndex.m_ids.length },
            sampleFixedIndex.m_ids.map (fun id => some (id, none))
              ++ List.replicate n none))) :=
  ⟨by decide, rfl, by decide, by decide, by decide,
    readonly_iterator_increment_fixed_len_faults sampleFixedSchema sampleFixedKeys
      sampleFixedIndex (by decide) rfl (by decide) (by decide)⟩

/-- C6 fails on the code for fixed-length keys.  On every index with at least one row that
`build` makes under a fixed-length schema, the first `decrement` of a fresh iterator that is
given a key buffer reads `m_keys[id]` outside the packed keys: it has no result, and so has
every sequence of such calls.  With a null key pointer the calls yield `m_ids[rows-1]`, ...,
`m_ids[0]` in this order and then `false`, as claimed. -/
theorem readonly_iterator_decrement_fixed_len_faults (schema : Schema) (keys : SortableStrVec)
    (idx : MockReadonlyIndex) (hfix : schema.m_fixedLen ≠ 0)
    (hb : (MockReadonlyIndex.new schema).build keys = .ok idx)
    (hrows : 1 ≤ idx.m_ids.length) (hmax : idx.m_ids.length < SIZE_MAX) :
    idx.m_keys.size = 0 ∧
    MockReadonlyIndexIterator.decrement idx true MockReadonlyIndexIterator.fresh = none ∧
    (∀ n, MockReadonlyIndexIterator.decrementN idx true (n + 1)
      MockReadonlyIndexIterator.fresh = none) ∧
    (∀ n, MockReadonlyIndexIterator.decrementN idx false (idx.m_ids.length + n)
        MockReadonlyIndexIterator.fresh
      = some ({ m_pos := 0 },
          idx.m_ids.reverse.map (fun id => some (id, none)) ++ List.replicate n none)) := by
  obtain ⟨-, hsize, hkeys⟩ := MockReadonlyIndex.build_fixed_keys schema keys idx hfix hb
  have hdec : MockReadonlyIndexIterator.decrement idx true MockReadonlyIndexIterator.fresh
      = none := by
    unfold MockReadonlyIndexIterator.decrement MockReadonlyIndexIterator.fresh
    simp only [if_true, MockReadonlyIndexIterator.getIndexKey_no_keys idx hkeys]
  refine ⟨hsize, hdec, ?_, ?_⟩
  · intro n
    simp only [MockReadonlyIndexIterator.decrementN, hdec]
  · intro n
    exact MockReadonlyIndexIterator.decrementN_fresh idx false hrows hmax
      (fun h => absurd h Bool.false_ne_true) n

theorem readonly_iterator_decrement_fixed_len_faults_witness :
    sampleFixedSchema.m_fixedLen ≠ 0 ∧
    (MockReadonlyIndex.new sampleFixedSchema).build sampleFixedKeys = .ok sampleFixedIndex ∧
    1 ≤ sampleFixedIndex.m_ids.length ∧ sampleFixedIndex.m_ids.length < SIZE_MAX ∧
    MockReadonlyIndexIterator.decrementN sampleFixedIndex false 5
        MockReadonlyIndexIterator.fresh
      = some ({ m_pos := 0 }, [some (2, none), some (0, none), some (3, none), some (1, none),
          none]) ∧
    (sampleFixedIndex.m_keys.size = 0 ∧
      MockReadonlyIndexIterator.decrement sampleFixedIndex true
        MockReadonlyIndexIterator.fresh = none ∧
      (∀ n, MockReadonlyIndexIterator.decrementN sampleFixedIndex true (n + 1)
        MockReadonlyIndexIterator.fresh = none) ∧
      (∀ n, MockReadonlyIndexIterator.decrementN sampleFixedIndex false
          (sampleFixedIndex.m_ids.length + n) MockReadonlyIndexIterator.fresh
        = some ({ m_pos := 0 },
            sampleFixedIndex.m_ids.reverse.map (fun id => some (id, none))
              ++ List.replicate n none))) :=
  ⟨by decide, rfl, by decide, by decide, by decide,
    readonly_iterator_decrement_fixed_len_faults sampleFixedSchema sampleFixedKeys
      sampleFixedIndex (by decide) rfl (by decide) (by decide)⟩

/-- C9 fails on the code for fixed-length keys.  On every index with at least one row that
`build` makes under a fixed-length schema the iterator gets past-end as claimed (`rows` calls of
`increment` with a null key pointer and one more that returns `false`, or a `seekLowerBound`
whose lower bound is `rows`), but the next `decrement` that is given a key buffer does not yield
the entry at sorted position `rows - 1`: it reads `m_keys[id]` outside the packed keys and has no
result.  With a null key pointer it returns `true` and yields the id `m_ids[rows-1]`. -/
theorem readonly_iterator_past_end_fixed_len_faults (schema : Schema) (keys : SortableStrVec)
    (idx : MockReadonlyIndex) (hfix : schema.m_fixedLen ≠ 0)
    (hb : (MockReadonlyIndex.new schema).build keys = .ok idx)
    (hrows : 1 ≤ idx.m_ids.length) (hmax : idx.m_ids.length < SIZE_MAX) :
    MockReadonlyIndexIterator.incrementN idx false (idx.m_ids.length + 1)
        MockReadonlyIndexIterator.fresh
      = some ({ m_pos := idx.m_ids.length },
          idx.m_ids.map (fun id => some (id, none)) ++ [none]) ∧
    (∀ key it,
      ¬ lower_bound_0 idx.m_ids idx.m_ids.length
          (fun id => decide (idx.m_schema.compareData (idx.rowKey id) key < 0))
        < idx.m_ids.length →
      MockReadonlyIndexIterator.seekLowerBound idx key it
        = some ({ m_pos := idx.m_ids.length }, false)) ∧
    (∀ it : MockReadonlyIndexIterator, it.m_pos = idx.m_ids.length →
      MockReadonlyIndexIterator.decrement idx true it = none) ∧
    (∀ it : MockReadonlyIndexIterator, it.m_pos = idx.m_ids.length →
      ∃ id, idx.m_ids[idx.m_ids.length - 1]? = some id ∧
        MockReadonlyIndexIterator.decrement idx false it
          = some ({ m_pos := idx.m_ids.length - 1 }, some (id, none))) := by
  obtain ⟨hf, -, hkeys⟩ := MockReadonlyIndex.build_fixed_keys schema keys idx hfix hb
  refine ⟨?_, ?_, ?_, ?_⟩
  · exact MockReadonlyIndexIterator.incrementN_fresh idx false hrows hmax
      (fun h => absurd h Bool.false_ne_true) 1
  · intro key it hlt
    have himp := MockReadonlyIndexIterator.seekLowerBound_imp_fixed idx key hf hkeys
    have hle := lower_bound_0_le idx.m_ids idx.m_ids.length
      (fun id => decide (idx.m_schema.compareData (idx.rowKey id) key < 0))
    rw [if_neg hlt] at himp
    have heq : lower_bound_0 idx.m_ids idx.m_ids.length
        (fun id => decide (idx.m_schema.compareData (idx.rowKey id) key < 0))
        = idx.m_ids.length := by omega
    rw [heq] at himp
    simp only [MockReadonlyIndexIterator.seekLowerBound, himp]
  · intro it hit
    have h1 : ¬ idx.m_ids.length = SIZE_MAX := by omega
    have h2 : idx.m_ids.length > 0 := by omega
    unfold MockReadonlyIndexIterator.decrement
    simp only [hit, h1, if_false, h2, if_true,
      MockReadonlyIndexIterator.getIndexKey_no_keys idx hkeys]
  · intro it hit
    exact (MockReadonlyIndexIterator.past_end_decrement idx false hrows hmax
      (fun h => absurd h Bool.false_ne_true)).2.2 it hit

theorem readonly_iterator_past_end_fixed_len_faults_witness :
    sampleFixedSchema.m_fixedLen ≠ 0 ∧
    (MockReadonlyIndex.new sampleFixedSchema).build sampleFixedKeys = .ok sampleFixedIndex ∧
    1 ≤ sampleFixedIndex.m_ids.length ∧ sampleFixedIndex.m_ids.length < SIZE_MAX ∧
    MockReadonlyIndexIterator.seekLowerBound sampleFixedIndex [100]
        MockReadonlyIndexIterator.fresh = some ({ m_pos := 4 }, false) ∧
    MockReadonlyIndexIterator.decrement sampleFixedIndex true { m_pos := 4 } = none ∧
    MockReadonlyIndexIterator.decrement sampleFixedIndex false { m_pos := 4 }
      = some ({ m_pos := 3 }, some (2, none)) ∧
    (∀ it : MockReadonlyIndexIterator, it.m_pos = sampleFixedIndex.m_ids.length →
      MockReadonlyIndexIterator.decrement sampleFixedIndex true it = none) :=
  ⟨by decide, rfl, by decide, by decide, by decide, by decide, by decide,
    (readonly_iterator_past_end_fixed_len_faults sampleFixedSchema sampleFixedKeys
      sampleFixedIndex (by decide) rfl (by decide) (by decide)).2.2.1⟩

end TerichDB
